import Mathlib

/-!
# Web-Mercator tile pyramid: pixels, tiles and quadkeys

A shallow embedding of `terrain.go`.  Go's `uint64` values are natural numbers
with every shift reduced modulo `2 ^ 64`; a Go `panic(msg)` is `Except.error msg`;
a `[]byte` is a list of natural numbers (the byte values); `float64` arithmetic is
read as exact arithmetic in a linearly ordered field `K` with a floor function, the
functions of Go's `math` package being supplied as a record `Math K`.
-/

namespace Terrain

/-! ## Machine arithmetic -/

/-- Go `a << s` on `uint64`: the shifted value reduced modulo `2 ^ 64`. -/
def shl64 (a s : Nat) : Nat := (a <<< s) % 2 ^ 64

/-- Go `a >> s` on `uint64`. -/
def shr64 (a s : Nat) : Nat := a >>> s

/-- Go `byte(i) - 1` for a non-negative `int` `i`: conversion to `uint8`, then a
wrapping subtraction. -/
def bytePred (i : Nat) : Nat := (i % 256 + 255) % 256

/-- Equality of results is decidable, so that conversions can be evaluated. -/
instance instDecidableEqExcept {ε α : Type} [DecidableEq ε] [DecidableEq α] :
    DecidableEq (Except ε α)
  | .ok a, .ok b => if h : a = b then isTrue (by rw [h]) else isFalse (by simpa using h)
  | .error a, .error b => if h : a = b then isTrue (by rw [h]) else isFalse (by simpa using h)
  | .ok _, .error _ => isFalse (by simp)
  | .error _, .ok _ => isFalse (by simp)

/-! ## Constants -/

/-- Pixels per tile side. -/
def tileSize : Nat := 256

/-- MaxZoom represents that maximum zoom level for safe calculations. -/
def MaxZoom : Nat := 38

/-- Datum tag of Web-Mercator metres (`type Datum int`). -/
def EPSG3857 : Int := 3857

/-- Datum tag of WGS84 latitude/longitude. -/
def EPSG4326 : Int := 4326

/-! ## Zoom helpers -/

/-- Source `MapPixelSize`: `tileSize << zoom`, panicking above `MaxZoom`. -/
def MapPixelSize (zoom : Nat) : Except String Nat :=
  if zoom > MaxZoom then .error "invalid zoom"
  else .ok (shl64 tileSize zoom)

/-- Source `MapTileSize`: `tileSize << zoom >> 8`, panicking above `MaxZoom`. -/
def MapTileSize (zoom : Nat) : Except String Nat :=
  if zoom > MaxZoom then .error "invalid zoom"
  else .ok (shr64 (shl64 tileSize zoom) 8)

/-! ## Data model -/

/-- Source `type Pixel struct { x, y, zoom uint64 }`. -/
structure Pixel where
  x : Nat
  y : Nat
  zoom : Nat
deriving DecidableEq

/-- Source `type Tile struct { z, x, y uint64 }`. -/
structure Tile where
  z : Nat
  x : Nat
  y : Nat
deriving DecidableEq

/-- Source `type QuadKey []byte`. -/
abbrev QuadKey := List Nat

/-- Source `type Coord struct { x, y float64; datum Datum }`. -/
structure Coord (K : Type) where
  x : K
  y : K
  datum : Int

/-- The functions and the constant of Go's `math` package that the conversions use. -/
structure Math (K : Type) where
  Pi : K
  Sin : K → K
  Log : K → K
  Exp : K → K
  Atan : K → K
  Tan : K → K

/-! ## Pixels -/

/-- Source `Pixel.Valid`. -/
def Pixel.Valid (pixel : Pixel) : Bool :=
  if pixel.zoom > MaxZoom then false
  else decide (pixel.x < shl64 tileSize pixel.zoom) &&
    decide (pixel.y < shl64 tileSize pixel.zoom)

/-- Source `MakePixel`. -/
def MakePixel (x y zoom : Nat) : Except String Pixel :=
  let pixel : Pixel := { x := x, y := y, zoom := zoom }
  if !pixel.Valid then .error "invalid pixel"
  else .ok pixel

/-- Source `Pixel.XYZoom`. -/
def Pixel.XYZoom (pixel : Pixel) : Nat × Nat × Nat := (pixel.x, pixel.y, pixel.zoom)

/-- Source `Pixel.Tile`. -/
def Pixel.Tile (pixel : Pixel) : Except String Terrain.Tile :=
  if !pixel.Valid then .error "invalid pixel"
  else .ok { x := shr64 pixel.x 8, y := shr64 pixel.y 8, z := pixel.zoom }

/-! ## Tiles -/

/-- Source `Tile.Valid`. -/
def Tile.Valid (tile : Tile) : Bool :=
  if tile.z > MaxZoom then false
  else decide (tile.x < shr64 (shl64 tileSize tile.z) 8) &&
    decide (tile.y < shr64 (shl64 tileSize tile.z) 8)

/-- Source `MakeZXYTile`. -/
def MakeZXYTile (z x y : Nat) : Except String Tile :=
  let tile : Tile := { z := z, x := x, y := y }
  if !tile.Valid then .error "invalid tile"
  else .ok tile

/-- Source `Tile.ZXY`. -/
def Tile.ZXY (tile : Tile) : Nat × Nat × Nat := (tile.z, tile.x, tile.y)

/-- Source `Tile.Pixel`: the top-left pixel of the tile. -/
def Tile.Pixel (tile : Tile) : Except String Terrain.Pixel :=
  MakePixel (shl64 tile.x 8) (shl64 tile.y 8) tile.z

/-- The character stored by one iteration of the loop of `Tile.QuadKey`, for the
loop counter `i`: `mask := uint64(1 << (i - 1))`, then the four-way test. -/
def Tile.quadKeyChar (tile : Tile) (i : Nat) : Nat :=
  let mask := shl64 1 (i - 1)
  if tile.x &&& mask ≠ 0 then
    if tile.y &&& mask ≠ 0 then 51 else 49
  else if tile.y &&& mask ≠ 0 then 50
  else 48

/-- The loop `for i, j := tile.z, 0; i > 0; i, j = i-1, j+1` of `Tile.QuadKey`,
storing into `quadKey[j]`.  Started at `i = tile.z`, `j = 0` on a slice of length
`tile.z`, the index `j` stays below the length, so no store is out of range. -/
def Tile.quadKeyLoop (tile : Tile) : Nat → Nat → List Nat → List Nat
  | 0, _, quadKey => quadKey
  | i + 1, j, quadKey =>
    Tile.quadKeyLoop tile i (j + 1) (quadKey.set j (tile.quadKeyChar (i + 1)))

/-- Source `Tile.QuadKey`: `make([]byte, tile.z)` followed by the loop. -/
def Tile.QuadKey (tile : Tile) : Terrain.QuadKey :=
  Tile.quadKeyLoop tile tile.z 0 (List.replicate tile.z 0)

/-! ## Quadkeys -/

/-- Source `QuadKey.Valid`. -/
def QuadKey.Valid (quadKey : QuadKey) : Bool :=
  if quadKey.length > MaxZoom then false
  else quadKey.all fun c => !(decide (c < 48) || decide (c > 51))

/-- One iteration of the loop of `QuadKey.Tile`, for the loop counter `i`:
`mask := uint64(1 << (byte(i) - 1))`, then the switch on `quadKey[len(quadKey)-i]`.
The loop runs `i` from `len(quadKey)` down to 1, so the index is always in range and
the default of `getD` is never used. -/
def QuadKey.tileStep (quadKey : QuadKey) (i : Nat) (tile : Terrain.Tile) : Terrain.Tile :=
  let mask := shl64 1 (bytePred i)
  let c := quadKey.getD (quadKey.length - i) 0
  if c = 48 then tile
  else if c = 49 then { tile with x := tile.x ||| mask }
  else if c = 50 then { tile with y := tile.y ||| mask }
  else if c = 51 then { tile with x := tile.x ||| mask, y := tile.y ||| mask }
  else tile

/-- The loop `for i := len(quadKey); i > 0; i--` of `QuadKey.Tile`. -/
def QuadKey.tileLoop (quadKey : QuadKey) : Nat → Terrain.Tile → Terrain.Tile
  | 0, tile => tile
  | i + 1, tile => QuadKey.tileLoop quadKey i (QuadKey.tileStep quadKey (i + 1) tile)

/-- Source `QuadKey.Tile`. -/
def QuadKey.Tile (quadKey : QuadKey) : Except String Terrain.Tile :=
  if !QuadKey.Valid quadKey then .error "invalid quadkey"
  else .ok (QuadKey.tileLoop quadKey quadKey.length
    { z := quadKey.length, x := 0, y := 0 })

/-- Source `QuadKey.Pixel`. -/
def QuadKey.Pixel (quadKey : QuadKey) : Except String Terrain.Pixel :=
  QuadKey.Tile quadKey >>= Tile.Pixel

/-- Source `Pixel.QuadKey`. -/
def Pixel.QuadKey (pixel : Pixel) : Except String Terrain.QuadKey :=
  pixel.Tile >>= fun tile => pure tile.QuadKey

/-! ## Coordinates

`float64` is read as an exact linearly ordered field `K` with a floor function.  Every
value of `K` is a number: a coordinate holding a not-a-number value is outside this
reading, and a statement that is meant for every `float64` coordinate takes the
outcome of `Coord.Pixel` as given instead of deriving it. -/

section Coordinates

variable {K : Type}

/-- Source `Coord.Valid`: the `switch` on the datum. -/
def Coord.Valid (coord : Coord K) : Bool :=
  if coord.datum = EPSG3857 then true
  else if coord.datum = EPSG4326 then true
  else false

/-- Source `MakeLatLonCoord`. -/
def MakeLatLonCoord (lat lon : K) : Except String (Coord K) :=
  let coord : Coord K := { x := lon, y := lat, datum := EPSG4326 }
  if !coord.Valid then .error "invalid coord"
  else .ok coord

/-- Source `MakeMetersCoord`. -/
def MakeMetersCoord (x y : K) : Except String (Coord K) :=
  let coord : Coord K := { x := x, y := y, datum := EPSG3857 }
  if !coord.Valid then .error "invalid coord"
  else .ok coord

/-- Source `Coord.Datum`. -/
def Coord.Datum (coord : Coord K) : Int := coord.datum

variable [LinearOrderedField K] [FloorRing K]

/-- Earth radius in metres. -/
def earthRadius : K := 6378137

/-- Source constant `originShift = 2 * math.Pi * earthRadius / 2.0`. -/
def originShift (math : Math K) : K := 2 * math.Pi * earthRadius / 2

/-- Source constant `minLat`. -/
def minLat : K := -85.05112877980659

/-- Source constant `maxLat`. -/
def maxLat : K := 85.05112877980659

/-- Source constant `minLon`. -/
def minLon : K := -180

/-- Source constant `maxLon`. -/
def maxLon : K := 180

/-- Source `clip`. -/
def clip (n min max : K) : K :=
  if n < min then min
  else if n > max then max
  else n

/-- Go conversion `uint64(v)` of a `float64`: truncation, which on the non-negative
values it is applied to is the floor. -/
def toUint64 (v : K) : Nat := ⌊v⌋₊ % 2 ^ 64

/-- Source `epsg3857To4326`, returning `(lat, lon)`. -/
def epsg3857To4326 (math : Math K) (x y : K) : K × K :=
  let lon := (x / originShift math) * 180
  let lat := (y / originShift math) * 180
  let lat := 180 / math.Pi * (2 * math.Atan (math.Exp (lat * math.Pi / 180)) - math.Pi / 2)
  (lat, lon)

/-- Source `epsg4326To3857`, returning `(x, y)`. -/
def epsg4326To3857 (math : Math K) (lat lon : K) : K × K :=
  let x := lon * originShift math / 180
  let y := math.Log (math.Tan ((90 + lat) * math.Pi / 360)) / (math.Pi / 180)
  let y := y * originShift math / 180
  (x, y)

/-- Source `Coord.LatLon`, returning `(lat, lon)`; a datum outside the two cases
leaves the named results at zero. -/
def Coord.LatLon (math : Math K) (coord : Coord K) : K × K :=
  if coord.datum = EPSG3857 then epsg3857To4326 math coord.x coord.y
  else if coord.datum = EPSG4326 then (coord.y, coord.x)
  else (0, 0)

/-- Source `Coord.Meters`, returning `(x, y)`. -/
def Coord.Meters (math : Math K) (coord : Coord K) : K × K :=
  if coord.datum = EPSG3857 then (coord.x, coord.y)
  else if coord.datum = EPSG4326 then epsg4326To3857 math coord.y coord.x
  else (0, 0)

/-- Source `Coord.Pixel`.  The final `MakePixel` is kept, so a conversion whose
truncated values are out of range panics with "invalid pixel", as in the source. -/
def Coord.Pixel (math : Math K) (coord : Coord K) (zoom : Nat) :
    Except String Terrain.Pixel :=
  if zoom > MaxZoom then .error "invalid zoom"
  else
    let latLon := coord.LatLon math
    let lat := clip latLon.1 minLat maxLat
    let lon := clip latLon.2 minLon maxLon
    let xx := (lon + 180) / 360
    let sinLat := math.Sin (lat * math.Pi / 180)
    let yy := 0.5 - math.Log ((1 + sinLat) / (1 - sinLat)) / (4 * math.Pi)
    MapPixelSize zoom >>= fun size =>
      let mapSize : K := (size : K)
      MakePixel
        (toUint64 (clip (xx * mapSize + 0.5) 0 (mapSize - 1)))
        (toUint64 (clip (yy * mapSize + 0.5) 0 (mapSize - 1)))
        zoom

/-- Source `Coord.Tile`. -/
def Coord.Tile (math : Math K) (coord : Coord K) (zoom : Nat) :
    Except String Terrain.Tile :=
  Coord.Pixel math coord zoom >>= Pixel.Tile

/-- Source `Coord.QuadKey`. -/
def Coord.QuadKey (math : Math K) (coord : Coord K) (zoom : Nat) :
    Except String Terrain.QuadKey :=
  Coord.Pixel math coord zoom >>= Pixel.QuadKey

/-- Source `Pixel.Coord`. -/
def Pixel.Coord (math : Math K) (pixel : Pixel) : Except String (Terrain.Coord K) :=
  if !pixel.Valid then .error "invalid pixel"
  else
    MapPixelSize pixel.zoom >>= fun size =>
      let mapSize : K := (size : K)
      let x := clip (pixel.x : K) 0 (mapSize - 1) / mapSize - 0.5
      let y := 0.5 - clip (pixel.y : K) 0 (mapSize - 1) / mapSize
      MakeLatLonCoord
        (90 - 360 * math.Atan (math.Exp ((-y) * 2 * math.Pi)) / math.Pi)
        (360 * x)

/-- Source `Tile.Coord`. -/
def Tile.Coord (math : Math K) (tile : Tile) : Except String (Terrain.Coord K) :=
  tile.Pixel >>= Pixel.Coord math

/-- Source `QuadKey.Coord`. -/
def QuadKey.Coord (math : Math K) (quadKey : QuadKey) : Except String (Terrain.Coord K) :=
  QuadKey.Pixel quadKey >>= Pixel.Coord math

/-- Source `Tile.Bounds`, returning `(min, max)`.  The additions `x+1` and `y+1` are
`uint64` additions; the comparison is against `MapPixelSize(z)`, as in the source. -/
def Tile.Bounds (math : Math K) (tile : Tile) :
    Except String (Terrain.Coord K × Terrain.Coord K) := do
  let z := tile.ZXY.1
  let x := tile.ZXY.2.1
  let y := tile.ZXY.2.2
  let mapSize ← MapPixelSize z
  let nw ← Tile.Coord math tile
  let nwLat := (nw.LatLon math).1
  let nwLon := (nw.LatLon math).2
  let se : K × K ←
    if (x + 1) % 2 ^ 64 = mapSize then
      if (y + 1) % 2 ^ 64 = mapSize then
        pure (maxLat, maxLon)
      else do
        let c ← MakeZXYTile z x y >>= Tile.Coord math
        pure ((c.LatLon math).1, maxLon)
    else
      if (y + 1) % 2 ^ 64 = mapSize then do
        let c ← MakeZXYTile z ((x + 1) % 2 ^ 64) y >>= Tile.Coord math
        pure (maxLat, (c.LatLon math).2)
      else do
        let c ← MakeZXYTile z ((x + 1) % 2 ^ 64) ((y + 1) % 2 ^ 64) >>= Tile.Coord math
        pure ((c.LatLon math).1, (c.LatLon math).2)
  let min ← MakeLatLonCoord se.1 nwLon
  let max ← MakeLatLonCoord nwLat se.2
  pure (min, max)

/-- The latitude expression of `Pixel.Coord`,
`90 - 360*math.Atan(math.Exp(-y*2*math.Pi))/math.Pi`, as a function of `y`. -/
def pixelLat (math : Math K) (y : K) : K :=
  90 - 360 * math.Atan (math.Exp ((-y) * 2 * math.Pi)) / math.Pi

/-- The expression `yy` of `Coord.Pixel`,
`0.5 - math.Log((1+sinLat)/(1-sinLat))/(4*math.Pi)` with
`sinLat := math.Sin(lat * math.Pi / 180)`, as a function of the clipped latitude. -/
def mercatorY (math : Math K) (lat : K) : K :=
  0.5 - math.Log ((1 + math.Sin (lat * math.Pi / 180)) /
    (1 - math.Sin (lat * math.Pi / 180))) / (4 * math.Pi)

/-- A rational interpretation of the `math` record, for evaluating the conversions
on concrete inputs: `Pi` is a rational approximation and the transcendental
functions are low-order rational stand-ins. -/
def Math.rational : Math ℚ where
  Pi := 355 / 113
  Sin := fun v => v - v * v * v / 6
  Log := fun v => 2 * (v - 1) / (v + 1)
  Exp := fun v => 1 + v + v * v / 2
  Atan := fun v => v / (1 + v * v / 3)
  Tan := fun v => v + v * v * v / 3

end Coordinates


/-- The reading of `float64` arithmetic as exact real arithmetic: the record `math`
holds the real constant and the real functions that Go's `math` package approximates. -/
def Math.IsReal (math : Math ℝ) : Prop :=
  math.Pi = Real.pi ∧ math.Sin = Real.sin ∧ math.Log = Real.log ∧ math.Exp = Real.exp ∧
    math.Atan = Real.arctan ∧ math.Tan = Real.tan

/-! ## Elevation service

A shallow embedding of `elevation.go`.  The mutex is left out: the service is the map,
the ring of keys and the counter, threaded through every call.  The HTTP transport
and the PNG decoder are collaborators, passed in as a record `TileSource`.  A Go
`panic` is the outer `Except.error`; a returned Go `error` is the `result` field of a
`Step`.  The Go `int` counter `lrui` is a 64-bit two's-complement integer. -/

/-- Source constant `MaxElevationZoom`. -/
def MaxElevationZoom : Nat := 14

/-- Source `type cacheKey struct { z, x, y uint64 }`. -/
structure cacheKey where
  z : Nat
  x : Nat
  y : Nat
deriving DecidableEq

/-- Source `type ElevationService struct`, without the mutex: `cache` is the Go map
(`none` for an absent key), `lru` the slice of keys, `lrui` the counter. -/
structure ElevationService where
  cache : cacheKey → Option (List Nat)
  lru : List cacheKey
  lrui : Int

/-- Source `type PixelTile struct { Tile Tile; Pix []byte }`. -/
structure PixelTile where
  Tile : Terrain.Tile
  Pix : List Nat

/-- What `wgetTerrarium` looks at in a decoded image: `img.Bounds().Size()` and the
`Pix` and `Stride` of the `image.NRGBA` that `image.NewNRGBA` and `draw.Draw` make
from it. -/
structure DecodedImage where
  width : Int
  height : Int
  pix : List Nat
  stride : Int

/-- The layout that `image.NewNRGBA` gives its result: four bytes per pixel, rows
stored one after the other. -/
def DecodedImage.WellFormed (img : DecodedImage) : Prop :=
  img.stride = 4 * img.width ∧ (img.pix.length : Int) = img.stride * img.height

/-- The external collaborators of `wgetTerrarium`: `http.Get` with `ioutil.ReadAll`,
and `png.Decode` followed by the redraw into an `image.NRGBA`. -/
structure TileSource where
  httpGet : String → Except String (List Nat)
  decode : List Nat → Except String DecodedImage

/-- The outcome of one call on the service: the value or Go `error` returned, the
service afterwards, and the keys requested from the tile source during the call. -/
structure Step (α : Type) where
  result : Except String α
  service : ElevationService
  calls : List cacheKey

/-- Go conversion to `int`: reduction into `[-2 ^ 63, 2 ^ 63)`. -/
def wrapInt64 (v : Int) : Int := (v + 2 ^ 63) % 2 ^ 64 - 2 ^ 63

/-- Go `delete(m, key)`. -/
def mapDelete (m : cacheKey → Option (List Nat)) (key : cacheKey) :
    cacheKey → Option (List Nat) :=
  fun k => if k = key then none else m k

/-- Go `m[key] = pix`. -/
def mapStore (m : cacheKey → Option (List Nat)) (key : cacheKey) (pix : List Nat) :
    cacheKey → Option (List Nat) :=
  fun k => if k = key then some pix else m k

/-- Source `NewElevationService`: an empty map, 1024 zero keys, counter 0. -/
def NewElevationService : ElevationService :=
  { cache := fun _ => none
    lru := List.replicate 1024 { z := 0, x := 0, y := 0 }
    lrui := 0 }

/-- Source constant `terrariumURL`. -/
def terrariumURL : String :=
  "https://tile.mapzen.com/mapzen/terrain/v1/terrarium/\x7bz\x7d/\x7bx\x7d/\x7by\x7d.png"

/-- Source `makeURL`. -/
def makeURL (url : String) (z x y : Nat) : String :=
  let url := url.replace "\x7bz\x7d" (toString z)
  let url := url.replace "\x7bx\x7d" (toString x)
  let url := url.replace "\x7by\x7d" (toString y)
  url

/-- Source `wget`. -/
def wget (src : TileSource) (url : String) : Except String (List Nat) :=
  src.httpGet url

/-- Source `wgetTerrarium`. -/
def wgetTerrarium (src : TileSource) (z x y : Nat) : Except String (List Nat) :=
  match wget src (makeURL terrariumURL z x y) with
  | .error err => .error err
  | .ok data =>
    match src.decode data with
    | .error err => .error err
    | .ok img =>
      if img.width ≠ 256 ∨ img.height ≠ 256 then
        .error "invalid png, expecting 256x256 pixel image"
      else if img.stride ≠ 1024 then
        .error "invalid pix, expecting 1024 pixel stride"
      else .ok img.pix

/-- The index expression `s.lrui % len(s.lru)` used on `s.lru`: the remainder
truncates toward zero, a zero length panics in the division and a negative remainder
panics in the indexing. -/
def ElevationService.slot (s : ElevationService) : Except String Nat :=
  if s.lru.length = 0 then .error "runtime error: integer divide by zero"
  else if Int.tmod s.lrui (s.lru.length : Int) < 0 then
    .error "runtime error: index out of range"
  else .ok (Int.tmod s.lrui (s.lru.length : Int)).toNat

/-- The part of `getTilePix` that runs under the write lock. -/
def ElevationService.insert (s : ElevationService) (key : cacheKey) (pix : List Nat) :
    Except String ElevationService :=
  (if s.lrui ≥ (s.lru.length : Int) then
      s.slot >>= fun i =>
        pure (mapDelete s.cache (s.lru.getD i { z := 0, x := 0, y := 0 }))
    else pure s.cache) >>= fun cache =>
  s.slot >>= fun i =>
    pure { cache := mapStore cache key pix
           lru := s.lru.set i key
           lrui := wrapInt64 (s.lrui + 1) }

/-- Source `getTilePix`. -/
def ElevationService.getTilePix (src : TileSource) (s : ElevationService) (z x y : Nat) :
    Except String (Step (List Nat)) :=
  if z > MaxElevationZoom then
    pure { result := .error "zoom level cannot be greater than 14", service := s, calls := [] }
  else
    match s.cache { z := z, x := x, y := y } with
    | some pix => pure { result := .ok pix, service := s, calls := [] }
    | none =>
      match wgetTerrarium src z x y with
      | .error err =>
        pure { result := .error err, service := s, calls := [{ z := z, x := x, y := y }] }
      | .ok pix =>
        s.insert { z := z, x := x, y := y } pix >>= fun s2 =>
          pure { result := .ok pix, service := s2, calls := [{ z := z, x := x, y := y }] }

/-- Source `PixelTile` (the method). -/
def ElevationService.PixelTile (src : TileSource) (s : ElevationService)
    (tile : Terrain.Tile) : Except String (Step Terrain.PixelTile) :=
  s.getTilePix src tile.ZXY.1 tile.ZXY.2.1 tile.ZXY.2.2 >>= fun r =>
    match r.result with
    | .error err => pure { result := .error err, service := r.service, calls := r.calls }
    | .ok pix =>
      pure { result := .ok { Tile := tile, Pix := pix }, service := r.service,
             calls := r.calls }

/-- The offset `idx := yy*tileSize*4 + xx*4` of `AtPixel`, with `xx := pixel.x % tileSize`
and `yy := pixel.y % tileSize`, in `uint64` arithmetic. -/
def pixIndex (pixel : Pixel) : Nat :=
  let xx := pixel.x % tileSize
  let yy := pixel.y % tileSize
  (yy * tileSize * 4 % 2 ^ 64 + xx * 4 % 2 ^ 64) % 2 ^ 64

/-- Go `pix[i]` on a byte slice: a panic when the index is out of range. -/
def byteAt (pix : List Nat) (i : Nat) : Except String Nat :=
  match pix[i]? with
  | some b => .ok b
  | none => .error "runtime error: index out of range"

section Elevation

variable {K : Type} [LinearOrderedField K] [FloorRing K]

/-- The expression `(red*256 + green + blue/256) - 32768` of `AtPixel`. -/
def terrariumMeters (red green blue : K) : K := (red * 256 + green + blue / 256) - 32768

/-- Source `AtPixel`. -/
def ElevationService.AtPixel (src : TileSource) (s : ElevationService) (pixel : Pixel) :
    Except String (Step K) :=
  pixel.Tile >>= fun tile =>
  s.PixelTile src tile >>= fun r =>
    match r.result with
    | .error err => pure { result := .error err, service := r.service, calls := r.calls }
    | .ok ptile =>
      let idx := pixIndex pixel
      byteAt ptile.Pix ((idx + 0) % 2 ^ 64) >>= fun red =>
      byteAt ptile.Pix ((idx + 1) % 2 ^ 64) >>= fun green =>
      byteAt ptile.Pix ((idx + 2) % 2 ^ 64) >>= fun blue =>
        pure { result := .ok (terrariumMeters (red : K) (green : K) (blue : K)),
               service := r.service, calls := r.calls }

/-- Source `AtCoordZoom`. -/
def ElevationService.AtCoordZoom (math : Math K) (src : TileSource) (s : ElevationService)
    (coord : Coord K) (zoom : Nat) : Except String (Step K) :=
  Coord.Pixel math coord zoom >>= fun pixel => s.AtPixel src pixel

/-- Source `AtCoord`. -/
def ElevationService.AtCoord (math : Math K) (src : TileSource) (s : ElevationService)
    (coord : Coord K) : Except String (Step K) :=
  s.AtCoordZoom math src coord MaxElevationZoom

end Elevation

/-- The keys a step inserted into the cache: the keys it fetched, when it returned a
buffer. -/
def Step.inserted {α : Type} (r : Step α) : List cacheKey :=
  match r.result with
  | .ok _ => r.calls
  | .error _ => []

/-- A sequence of `getTilePix` calls, one after the other on the same service; the
tile source of the `i`-th call is `src i`.  Returns the service at the end and the
keys inserted, in order. -/
def runLookups (src : Nat → TileSource) :
    Nat → ElevationService → List cacheKey → Except String (ElevationService × List cacheKey)
  | _, s, [] => pure (s, [])
  | i, s, key :: keys =>
    s.getTilePix (src i) key.z key.x key.y >>= fun r =>
    runLookups src (i + 1) r.service keys >>= fun rest =>
      pure (rest.1, r.inserted ++ rest.2)

/-- A tile source that serves one 256 by 256 image, every channel 128, for every URL;
for evaluating the service on concrete inputs. -/
def TileSource.flat : TileSource :=
  { httpGet := fun _ => .ok []
    decode := fun _ =>
      .ok { width := 256, height := 256, pix := List.replicate 262144 128, stride := 1024 } }

/-- A service whose map holds the flat buffer under every key; for evaluating cache
hits on concrete inputs. -/
def ElevationService.flat : ElevationService :=
  { cache := fun _ => some (List.replicate 262144 128)
    lru := List.replicate 1024 { z := 0, x := 0, y := 0 }
    lrui := 0 }

/-- The state of the service after the keys `ins` were inserted, in this order, into a
new service: the ring has 1024 slots, the counter is the number of insertions, slot
`i mod 1024` holds the `i`-th key for the last 1024 indices `i`, the map holds exactly
those keys, and two insertions at most 1024 apart are of different keys. -/
structure RingInv (s : ElevationService) (ins : List cacheKey) : Prop where
  len : s.lru.length = 1024
  count : s.lrui = (ins.length : Int)
  ring : ∀ i, i < ins.length → ins.length ≤ i + 1024 → s.lru[i % 1024]? = ins[i]?
  held : ∀ k, (s.cache k).isSome = true ↔
    ∃ i, i < ins.length ∧ ins.length ≤ i + 1024 ∧ ins[i]? = some k
  distinct : ∀ i j, i < j → j < ins.length → j ≤ i + 1024 → ins[i]? ≠ ins[j]?

/-- The insertion record of a first-in-first-out cache of 1024 entries, following the
specification: `ins` lists the insertions so far, the cache holds the keys of the last
`min(n, 1024)` of them, and the lookup of a key inserts it exactly when the key is not
held. -/
def fifoInserted : List cacheKey → List cacheKey → List cacheKey
  | ins, [] => ins
  | ins, key :: keys =>
    if key ∈ ins.drop (ins.length - 1024) then fifoInserted ins keys
    else fifoInserted (ins ++ [key]) keys

/-- The key `(14, i, 0)`; for evaluating the cache on concrete lookups. -/
def rowKey (i : Nat) : cacheKey := { z := 14, x := i, y := 0 }

/-- The keys `(14, 0, 0)`, `(14, 1, 0)`, ..., `(14, n - 1, 0)`. -/
def rowKeys (n : Nat) : List cacheKey := (List.range n).map rowKey

/-! ## Shifts and validity in arithmetic form -/

theorem shl64_tileSize {z : Nat} (hz : z ≤ 38) : shl64 tileSize z = 256 * 2 ^ z := by
  unfold shl64 tileSize
  rw [Nat.shiftLeft_eq]
  apply Nat.mod_eq_of_lt
  calc 256 * 2 ^ z ≤ 256 * 2 ^ 38 := Nat.mul_le_mul_left _ (Nat.pow_le_pow_right (by norm_num) hz)
    _ < 2 ^ 64 := by norm_num

theorem shr64_shl64_tileSize {z : Nat} (hz : z ≤ 38) :
    shr64 (shl64 tileSize z) 8 = 2 ^ z := by
  rw [shl64_tileSize hz]
  unfold shr64
  rw [Nat.shiftRight_eq_div_pow]
  norm_num

theorem shl64_one {k : Nat} (hk : k < 64) : shl64 1 k = 2 ^ k := by
  unfold shl64
  rw [Nat.one_shiftLeft]
  exact Nat.mod_eq_of_lt (Nat.pow_lt_pow_right (by norm_num) hk)

theorem pixel_valid_iff (p : Pixel) :
    p.Valid = true ↔ p.zoom ≤ 38 ∧ p.x < 256 * 2 ^ p.zoom ∧ p.y < 256 * 2 ^ p.zoom := by
  unfold Pixel.Valid MaxZoom
  by_cases hz : p.zoom ≤ 38
  · have h := shl64_tileSize hz
    simp [h, hz, Nat.not_lt.mpr hz]
  · simp [hz, Nat.lt_of_not_le hz]

theorem tile_valid_iff (t : Tile) :
    t.Valid = true ↔ t.z ≤ 38 ∧ t.x < 2 ^ t.z ∧ t.y < 2 ^ t.z := by
  unfold Tile.Valid MaxZoom
  by_cases hz : t.z ≤ 38
  · have h := shr64_shl64_tileSize hz
    simp [h, hz, Nat.not_lt.mpr hz]
  · simp [hz, Nat.lt_of_not_le hz]

theorem quadKey_valid_iff (q : QuadKey) :
    QuadKey.Valid q = true ↔ q.length ≤ 38 ∧ ∀ c ∈ q, 48 ≤ c ∧ c ≤ 51 := by
  unfold QuadKey.Valid MaxZoom
  by_cases hz : q.length ≤ 38
  · simp [hz, Nat.not_lt.mpr hz]
  · simp [hz, Nat.lt_of_not_le hz]

/-! ## The encoding loop of `Tile.QuadKey` -/

theorem quadKeyLoop_length (t : Tile) (i : Nat) :
    ∀ (j : Nat) (qk : List Nat), (Tile.quadKeyLoop t i j qk).length = qk.length := by
  induction i with
  | zero => intro j qk; rfl
  | succ i ih => intro j qk; simp [Tile.quadKeyLoop, ih]

theorem quadKeyLoop_getElem? (t : Tile) (i : Nat) :
    ∀ (j : Nat) (qk : List Nat) (k : Nat),
      (Tile.quadKeyLoop t i j qk)[k]? =
        if j ≤ k ∧ k < j + i ∧ k < qk.length then some (t.quadKeyChar (i + j - k))
        else qk[k]? := by
  induction i with
  | zero =>
    intro j qk k
    have h0 : ¬ (j ≤ k ∧ k < j + 0 ∧ k < qk.length) := by omega
    rw [Tile.quadKeyLoop, if_neg h0]
  | succ i ih =>
    intro j qk k
    rw [Tile.quadKeyLoop, ih, List.length_set, List.getElem?_set]
    by_cases hkj : j = k
    · subst hkj
      have h1 : ¬ (j + 1 ≤ j ∧ j < j + 1 + i ∧ j < qk.length) := by omega
      by_cases hlen : j < qk.length
      · have h2 : j ≤ j ∧ j < j + (i + 1) ∧ j < qk.length := by omega
        have h3 : i + 1 + j - j = i + 1 := by omega
        simp [h1, h2, hlen, h3]
      · have h2 : ¬ (j ≤ j ∧ j < j + (i + 1) ∧ j < qk.length) := by omega
        have h3 : qk.length ≤ j := by omega
        simp [h1, h2, hlen, List.getElem?_eq_none h3]
    · by_cases hc : j + 1 ≤ k ∧ k < j + 1 + i ∧ k < qk.length
      · have h2 : j ≤ k ∧ k < j + (i + 1) ∧ k < qk.length := by omega
        have h3 : i + (j + 1) - k = i + 1 + j - k := by omega
        simp [hc, h2, h3]
      · have h2 : ¬ (j ≤ k ∧ k < j + (i + 1) ∧ k < qk.length) := by omega
        simp [hc, h2, hkj]

theorem tile_quadKey_length (t : Tile) : (Tile.QuadKey t).length = t.z := by
  simp [Tile.QuadKey, quadKeyLoop_length]

theorem tile_quadKey_getElem? (t : Tile) (j : Nat) (hj : j < t.z) :
    (Tile.QuadKey t)[j]? = some (t.quadKeyChar (t.z - j)) := by
  unfold Tile.QuadKey
  rw [quadKeyLoop_getElem?]
  have h : 0 ≤ j ∧ j < 0 + t.z ∧ j < (List.replicate t.z 0).length := by simp; omega
  simp only [h, and_self, if_true, Nat.add_zero]

theorem and_two_pow_ne_zero (x k : Nat) : x &&& 2 ^ k ≠ 0 ↔ x.testBit k = true := by
  constructor
  · intro h
    by_contra hb
    apply h
    apply Nat.eq_of_testBit_eq
    intro i
    rw [Nat.testBit_and, Nat.testBit_two_pow, Nat.zero_testBit]
    by_cases hik : k = i
    · subst hik; simp at hb; simp [hb]
    · simp [hik]
  · intro hb h
    have := congrArg (fun n => n.testBit k) h
    simp [hb] at this

theorem quadKeyChar_eq (t : Tile) (i : Nat) (hi : 1 ≤ i) (hi64 : i ≤ 64) :
    t.quadKeyChar i = 48 + (t.x.testBit (i - 1)).toNat + 2 * (t.y.testBit (i - 1)).toNat := by
  unfold Tile.quadKeyChar
  have hm : shl64 1 (i - 1) = 2 ^ (i - 1) := shl64_one (by omega)
  simp only [hm, and_two_pow_ne_zero]
  cases hx : t.x.testBit (i - 1) <;> cases hy : t.y.testBit (i - 1) <;> simp

/-! ## The decoding loop of `QuadKey.Tile` -/

theorem bytePred_eq {i : Nat} (h1 : 1 ≤ i) (h2 : i ≤ 64) : bytePred i = i - 1 := by
  unfold bytePred; omega

theorem tileStep_z (q : QuadKey) (i : Nat) (t : Tile) : (QuadKey.tileStep q i t).z = t.z := by
  unfold QuadKey.tileStep
  simp only
  split_ifs <;> rfl

theorem tileStep_x (q : QuadKey) (i : Nat) (t : Tile) (h1 : 1 ≤ i) (h2 : i ≤ 64) (k : Nat) :
    (QuadKey.tileStep q i t).x.testBit k =
      (t.x.testBit k || (decide (i - 1 = k) &&
        decide (q.getD (q.length - i) 0 = 49 ∨ q.getD (q.length - i) 0 = 51))) := by
  unfold QuadKey.tileStep
  have hm : shl64 1 (bytePred i) = 2 ^ (i - 1) := by
    rw [bytePred_eq h1 h2]; exact shl64_one (by omega)
  simp only [hm]
  generalize List.getD q (q.length - i) 0 = c
  split_ifs with c0 c1 c2 c3 <;>
    simp [Nat.testBit_or, Nat.testBit_two_pow, *]

theorem tileStep_y (q : QuadKey) (i : Nat) (t : Tile) (h1 : 1 ≤ i) (h2 : i ≤ 64) (k : Nat) :
    (QuadKey.tileStep q i t).y.testBit k =
      (t.y.testBit k || (decide (i - 1 = k) &&
        decide (q.getD (q.length - i) 0 = 50 ∨ q.getD (q.length - i) 0 = 51))) := by
  unfold QuadKey.tileStep
  have hm : shl64 1 (bytePred i) = 2 ^ (i - 1) := by
    rw [bytePred_eq h1 h2]; exact shl64_one (by omega)
  simp only [hm]
  generalize List.getD q (q.length - i) 0 = c
  split_ifs with c0 c1 c2 c3 <;>
    simp [Nat.testBit_or, Nat.testBit_two_pow, *]

theorem tileLoop_z (q : QuadKey) (i : Nat) :
    ∀ t : Tile, (QuadKey.tileLoop q i t).z = t.z := by
  induction i with
  | zero => intro t; rfl
  | succ i ih => intro t; rw [QuadKey.tileLoop, ih, tileStep_z]

theorem tileLoop_x (q : QuadKey) (i : Nat) (hi : i ≤ 64) :
    ∀ (t : Tile) (k : Nat), (QuadKey.tileLoop q i t).x.testBit k =
      (t.x.testBit k || (decide (k < i) &&
        decide (q.getD (q.length - 1 - k) 0 = 49 ∨ q.getD (q.length - 1 - k) 0 = 51))) := by
  induction i with
  | zero => intro t k; simp [QuadKey.tileLoop]
  | succ i ih =>
    intro t k
    rw [QuadKey.tileLoop, ih (by omega), tileStep_x q (i + 1) t (by omega) hi]
    by_cases hk : i = k
    · subst hk
      have e : q.length - (i + 1) = q.length - 1 - i := by omega
      simp [e]
    · by_cases hlt : k < i
      · have : k < i + 1 := by omega
        simp [hk, hlt, this]
      · have : ¬ k < i + 1 := by omega
        simp [hk, hlt, this]

theorem tileLoop_y (q : QuadKey) (i : Nat) (hi : i ≤ 64) :
    ∀ (t : Tile) (k : Nat), (QuadKey.tileLoop q i t).y.testBit k =
      (t.y.testBit k || (decide (k < i) &&
        decide (q.getD (q.length - 1 - k) 0 = 50 ∨ q.getD (q.length - 1 - k) 0 = 51))) := by
  induction i with
  | zero => intro t k; simp [QuadKey.tileLoop]
  | succ i ih =>
    intro t k
    rw [QuadKey.tileLoop, ih (by omega), tileStep_y q (i + 1) t (by omega) hi]
    by_cases hk : i = k
    · subst hk
      have e : q.length - (i + 1) = q.length - 1 - i := by omega
      simp [e]
    · by_cases hlt : k < i
      · have : k < i + 1 := by omega
        simp [hk, hlt, this]
      · have : ¬ k < i + 1 := by omega
        simp [hk, hlt, this]

/-! ## Tile → QuadKey → Tile -/

theorem quadKeyChar_range (t : Tile) (i : Nat) : 48 ≤ t.quadKeyChar i ∧ t.quadKeyChar i ≤ 51 := by
  unfold Tile.quadKeyChar
  simp only
  split_ifs <;> omega

theorem tile_quadKey_mem (t : Tile) (c : Nat) (hc : c ∈ Tile.QuadKey t) :
    ∃ j, j < t.z ∧ c = t.quadKeyChar (t.z - j) := by
  obtain ⟨j, hj⟩ := List.mem_iff_getElem?.mp hc
  have hlt : j < t.z := by
    by_contra hn
    rw [List.getElem?_eq_none (by rw [tile_quadKey_length]; omega)] at hj
    cases hj
  rw [tile_quadKey_getElem? t j hlt] at hj
  exact ⟨j, hlt, (Option.some.inj hj).symm⟩

theorem tile_quadKey_valid (t : Tile) (hz : t.z ≤ 38) : QuadKey.Valid (Tile.QuadKey t) = true := by
  rw [quadKey_valid_iff]
  refine ⟨by rw [tile_quadKey_length]; exact hz, ?_⟩
  intro c hc
  obtain ⟨j, _, rfl⟩ := tile_quadKey_mem t c hc
  exact quadKeyChar_range t _

theorem quadKey_tile_ok (q : QuadKey) (hv : QuadKey.Valid q = true) :
    QuadKey.Tile q = .ok (QuadKey.tileLoop q q.length { z := q.length, x := 0, y := 0 }) := by
  simp [QuadKey.Tile, hv]

theorem quadKey_tile_error (q : QuadKey) (hv : QuadKey.Valid q = false) :
    QuadKey.Tile q = .error "invalid quadkey" := by
  simp [QuadKey.Tile, hv]

theorem decode_x (q : QuadKey) (hlen : q.length ≤ 64) (k : Nat) :
    (QuadKey.tileLoop q q.length { z := q.length, x := 0, y := 0 }).x.testBit k =
      (decide (k < q.length) &&
        decide (q.getD (q.length - 1 - k) 0 = 49 ∨ q.getD (q.length - 1 - k) 0 = 51)) := by
  rw [tileLoop_x q q.length hlen]
  simp

theorem decode_y (q : QuadKey) (hlen : q.length ≤ 64) (k : Nat) :
    (QuadKey.tileLoop q q.length { z := q.length, x := 0, y := 0 }).y.testBit k =
      (decide (k < q.length) &&
        decide (q.getD (q.length - 1 - k) 0 = 50 ∨ q.getD (q.length - 1 - k) 0 = 51)) := by
  rw [tileLoop_y q q.length hlen]
  simp

theorem tile_quadKey_getD (t : Tile) (j : Nat) (hj : j < t.z) :
    (Tile.QuadKey t).getD j 0 = t.quadKeyChar (t.z - j) := by
  rw [List.getD_eq_getElem?_getD, tile_quadKey_getElem? t j hj]
  rfl

theorem roundtrip_tile (t : Tile) (hv : t.Valid = true) :
    QuadKey.Tile (Tile.QuadKey t) = .ok t := by
  obtain ⟨hz, hx, hy⟩ := (tile_valid_iff t).mp hv
  rw [quadKey_tile_ok _ (tile_quadKey_valid t hz)]
  congr 1
  have hlen := tile_quadKey_length t
  have hchar : ∀ k, k < t.z → (Tile.QuadKey t).getD (t.z - 1 - k) 0 =
      48 + (t.x.testBit k).toNat + 2 * (t.y.testBit k).toNat := by
    intro k hk
    rw [tile_quadKey_getD t _ (by omega), quadKeyChar_eq t _ (by omega) (by omega)]
    have e : t.z - (t.z - 1 - k) - 1 = k := by omega
    rw [e]
  have hX : (QuadKey.tileLoop (Tile.QuadKey t) (Tile.QuadKey t).length
      { z := (Tile.QuadKey t).length, x := 0, y := 0 }).x = t.x := by
    apply Nat.eq_of_testBit_eq
    intro k
    rw [decode_x _ (by omega), hlen]
    by_cases hk : k < t.z
    · rw [hchar k hk]
      cases hbx : t.x.testBit k <;> cases hby : t.y.testBit k <;> simp [hk]
    · have hpow : t.x < 2 ^ k :=
        lt_of_lt_of_le hx (Nat.pow_le_pow_right (by norm_num) (by omega))
      rw [Nat.testBit_lt_two_pow hpow]
      simp [hk]
  have hY : (QuadKey.tileLoop (Tile.QuadKey t) (Tile.QuadKey t).length
      { z := (Tile.QuadKey t).length, x := 0, y := 0 }).y = t.y := by
    apply Nat.eq_of_testBit_eq
    intro k
    rw [decode_y _ (by omega), hlen]
    by_cases hk : k < t.z
    · rw [hchar k hk]
      cases hbx : t.x.testBit k <;> cases hby : t.y.testBit k <;> simp [hk]
    · have hpow : t.y < 2 ^ k :=
        lt_of_lt_of_le hy (Nat.pow_le_pow_right (by norm_num) (by omega))
      rw [Nat.testBit_lt_two_pow hpow]
      simp [hk]
  have hZ : (QuadKey.tileLoop (Tile.QuadKey t) (Tile.QuadKey t).length
      { z := (Tile.QuadKey t).length, x := 0, y := 0 }).z = t.z := by
    rw [tileLoop_z]; exact hlen
  cases t with
  | mk z x y =>
    cases hr : QuadKey.tileLoop (Tile.QuadKey ⟨z, x, y⟩) (Tile.QuadKey ⟨z, x, y⟩).length
      { z := (Tile.QuadKey ⟨z, x, y⟩).length, x := 0, y := 0 } with
    | mk z2 x2 y2 =>
      rw [hr] at hX hY hZ
      simp only at hX hY hZ
      subst hX hY hZ
      rfl

/-! ## QuadKey → Tile → QuadKey -/

theorem roundtrip_quadKey (q : QuadKey) (hv : QuadKey.Valid q = true) :
    Tile.QuadKey (QuadKey.tileLoop q q.length { z := q.length, x := 0, y := 0 }) = q := by
  obtain ⟨hlen, hchars⟩ := (quadKey_valid_iff q).mp hv
  generalize ht : QuadKey.tileLoop q q.length { z := q.length, x := 0, y := 0 } = t
  have hz : t.z = q.length := by rw [← ht, tileLoop_z]
  have hx : ∀ k, t.x.testBit k = (decide (k < q.length) &&
      decide (q.getD (q.length - 1 - k) 0 = 49 ∨ q.getD (q.length - 1 - k) 0 = 51)) := by
    intro k; rw [← ht]; exact decode_x q (by omega) k
  have hy : ∀ k, t.y.testBit k = (decide (k < q.length) &&
      decide (q.getD (q.length - 1 - k) 0 = 50 ∨ q.getD (q.length - 1 - k) 0 = 51)) := by
    intro k; rw [← ht]; exact decode_y q (by omega) k
  apply List.ext_getElem?
  intro j
  by_cases hj : j < q.length
  · rw [tile_quadKey_getElem? t j (by omega), quadKeyChar_eq t _ (by omega) (by omega), hx, hy]
    have e : q.length - 1 - (t.z - j - 1) = j := by omega
    have hlt : t.z - j - 1 < q.length := by omega
    rw [e]
    obtain ⟨c, hc⟩ : ∃ c, q[j]? = some c := ⟨q[j], List.getElem?_eq_getElem hj⟩
    have hmem : c ∈ q := List.mem_iff_getElem?.mpr ⟨j, hc⟩
    have hr := hchars c hmem
    have hd : q.getD j 0 = c := by rw [List.getD_eq_getElem?_getD, hc]; rfl
    rw [hd, hc]
    have hcases : c = 48 ∨ c = 49 ∨ c = 50 ∨ c = 51 := by omega
    rcases hcases with h | h | h | h <;> subst h <;> simp [hlt]
  · rw [List.getElem?_eq_none (by rw [tile_quadKey_length]; omega),
      List.getElem?_eq_none (by omega)]

/-! ## Claims C1 – C3: quadkey encoding -/

/-- C1: for every valid tile `t` (`z ≤ 38`, `x < 2 ^ z`, `y < 2 ^ z`), decoding the
quadkey produced from `t` succeeds and gives back exactly `t`. -/
theorem tile_quadKey_tile (t : Tile) (hz : t.z ≤ 38) (hx : t.x < 2 ^ t.z)
    (hy : t.y < 2 ^ t.z) : QuadKey.Tile (Tile.QuadKey t) = .ok t :=
  roundtrip_tile t ((tile_valid_iff t).mpr ⟨hz, hx, hy⟩)

/-- C1 at the tile `(z, x, y) = (3, 5, 2)`, whose quadkey is `"121"`. -/
theorem tile_quadKey_tile_witness :
    ((3 : Nat) ≤ 38 ∧ (5 : Nat) < 2 ^ 3 ∧ (2 : Nat) < 2 ^ 3) ∧
      QuadKey.Tile (Tile.QuadKey { z := 3, x := 5, y := 2 }) =
        .ok { z := 3, x := 5, y := 2 } :=
  ⟨by decide, tile_quadKey_tile { z := 3, x := 5, y := 2 } (by decide) (by decide) (by decide)⟩

/-- C2: for every tile `t` with `z ≤ 38`, `t.QuadKey()` has length exactly `z`, and
the character at each position `j < z` is `'0' + xbit + 2 * ybit`, where `xbit` and
`ybit` are bit `z - 1 - j` of `t.x` and `t.y` (most significant bit first). -/
theorem tile_quadKey_chars (t : Tile) (hz : t.z ≤ 38) :
    (Tile.QuadKey t).length = t.z ∧
      ∀ j, j < t.z → (Tile.QuadKey t)[j]? =
        some (48 + t.x / 2 ^ (t.z - 1 - j) % 2 + 2 * (t.y / 2 ^ (t.z - 1 - j) % 2)) := by
  refine ⟨tile_quadKey_length t, ?_⟩
  intro j hj
  rw [tile_quadKey_getElem? t j hj, quadKeyChar_eq t _ (by omega) (by omega),
    Nat.toNat_testBit, Nat.toNat_testBit]
  have e : t.z - j - 1 = t.z - 1 - j := by omega
  rw [e]

/-- C2 at the tile `(3, 5, 2)`: the quadkey is the three characters `'1'`, `'2'`, `'1'`. -/
theorem tile_quadKey_chars_witness :
    (3 : Nat) ≤ 38 ∧ (Tile.QuadKey { z := 3, x := 5, y := 2 }).length = 3 ∧
      ∀ j, j < 3 → (Tile.QuadKey { z := 3, x := 5, y := 2 })[j]? =
        some (48 + 5 / 2 ^ (3 - 1 - j) % 2 + 2 * (2 / 2 ^ (3 - 1 - j) % 2)) :=
  ⟨by decide, tile_quadKey_chars { z := 3, x := 5, y := 2 } (by decide)⟩

/-- C3: for every valid quadkey `q` (length at most 38, every character in
`'0'..'3'`), `q.Tile()` succeeds with a tile whose `z` is the length of `q` and whose
quadkey is `q` again, and no other valid quadkey decodes to that tile. -/
theorem quadKey_tile_quadKey (q : QuadKey) (hlen : q.length ≤ 38)
    (hchars : ∀ c ∈ q, 48 ≤ c ∧ c ≤ 51) :
    ∃ t, QuadKey.Tile q = .ok t ∧ t.z = q.length ∧ Tile.QuadKey t = q ∧
      ∀ q2 : QuadKey, q2.length ≤ 38 → (∀ c ∈ q2, 48 ≤ c ∧ c ≤ 51) →
        QuadKey.Tile q2 = .ok t → q2 = q := by
  have hv : QuadKey.Valid q = true := (quadKey_valid_iff q).mpr ⟨hlen, hchars⟩
  refine ⟨_, quadKey_tile_ok q hv, tileLoop_z q _ _, roundtrip_quadKey q hv, ?_⟩
  intro q2 hlen2 hchars2 h2
  have hv2 : QuadKey.Valid q2 = true := (quadKey_valid_iff q2).mpr ⟨hlen2, hchars2⟩
  rw [quadKey_tile_ok q2 hv2] at h2
  have h3 := Except.ok.inj h2
  rw [← roundtrip_quadKey q2 hv2, h3, roundtrip_quadKey q hv]

/-- C3 at the quadkey `"121"`. -/
theorem quadKey_tile_quadKey_witness :
    ([49, 50, 49] : QuadKey).length ≤ 38 ∧
      ∃ t, QuadKey.Tile [49, 50, 49] = .ok t ∧ t.z = ([49, 50, 49] : QuadKey).length ∧
        Tile.QuadKey t = [49, 50, 49] ∧
        ∀ q2 : QuadKey, q2.length ≤ 38 → (∀ c ∈ q2, 48 ≤ c ∧ c ≤ 51) →
          QuadKey.Tile q2 = .ok t → q2 = [49, 50, 49] :=
  ⟨by decide, quadKey_tile_quadKey [49, 50, 49] (by decide) (by decide)⟩

/-! ## Pixel ↔ Tile -/

theorem shr64_eight (x : Nat) : shr64 x 8 = x / 256 := by
  unfold shr64
  rw [Nat.shiftRight_eq_div_pow]

theorem shl64_eight {x z : Nat} (hz : z ≤ 38) (hx : x < 2 ^ z) : shl64 x 8 = x * 256 := by
  unfold shl64
  rw [Nat.shiftLeft_eq]
  apply Nat.mod_eq_of_lt
  have h1 : (2 : Nat) ^ z ≤ 2 ^ 38 := Nat.pow_le_pow_right (by norm_num) hz
  have h2 : x < 2 ^ 38 := lt_of_lt_of_le hx h1
  norm_num at h2 ⊢
  omega

theorem makePixel_ok {x y zoom : Nat} (hv : Pixel.Valid { x := x, y := y, zoom := zoom } = true) :
    MakePixel x y zoom = .ok { x := x, y := y, zoom := zoom } := by
  simp [MakePixel, hv]

theorem makePixel_error {x y zoom : Nat}
    (hv : Pixel.Valid { x := x, y := y, zoom := zoom } = false) :
    MakePixel x y zoom = .error "invalid pixel" := by
  simp [MakePixel, hv]

theorem pixel_tile_ok (p : Pixel) (hv : p.Valid = true) :
    Pixel.Tile p = .ok { z := p.zoom, x := p.x / 256, y := p.y / 256 } := by
  simp [Pixel.Tile, hv, shr64_eight]

theorem pixel_tile_valid (p : Pixel) (hv : p.Valid = true) :
    Tile.Valid { z := p.zoom, x := p.x / 256, y := p.y / 256 } = true := by
  obtain ⟨hz, hx, hy⟩ := (pixel_valid_iff p).mp hv
  rw [tile_valid_iff]
  exact ⟨hz, Nat.div_lt_of_lt_mul hx, Nat.div_lt_of_lt_mul hy⟩

theorem tile_pixel_valid (t : Tile) (hv : t.Valid = true) :
    Pixel.Valid { x := t.x * 256, y := t.y * 256, zoom := t.z } = true := by
  obtain ⟨hz, hx, hy⟩ := (tile_valid_iff t).mp hv
  rw [pixel_valid_iff]
  refine ⟨hz, ?_, ?_⟩
  · show t.x * 256 < 256 * 2 ^ t.z
    omega
  · show t.y * 256 < 256 * 2 ^ t.z
    omega

theorem tile_pixel_ok (t : Tile) (hv : t.Valid = true) :
    Tile.Pixel t = .ok { x := t.x * 256, y := t.y * 256, zoom := t.z } := by
  obtain ⟨hz, hx, hy⟩ := (tile_valid_iff t).mp hv
  unfold Tile.Pixel
  rw [shl64_eight hz hx, shl64_eight hz hy]
  exact makePixel_ok (tile_pixel_valid t hv)

theorem tile_pixel_tile (t : Tile) (hv : t.Valid = true) :
    Pixel.Tile { x := t.x * 256, y := t.y * 256, zoom := t.z } = .ok t := by
  rw [pixel_tile_ok _ (tile_pixel_valid t hv)]
  simp

theorem quadKey_tileLoop_valid (q : QuadKey) (hv : QuadKey.Valid q = true) :
    Tile.Valid (QuadKey.tileLoop q q.length { z := q.length, x := 0, y := 0 }) = true := by
  obtain ⟨hlen, _⟩ := (quadKey_valid_iff q).mp hv
  rw [tile_valid_iff, tileLoop_z]
  refine ⟨hlen, ?_, ?_⟩
  · apply Nat.lt_pow_two_of_testBit
    intro i hi
    have hi2 : q.length ≤ i := hi
    rw [decode_x q (by omega) i]
    simp; omega
  · apply Nat.lt_pow_two_of_testBit
    intro i hi
    have hi2 : q.length ≤ i := hi
    rw [decode_y q (by omega) i]
    simp; omega

/-! ## Claims C4 – C5 -/

/-- C4: for every valid pixel `p`, the chain
`p.Tile().QuadKey().Tile().Pixel().Tile()` runs without failure and ends in `p.Tile()`;
and for every valid tile `t`, `t.Pixel()` succeeds and `t.Pixel().Tile()` is `t`. -/
theorem tile_identity_chain (p : Pixel) (t : Tile)
    (hp : p.zoom ≤ 38 ∧ p.x < 256 * 2 ^ p.zoom ∧ p.y < 256 * 2 ^ p.zoom)
    (ht : t.z ≤ 38 ∧ t.x < 2 ^ t.z ∧ t.y < 2 ^ t.z) :
    (∃ t1 p1, Pixel.Tile p = .ok t1 ∧ QuadKey.Tile (Tile.QuadKey t1) = .ok t1 ∧
        Tile.Pixel t1 = .ok p1 ∧ Pixel.Tile p1 = .ok t1 ∧
        (Pixel.Tile p >>= fun a => QuadKey.Tile (Tile.QuadKey a) >>= fun b =>
          Tile.Pixel b >>= fun c => Pixel.Tile c) = Pixel.Tile p) ∧
      ∃ p2, Tile.Pixel t = .ok p2 ∧ Pixel.Tile p2 = .ok t := by
  have hpv : p.Valid = true := (pixel_valid_iff p).mpr hp
  have htv : t.Valid = true := (tile_valid_iff t).mpr ht
  have h1v := pixel_tile_valid p hpv
  refine ⟨⟨_, _, pixel_tile_ok p hpv, roundtrip_tile _ h1v, tile_pixel_ok _ h1v,
    tile_pixel_tile _ h1v, ?_⟩, _, tile_pixel_ok t htv, tile_pixel_tile t htv⟩
  rw [pixel_tile_ok p hpv]
  show (QuadKey.Tile (Tile.QuadKey _) >>= fun b => Tile.Pixel b >>= fun c => Pixel.Tile c) = _
  rw [roundtrip_tile _ h1v]
  show (Tile.Pixel _ >>= fun c => Pixel.Tile c) = _
  rw [tile_pixel_ok _ h1v]
  exact tile_pixel_tile _ h1v

/-- C4 at the pixel `(2452, 1707)` of zoom 4 and at the tile `(3, 5, 2)`. -/
theorem tile_identity_chain_witness :
    ((4 : Nat) ≤ 38 ∧ (2452 : Nat) < 256 * 2 ^ 4 ∧ (1707 : Nat) < 256 * 2 ^ 4) ∧
    ((3 : Nat) ≤ 38 ∧ (5 : Nat) < 2 ^ 3 ∧ (2 : Nat) < 2 ^ 3) ∧
    ((∃ t1 p1, Pixel.Tile { x := 2452, y := 1707, zoom := 4 } = .ok t1 ∧
        QuadKey.Tile (Tile.QuadKey t1) = .ok t1 ∧
        Tile.Pixel t1 = .ok p1 ∧ Pixel.Tile p1 = .ok t1 ∧
        (Pixel.Tile { x := 2452, y := 1707, zoom := 4 } >>= fun a =>
          QuadKey.Tile (Tile.QuadKey a) >>= fun b =>
          Tile.Pixel b >>= fun c => Pixel.Tile c) =
            Pixel.Tile { x := 2452, y := 1707, zoom := 4 }) ∧
      ∃ p2, Tile.Pixel { z := 3, x := 5, y := 2 } = .ok p2 ∧
        Pixel.Tile p2 = .ok { z := 3, x := 5, y := 2 }) :=
  ⟨by decide, by decide,
    tile_identity_chain { x := 2452, y := 1707, zoom := 4 } { z := 3, x := 5, y := 2 }
      (by decide) (by decide)⟩

/-- C5: validity is preserved by every integer conversion: a valid pixel has a valid
tile, a valid tile has a valid top-left pixel and a valid quadkey, and a valid
quadkey decodes to a valid tile. -/
theorem conversions_preserve_validity (p : Pixel) (t : Tile) (q : QuadKey)
    (hp : p.zoom ≤ 38 ∧ p.x < 256 * 2 ^ p.zoom ∧ p.y < 256 * 2 ^ p.zoom)
    (ht : t.z ≤ 38 ∧ t.x < 2 ^ t.z ∧ t.y < 2 ^ t.z)
    (hq : q.length ≤ 38 ∧ ∀ c ∈ q, 48 ≤ c ∧ c ≤ 51) :
    (∃ t1, Pixel.Tile p = .ok t1 ∧ t1.Valid = true ∧
        t1.z ≤ 38 ∧ t1.x < 2 ^ t1.z ∧ t1.y < 2 ^ t1.z) ∧
    (∃ p1, Tile.Pixel t = .ok p1 ∧ p1.Valid = true ∧
        p1.zoom ≤ 38 ∧ p1.x < 256 * 2 ^ p1.zoom ∧ p1.y < 256 * 2 ^ p1.zoom) ∧
    (QuadKey.Valid (Tile.QuadKey t) = true ∧ (Tile.QuadKey t).length ≤ 38 ∧
        ∀ c ∈ Tile.QuadKey t, 48 ≤ c ∧ c ≤ 51) ∧
    (∃ t2, QuadKey.Tile q = .ok t2 ∧ t2.Valid = true ∧
        t2.z ≤ 38 ∧ t2.x < 2 ^ t2.z ∧ t2.y < 2 ^ t2.z) := by
  have hpv : p.Valid = true := (pixel_valid_iff p).mpr hp
  have htv : t.Valid = true := (tile_valid_iff t).mpr ht
  have hqv : QuadKey.Valid q = true := (quadKey_valid_iff q).mpr hq
  have h1 := pixel_tile_valid p hpv
  have h2 := tile_pixel_valid t htv
  have h3 := tile_quadKey_valid t ht.1
  refine ⟨⟨_, pixel_tile_ok p hpv, h1, (tile_valid_iff _).mp h1⟩,
    ⟨_, tile_pixel_ok t htv, h2, (pixel_valid_iff _).mp h2⟩,
    ⟨h3, (quadKey_valid_iff _).mp h3⟩, ?_⟩
  have h4 := quadKey_tileLoop_valid q hqv
  exact ⟨_, quadKey_tile_ok q hqv, h4, (tile_valid_iff _).mp h4⟩

/-- C5 at the pixel `(2452, 1707)` of zoom 4, the tile `(3, 5, 2)` and the quadkey
`"121"`. -/
theorem conversions_preserve_validity_witness :
    ((4 : Nat) ≤ 38 ∧ (2452 : Nat) < 256 * 2 ^ 4 ∧ (1707 : Nat) < 256 * 2 ^ 4) ∧
    ((3 : Nat) ≤ 38 ∧ (5 : Nat) < 2 ^ 3 ∧ (2 : Nat) < 2 ^ 3) ∧
    (([49, 50, 49] : QuadKey).length ≤ 38 ∧ ∀ c ∈ ([49, 50, 49] : QuadKey), 48 ≤ c ∧ c ≤ 51) ∧
    ((∃ t1, Pixel.Tile { x := 2452, y := 1707, zoom := 4 } = .ok t1 ∧ t1.Valid = true ∧
        t1.z ≤ 38 ∧ t1.x < 2 ^ t1.z ∧ t1.y < 2 ^ t1.z) ∧
    (∃ p1, Tile.Pixel { z := 3, x := 5, y := 2 } = .ok p1 ∧ p1.Valid = true ∧
        p1.zoom ≤ 38 ∧ p1.x < 256 * 2 ^ p1.zoom ∧ p1.y < 256 * 2 ^ p1.zoom) ∧
    (QuadKey.Valid (Tile.QuadKey { z := 3, x := 5, y := 2 }) = true ∧
        (Tile.QuadKey { z := 3, x := 5, y := 2 }).length ≤ 38 ∧
        ∀ c ∈ Tile.QuadKey { z := 3, x := 5, y := 2 }, 48 ≤ c ∧ c ≤ 51) ∧
    (∃ t2, QuadKey.Tile [49, 50, 49] = .ok t2 ∧ t2.Valid = true ∧
        t2.z ≤ 38 ∧ t2.x < 2 ^ t2.z ∧ t2.y < 2 ^ t2.z)) :=
  ⟨by decide, by decide, by decide,
    conversions_preserve_validity { x := 2452, y := 1707, zoom := 4 }
      { z := 3, x := 5, y := 2 } [49, 50, 49] (by decide) (by decide) (by decide)⟩

/-! ## Zoom helpers and coordinates -/

theorem mapPixelSize_ok {zoom : Nat} (hz : zoom ≤ 38) :
    MapPixelSize zoom = .ok (256 * 2 ^ zoom) := by
  simp [MapPixelSize, MaxZoom, Nat.not_lt.mpr hz, shl64_tileSize hz]

theorem mapTileSize_ok {zoom : Nat} (hz : zoom ≤ 38) :
    MapTileSize zoom = .ok (2 ^ zoom) := by
  simp [MapTileSize, MaxZoom, Nat.not_lt.mpr hz, shr64_shl64_tileSize hz]

theorem mapPixelSize_error {zoom : Nat} (hz : 38 < zoom) :
    MapPixelSize zoom = .error "invalid zoom" := by
  simp [MapPixelSize, MaxZoom, hz]

theorem mapTileSize_error {zoom : Nat} (hz : 38 < zoom) :
    MapTileSize zoom = .error "invalid zoom" := by
  simp [MapTileSize, MaxZoom, hz]

theorem clip_mem {K : Type} [LinearOrderedField K] [FloorRing K] (n lo hi : K)
    (h : lo ≤ hi) : lo ≤ clip n lo hi ∧ clip n lo hi ≤ hi := by
  unfold clip
  split_ifs with h1 h2
  · exact ⟨le_refl _, h⟩
  · exact ⟨h, le_refl _⟩
  · exact ⟨not_lt.mp h1, not_lt.mp h2⟩

theorem toUint64_clip_lt {K : Type} [LinearOrderedField K] [FloorRing K] (v : K)
    (m : Nat) (hm : 1 ≤ m) :
    toUint64 (clip v 0 ((m : K) - 1)) < m := by
  have h1 : (1 : K) ≤ (m : K) := by exact_mod_cast hm
  obtain ⟨hlo, hhi⟩ := clip_mem v 0 ((m : K) - 1) (by linarith)
  have hlt : clip v 0 ((m : K) - 1) < (m : K) := by linarith
  have hfl : ⌊clip v 0 ((m : K) - 1)⌋₊ < m := (Nat.floor_lt hlo).mpr hlt
  unfold toUint64
  exact lt_of_le_of_lt (Nat.mod_le _ _) hfl

theorem makeLatLonCoord_ok {K : Type} (lat lon : K) :
    MakeLatLonCoord lat lon = .ok { x := lon, y := lat, datum := EPSG4326 } := by
  simp [MakeLatLonCoord, Coord.Valid, EPSG4326, EPSG3857]

theorem coord_pixel_ok {K : Type} [LinearOrderedField K] [FloorRing K]
    (math : Math K) (c : Coord K) (zoom : Nat) (hz : zoom ≤ 38) :
    ∃ p, Coord.Pixel math c zoom = .ok p ∧ p.Valid = true ∧ p.zoom = zoom := by
  have hpos : 1 ≤ 256 * 2 ^ zoom := by
    have : 0 < 2 ^ zoom := Nat.pos_pow_of_pos _ (by norm_num)
    omega
  unfold Coord.Pixel
  rw [if_neg (by unfold MaxZoom; omega), mapPixelSize_ok hz]
  show ∃ p, MakePixel _ _ zoom = .ok p ∧ _
  refine ⟨_, makePixel_ok ?_, ?_, rfl⟩ <;>
  · rw [pixel_valid_iff]
    exact ⟨hz, toUint64_clip_lt _ _ hpos, toUint64_clip_lt _ _ hpos⟩

theorem coord_pixel_error {K : Type} [LinearOrderedField K] [FloorRing K]
    (math : Math K) (c : Coord K) (zoom : Nat) (hz : 38 < zoom) :
    Coord.Pixel math c zoom = .error "invalid zoom" := by
  simp [Coord.Pixel, MaxZoom, hz]

theorem pixel_coord_ok {K : Type} [LinearOrderedField K] [FloorRing K]
    (math : Math K) (p : Pixel) (hv : p.Valid = true) :
    ∃ c : Coord K, Pixel.Coord math p = .ok c := by
  obtain ⟨hz, _, _⟩ := (pixel_valid_iff p).mp hv
  unfold Pixel.Coord
  simp only [hv, Bool.not_true, Bool.false_eq_true, if_false]
  rw [mapPixelSize_ok hz]
  exact ⟨_, makeLatLonCoord_ok _ _⟩

/-! ## Claims C6 – C10 -/

/-- C6: `MakePixel(x, y, zoom)` fails with "invalid pixel" exactly when `zoom > 38`
or `x` or `y` reaches `MapPixelSize(zoom)`, and `MakeZXYTile(z, tx, ty)` fails with
"invalid tile" exactly when `z > 38` or `tx` or `ty` reaches `MapTileSize(z)`;
a constructor that does not fail returns a value holding exactly the given fields. -/
theorem constructors_agree_with_zoom_helpers (x y zoom z tx ty : Nat) :
    (MakePixel x y zoom = .error "invalid pixel" ↔
        (38 < zoom ∨ ∃ m, MapPixelSize zoom = .ok m ∧ (m ≤ x ∨ m ≤ y))) ∧
      (MakePixel x y zoom = .error "invalid pixel" ∨
        MakePixel x y zoom = .ok { x := x, y := y, zoom := zoom }) ∧
      (MakeZXYTile z tx ty = .error "invalid tile" ↔
        (38 < z ∨ ∃ m, MapTileSize z = .ok m ∧ (m ≤ tx ∨ m ≤ ty))) ∧
      (MakeZXYTile z tx ty = .error "invalid tile" ∨
        MakeZXYTile z tx ty = .ok { z := z, x := tx, y := ty }) := by
  refine ⟨?_, ?_, ?_, ?_⟩
  · cases hv : Pixel.Valid { x := x, y := y, zoom := zoom }
    · have hnv : ¬ (zoom ≤ 38 ∧ x < 256 * 2 ^ zoom ∧ y < 256 * 2 ^ zoom) := by
        intro h
        rw [(pixel_valid_iff { x := x, y := y, zoom := zoom }).mpr h] at hv
        cases hv
      simp only [makePixel_error hv, true_iff]
      by_cases hz : zoom ≤ 38
      · right
        refine ⟨_, mapPixelSize_ok hz, ?_⟩
        by_contra hc
        exact hnv ⟨hz, by omega, by omega⟩
      · left; omega
    · obtain ⟨hz, hx, hy⟩ := (pixel_valid_iff _).mp hv
      simp only at hz hx hy
      rw [makePixel_ok hv, mapPixelSize_ok hz]
      constructor
      · intro h; cases h
      · rintro (h | ⟨m, hm, h⟩)
        · omega
        · cases hm
          omega
  · cases hv : Pixel.Valid { x := x, y := y, zoom := zoom }
    · exact Or.inl (makePixel_error hv)
    · exact Or.inr (makePixel_ok hv)
  · cases hv : Tile.Valid { z := z, x := tx, y := ty }
    · have hnv : ¬ (z ≤ 38 ∧ tx < 2 ^ z ∧ ty < 2 ^ z) := by
        intro h
        rw [(tile_valid_iff { z := z, x := tx, y := ty }).mpr h] at hv
        cases hv
      have he : MakeZXYTile z tx ty = .error "invalid tile" := by simp [MakeZXYTile, hv]
      simp only [he, true_iff]
      by_cases hz : z ≤ 38
      · right
        refine ⟨_, mapTileSize_ok hz, ?_⟩
        by_contra hc
        exact hnv ⟨hz, by omega, by omega⟩
      · left; omega
    · obtain ⟨hz, hx, hy⟩ := (tile_valid_iff _).mp hv
      simp only at hz hx hy
      have he : MakeZXYTile z tx ty = .ok { z := z, x := tx, y := ty } := by
        simp [MakeZXYTile, hv]
      rw [he, mapTileSize_ok hz]
      constructor
      · intro h; cases h
      · rintro (h | ⟨m, hm, h⟩)
        · omega
        · cases hm
          omega
  · cases hv : Tile.Valid { z := z, x := tx, y := ty }
    · exact Or.inl (by simp [MakeZXYTile, hv])
    · exact Or.inr (by simp [MakeZXYTile, hv])

theorem quadKey_valid_false_iff (q : QuadKey) :
    QuadKey.Valid q = false ↔ (38 < q.length ∨ ∃ c ∈ q, c < 48 ∨ 51 < c) := by
  rw [← Bool.not_eq_true, quadKey_valid_iff]
  constructor
  · intro h
    by_cases hlen : q.length ≤ 38
    · right
      by_contra hc
      apply h
      refine ⟨hlen, ?_⟩
      intro c hmem
      by_contra hr
      exact hc ⟨c, hmem, by omega⟩
    · left; omega
  · rintro (h | ⟨c, hmem, hc⟩) ⟨hlen, hchars⟩
    · omega
    · have := hchars c hmem
      omega

/-- C7: `QuadKey.Tile`, and with it `QuadKey.Pixel` and `QuadKey.Coord`, fails with
"invalid quadkey" exactly when the key is longer than 38 characters or contains a
byte outside `'0'..'3'`; every other key, the empty key included, is converted
without failure. -/
theorem quadKey_failure_iff {K : Type} [LinearOrderedField K] [FloorRing K]
    (math : Math K) (q : QuadKey) :
    (QuadKey.Tile q = .error "invalid quadkey" ↔
        (38 < q.length ∨ ∃ c ∈ q, c < 48 ∨ 51 < c)) ∧
      (QuadKey.Pixel q = .error "invalid quadkey" ↔
        (38 < q.length ∨ ∃ c ∈ q, c < 48 ∨ 51 < c)) ∧
      (QuadKey.Coord math q = .error "invalid quadkey" ↔
        (38 < q.length ∨ ∃ c ∈ q, c < 48 ∨ 51 < c)) ∧
      (QuadKey.Tile q = .error "invalid quadkey" ∨
        ∃ (t : Tile) (p : Pixel) (c : Coord K), QuadKey.Tile q = .ok t ∧
          QuadKey.Pixel q = .ok p ∧ QuadKey.Coord math q = .ok c) ∧
      QuadKey.Tile [] = .ok { z := 0, x := 0, y := 0 } := by
  rw [← quadKey_valid_false_iff]
  cases hv : QuadKey.Valid q
  · have h1 := quadKey_tile_error q hv
    have h2 : QuadKey.Pixel q = .error "invalid quadkey" := by
      unfold QuadKey.Pixel; rw [h1]; rfl
    have h3 : QuadKey.Coord math q = .error "invalid quadkey" := by
      unfold QuadKey.Coord; rw [h2]; rfl
    simp only [h1, h2, h3, true_or, and_self, true_and, iff_self]
    rfl
  · have h1 := quadKey_tile_ok q hv
    obtain ⟨t, ht, htv⟩ : ∃ t, QuadKey.Tile q = .ok t ∧ t.Valid = true :=
      ⟨_, h1, quadKey_tileLoop_valid q hv⟩
    have h2 : QuadKey.Pixel q = .ok { x := t.x * 256, y := t.y * 256, zoom := t.z } := by
      unfold QuadKey.Pixel; rw [ht]; exact tile_pixel_ok t htv
    obtain ⟨c, hc⟩ := pixel_coord_ok math _ (tile_pixel_valid t htv)
    have h3 : QuadKey.Coord math q = .ok c := by
      unfold QuadKey.Coord; rw [h2]; exact hc
    refine ⟨?_, ?_, ?_, Or.inr ⟨t, _, c, ht, h2, h3⟩, rfl⟩
    · rw [ht]; simp
    · rw [h2]; simp
    · rw [h3]; simp

/-- C8: for every zoom up to 38, `MapPixelSize(zoom)` is `256 * 2 ^ zoom` and
`MapTileSize(zoom)` is `2 ^ zoom` as exact integers, the 64-bit shift not wrapping
around; and `MapTileSize(19) * MapTileSize(19)` is `274877906944`, the 64-bit
product not wrapping either. -/
theorem map_sizes_exact (zoom : Nat) (hz : zoom ≤ 38) :
    MapPixelSize zoom = .ok (256 * 2 ^ zoom) ∧ MapTileSize zoom = .ok (2 ^ zoom) ∧
      tileSize <<< zoom < 2 ^ 64 ∧ shl64 tileSize zoom = tileSize <<< zoom ∧
      ∃ n, MapTileSize 19 = .ok n ∧ n * n < 2 ^ 64 ∧ n * n % 2 ^ 64 = 274877906944 := by
  have h := shl64_tileSize hz
  have hlt : tileSize <<< zoom < 2 ^ 64 := by
    unfold tileSize
    rw [Nat.shiftLeft_eq]
    calc 256 * 2 ^ zoom ≤ 256 * 2 ^ 38 :=
          Nat.mul_le_mul_left _ (Nat.pow_le_pow_right (by norm_num) hz)
      _ < 2 ^ 64 := by norm_num
  refine ⟨mapPixelSize_ok hz, mapTileSize_ok hz, hlt, Nat.mod_eq_of_lt hlt,
    2 ^ 19, mapTileSize_ok (by norm_num), by norm_num, by norm_num⟩

/-- C8 at zoom 19. -/
theorem map_sizes_exact_witness :
    (19 : Nat) ≤ 38 ∧
      (MapPixelSize 19 = .ok (256 * 2 ^ 19) ∧ MapTileSize 19 = .ok (2 ^ 19) ∧
        tileSize <<< 19 < 2 ^ 64 ∧ shl64 tileSize 19 = tileSize <<< 19 ∧
        ∃ n, MapTileSize 19 = .ok n ∧ n * n < 2 ^ 64 ∧ n * n % 2 ^ 64 = 274877906944) :=
  ⟨by decide, map_sizes_exact 19 (by decide)⟩

theorem pixel_quadKey_ok (p : Pixel) (hv : p.Valid = true) :
    ∃ q, Pixel.QuadKey p = .ok q := by
  unfold Pixel.QuadKey
  rw [pixel_tile_ok p hv]
  exact ⟨_, rfl⟩

/-- C9: each of `MapPixelSize(zoom)`, `MapTileSize(zoom)`, `c.Pixel(zoom)`,
`c.Tile(zoom)` and `c.QuadKey(zoom)`, for every coordinate `c`, fails with
"invalid zoom" exactly when `zoom > 38`. -/
theorem invalid_zoom_iff {K : Type} [LinearOrderedField K] [FloorRing K]
    (math : Math K) (c : Coord K) (zoom : Nat) :
    (MapPixelSize zoom = .error "invalid zoom" ↔ 38 < zoom) ∧
      (MapTileSize zoom = .error "invalid zoom" ↔ 38 < zoom) ∧
      (Coord.Pixel math c zoom = .error "invalid zoom" ↔ 38 < zoom) ∧
      (Coord.Tile math c zoom = .error "invalid zoom" ↔ 38 < zoom) ∧
      (Coord.QuadKey math c zoom = .error "invalid zoom" ↔ 38 < zoom) := by
  by_cases hz : 38 < zoom
  · have h3 := coord_pixel_error math c zoom hz
    have h4 : Coord.Tile math c zoom = .error "invalid zoom" := by
      unfold Coord.Tile; rw [h3]; rfl
    have h5 : Coord.QuadKey math c zoom = .error "invalid zoom" := by
      unfold Coord.QuadKey; rw [h3]; rfl
    simp only [mapPixelSize_error hz, mapTileSize_error hz, h3, h4, h5, hz, and_self]
  · have hz2 : zoom ≤ 38 := by omega
    obtain ⟨p, hp, hpv, _⟩ := coord_pixel_ok math c zoom hz2
    have h4 : Coord.Tile math c zoom = .ok { z := p.zoom, x := p.x / 256, y := p.y / 256 } := by
      unfold Coord.Tile; rw [hp]; exact pixel_tile_ok p hpv
    obtain ⟨q, hq⟩ := pixel_quadKey_ok p hpv
    have h5 : Coord.QuadKey math c zoom = .ok q := by
      unfold Coord.QuadKey; rw [hp]; exact hq
    rw [mapPixelSize_ok hz2, mapTileSize_ok hz2, hp, h4, h5]
    simp [hz]

/-- C10: for every zoom up to 38, every latitude in `[-90, 90]` and every longitude
in `[-180, 180]`, `MakeLatLonCoord(lat, lon).Pixel(zoom)` does not fail and returns a
valid pixel, with `x` and `y` below `MapPixelSize(zoom)` (the `float64` arithmetic
read as exact arithmetic with truncation to an integer).  The proof does not use
the two range hypotheses: the final clip to `[0, mapSize - 1]` bounds the result
whatever the clipped latitude and longitude are. -/
theorem coord_pixel_in_bounds {K : Type} [LinearOrderedField K] [FloorRing K]
    (math : Math K) (lat lon : K) (zoom : Nat) (hzoom : zoom ≤ 38)
    (_hlat : -90 ≤ lat ∧ lat ≤ 90) (_hlon : -180 ≤ lon ∧ lon ≤ 180) :
    ∃ (c : Coord K) (p : Pixel) (m : Nat), MakeLatLonCoord lat lon = .ok c ∧
      Coord.Pixel math c zoom = .ok p ∧ p.Valid = true ∧ p.zoom = zoom ∧
      MapPixelSize zoom = .ok m ∧ p.x < m ∧ p.y < m := by
  obtain ⟨p, hp, hpv, hpz⟩ :=
    coord_pixel_ok math { x := lon, y := lat, datum := EPSG4326 } zoom hzoom
  obtain ⟨_, hx, hy⟩ := (pixel_valid_iff p).mp hpv
  rw [hpz] at hx hy
  exact ⟨_, p, _, makeLatLonCoord_ok lat lon, hp, hpv, hpz, mapPixelSize_ok hzoom, hx, hy⟩

/-- C10 over the rationals at latitude 0, longitude 0 and zoom 0. -/
theorem coord_pixel_in_bounds_witness :
    ((0 : Nat) ≤ 38 ∧ ((-90 : ℚ) ≤ 0 ∧ (0 : ℚ) ≤ 90) ∧ ((-180 : ℚ) ≤ 0 ∧ (0 : ℚ) ≤ 180)) ∧
      ∃ (c : Coord ℚ) (p : Pixel) (m : Nat), MakeLatLonCoord (0 : ℚ) 0 = .ok c ∧
        Coord.Pixel Math.rational c 0 = .ok p ∧ p.Valid = true ∧ p.zoom = 0 ∧
        MapPixelSize 0 = .ok m ∧ p.x < m ∧ p.y < m :=
  ⟨⟨by decide, by norm_num, by norm_num⟩,
    coord_pixel_in_bounds Math.rational 0 0 0 (by decide) (by norm_num) (by norm_num)⟩

/-! ## `Tile.Bounds` on edge tiles -/

theorem tile_coord_ok {K : Type} [LinearOrderedField K] [FloorRing K]
    (math : Math K) (t : Tile) (hv : t.Valid = true) :
    ∃ c : Coord K, Tile.Coord math t = .ok c := by
  obtain ⟨c, hc⟩ := pixel_coord_ok math _ (tile_pixel_valid t hv)
  refine ⟨c, ?_⟩
  unfold Tile.Coord
  rw [tile_pixel_ok t hv]
  exact hc

theorem makeZXYTile_error {z x y : Nat} (hv : Tile.Valid { z := z, x := x, y := y } = false) :
    MakeZXYTile z x y = .error "invalid tile" := by
  simp [MakeZXYTile, hv]

theorem makeZXYTile_ok {z x y : Nat} (hv : Tile.Valid { z := z, x := x, y := y } = true) :
    MakeZXYTile z x y = .ok { z := z, x := x, y := y } := by
  simp [MakeZXYTile, hv]

theorem bounds_edge_error {K : Type} [LinearOrderedField K] [FloorRing K]
    (math : Math K) (t : Tile) (hz : t.z ≤ 38) (hx : t.x < 2 ^ t.z) (hy : t.y < 2 ^ t.z)
    (hedge : t.x + 1 = 2 ^ t.z ∨ t.y + 1 = 2 ^ t.z) :
    Tile.Bounds math t = .error "invalid tile" := by
  have hv : t.Valid = true := (tile_valid_iff t).mpr ⟨hz, hx, hy⟩
  obtain ⟨c, hc⟩ := tile_coord_ok math t hv
  have hpow : (2 : Nat) ^ t.z ≤ 2 ^ 38 := Nat.pow_le_pow_right (by norm_num) hz
  have hpos : 0 < 2 ^ t.z := Nat.pos_pow_of_pos _ (by norm_num)
  have h38 : (2 : Nat) ^ 38 = 274877906944 := by norm_num
  have hx1 : (t.x + 1) % 2 ^ 64 = t.x + 1 := Nat.mod_eq_of_lt (by omega)
  have hy1 : (t.y + 1) % 2 ^ 64 = t.y + 1 := Nat.mod_eq_of_lt (by omega)
  have hnx : ¬ (t.x + 1 = 256 * 2 ^ t.z) := by omega
  have hny : ¬ (t.y + 1 = 256 * 2 ^ t.z) := by omega
  have hinv : Tile.Valid { z := t.z, x := t.x + 1, y := t.y + 1 } = false := by
    rw [← Bool.not_eq_true, tile_valid_iff]
    simp only
    omega
  unfold Tile.Bounds
  simp only [Tile.ZXY, mapPixelSize_ok hz, hc, hx1, hy1, bind, Except.bind, hnx, hny, if_false,
    makeZXYTile_error hinv]

/-! ## Elevation service: single calls -/

theorem getTilePix_zoom_error (src : TileSource) (s : ElevationService) (z x y : Nat)
    (hz : 14 < z) :
    s.getTilePix src z x y =
      .ok { result := .error "zoom level cannot be greater than 14", service := s,
            calls := [] } := by
  unfold ElevationService.getTilePix
  rw [if_pos (by unfold MaxElevationZoom; exact hz)]
  rfl

theorem getTilePix_hit (src : TileSource) (s : ElevationService) (z x y : Nat)
    (pix : List Nat) (hz : z ≤ 14) (hhit : s.cache { z := z, x := x, y := y } = some pix) :
    s.getTilePix src z x y = .ok { result := .ok pix, service := s, calls := [] } := by
  unfold ElevationService.getTilePix
  rw [if_neg (by unfold MaxElevationZoom; omega), hhit]
  rfl

theorem getTilePix_miss_error (src : TileSource) (s : ElevationService) (z x y : Nat)
    (err : String) (hz : z ≤ 14) (hmiss : s.cache { z := z, x := x, y := y } = none)
    (hsrc : wgetTerrarium src z x y = .error err) :
    s.getTilePix src z x y =
      .ok { result := .error err, service := s, calls := [{ z := z, x := x, y := y }] } := by
  unfold ElevationService.getTilePix
  rw [if_neg (by unfold MaxElevationZoom; omega), hmiss, hsrc]
  rfl

theorem getTilePix_miss_ok (src : TileSource) (s : ElevationService) (z x y : Nat)
    (pix : List Nat) (hz : z ≤ 14) (hmiss : s.cache { z := z, x := x, y := y } = none)
    (hsrc : wgetTerrarium src z x y = .ok pix) :
    s.getTilePix src z x y =
      s.insert { z := z, x := x, y := y } pix >>= fun s2 =>
        pure { result := .ok pix, service := s2, calls := [{ z := z, x := x, y := y }] } := by
  unfold ElevationService.getTilePix
  rw [if_neg (by unfold MaxElevationZoom; omega), hmiss, hsrc]

theorem getTilePix_result (src : TileSource) (s : ElevationService) (z x y : Nat)
    (r : Step (List Nat)) (hz : z ≤ 14) (hr : s.getTilePix src z x y = .ok r) :
    (∃ pix, r.result = .ok pix) ∨
      (∃ err, r.result = .error err ∧ wgetTerrarium src z x y = .error err) := by
  cases hc : s.cache { z := z, x := x, y := y } with
  | some pix =>
    rw [getTilePix_hit src s z x y pix hz hc] at hr
    cases hr
    exact Or.inl ⟨pix, rfl⟩
  | none =>
    cases hw : wgetTerrarium src z x y with
    | error err =>
      rw [getTilePix_miss_error src s z x y err hz hc hw] at hr
      cases hr
      exact Or.inr ⟨err, rfl, rfl⟩
    | ok pix =>
      rw [getTilePix_miss_ok src s z x y pix hz hc hw] at hr
      cases hi : s.insert { z := z, x := x, y := y } pix with
      | error e => rw [hi] at hr; cases hr
      | ok s2 =>
        rw [hi] at hr
        cases hr
        exact Or.inl ⟨pix, rfl⟩

theorem pixelTile_zoom_error (src : TileSource) (s : ElevationService) (t : Tile)
    (hz : 14 < t.z) :
    s.PixelTile src t =
      .ok { result := .error "zoom level cannot be greater than 14", service := s,
            calls := [] } := by
  unfold ElevationService.PixelTile
  simp only [Tile.ZXY]
  rw [getTilePix_zoom_error src s t.z t.x t.y hz]
  rfl

theorem atPixel_zoom_error {K : Type} [LinearOrderedField K] [FloorRing K]
    (src : TileSource) (s : ElevationService) (p : Pixel) (hv : p.Valid = true)
    (hz : 14 < p.zoom) :
    (s.AtPixel src p : Except String (Step K)) =
      .ok { result := .error "zoom level cannot be greater than 14", service := s,
            calls := [] } := by
  unfold ElevationService.AtPixel
  rw [pixel_tile_ok p hv]
  show (s.PixelTile src _ >>= _) = _
  rw [pixelTile_zoom_error src s _ hz]
  rfl

theorem pixIndex_eq (p : Pixel) : pixIndex p = p.y % 256 * 1024 + p.x % 256 * 4 := by
  unfold pixIndex tileSize
  have hx : p.x % 256 < 256 := Nat.mod_lt _ (by norm_num)
  have hy : p.y % 256 < 256 := Nat.mod_lt _ (by norm_num)
  simp only
  omega

theorem pixIndex_lt (p : Pixel) : pixIndex p + 2 < 262144 := by
  rw [pixIndex_eq]
  have hx : p.x % 256 < 256 := Nat.mod_lt _ (by norm_num)
  have hy : p.y % 256 < 256 := Nat.mod_lt _ (by norm_num)
  omega

theorem byteAt_ok (pix : List Nat) (i : Nat) (hi : i < pix.length) :
    ∃ b, pix[i]? = some b ∧ byteAt pix i = .ok b := by
  refine ⟨pix[i], List.getElem?_eq_getElem hi, ?_⟩
  unfold byteAt
  rw [List.getElem?_eq_getElem hi]

theorem wgetTerrarium_length (src : TileSource) (z x y : Nat) (pix : List Nat)
    (hwf : ∀ data img, src.decode data = .ok img → img.WellFormed)
    (h : wgetTerrarium src z x y = .ok pix) : pix.length = 262144 := by
  unfold wgetTerrarium at h
  cases hg : wget src (makeURL terrariumURL z x y) with
  | error e => rw [hg] at h; cases h
  | ok data =>
    rw [hg] at h
    simp only at h
    cases hd : src.decode data with
    | error e => rw [hd] at h; cases h
    | ok img =>
      rw [hd] at h
      simp only at h
      obtain ⟨_, hlen⟩ := hwf data img hd
      split_ifs at h with h1 h2
      cases h
      have hh : img.height = 256 := by
        by_contra hne
        exact h1 (Or.inr hne)
      have hs : img.stride = 1024 := by
        by_contra hne
        exact h2 hne
      rw [hs, hh] at hlen
      omega

/-! ## Claims C14 and C16 -/

/-- C14: for every valid pixel `p` whose tile buffer `pix` of 262144 bytes is
obtained, `AtPixel` returns `(R*256 + G + B/256) - 32768` exactly, where `R`, `G`, `B`
are the bytes of `pix` at `idx`, `idx + 1`, `idx + 2` and
`idx = (p.y mod 256) * 1024 + (p.x mod 256) * 4`; the channels `(128, 0, 0)` give 0,
`(0, 0, 0)` give `-32768` and `(255, 255, 255)` give `32767.99609375`. -/
theorem atPixel_terrarium {K : Type} [LinearOrderedField K] [FloorRing K]
    (src : TileSource) (s : ElevationService) (p : Pixel) (t : Tile)
    (r : Step PixelTile) (pix : List Nat)
    (hp : p.zoom ≤ 38 ∧ p.x < 256 * 2 ^ p.zoom ∧ p.y < 256 * 2 ^ p.zoom)
    (ht : Pixel.Tile p = .ok t) (hr : s.PixelTile src t = .ok r)
    (hpix : r.result = .ok { Tile := t, Pix := pix }) (hlen : pix.length = 262144) :
    (∃ R G B : Nat,
        pix[p.y % 256 * 1024 + p.x % 256 * 4]? = some R ∧
        pix[p.y % 256 * 1024 + p.x % 256 * 4 + 1]? = some G ∧
        pix[p.y % 256 * 1024 + p.x % 256 * 4 + 2]? = some B ∧
        (s.AtPixel src p : Except String (Step K)) =
          .ok { result := .ok (((R : K) * 256 + (G : K) + (B : K) / 256) - 32768),
                service := r.service, calls := r.calls }) ∧
      terrariumMeters (128 : K) 0 0 = 0 ∧ terrariumMeters (0 : K) 0 0 = -32768 ∧
      terrariumMeters (255 : K) 255 255 = 32767.99609375 := by
  have _hv : p.Valid = true := (pixel_valid_iff p).mpr hp
  have hidx := pixIndex_eq p
  have hlt := pixIndex_lt p
  have e0 : (pixIndex p + 0) % 2 ^ 64 = pixIndex p := Nat.mod_eq_of_lt (by omega)
  have e1 : (pixIndex p + 1) % 2 ^ 64 = pixIndex p + 1 := Nat.mod_eq_of_lt (by omega)
  have e2 : (pixIndex p + 2) % 2 ^ 64 = pixIndex p + 2 := Nat.mod_eq_of_lt (by omega)
  obtain ⟨R, hR, hR2⟩ := byteAt_ok pix (pixIndex p) (by omega)
  obtain ⟨G, hG, hG2⟩ := byteAt_ok pix (pixIndex p + 1) (by omega)
  obtain ⟨B, hB, hB2⟩ := byteAt_ok pix (pixIndex p + 2) (by omega)
  refine ⟨⟨R, G, B, ?_, ?_, ?_, ?_⟩, ?_, ?_, ?_⟩
  · rw [← hidx]; exact hR
  · rw [← hidx]; exact hG
  · rw [← hidx]; exact hB
  · unfold ElevationService.AtPixel
    rw [ht]
    show (s.PixelTile src t >>= _) = _
    rw [hr]
    show (match r.result with
      | .error err => _
      | .ok ptile => _) = _
    rw [hpix]
    simp only [e0, e1, e2, hR2, hG2, hB2, bind, Except.bind, pure, Except.pure,
      terrariumMeters]
  · unfold terrariumMeters; norm_num
  · unfold terrariumMeters; norm_num
  · unfold terrariumMeters; norm_num

/-- C16: for every key `(z, x, y)` with `z ≤ 14` that is present in the cache,
`getTilePix` returns the stored buffer, requests nothing from the tile source and
leaves the map, the slot array and the counter unchanged. -/
theorem cache_hit_is_pure_read (src : TileSource) (s : ElevationService) (z x y : Nat)
    (pix : List Nat) (hz : z ≤ 14) (hhit : s.cache { z := z, x := x, y := y } = some pix) :
    ∃ r, s.getTilePix src z x y = .ok r ∧ r.result = .ok pix ∧ r.calls = [] ∧
      r.service = s ∧ r.service.cache = s.cache ∧ r.service.lru = s.lru ∧
      r.service.lrui = s.lrui :=
  ⟨_, getTilePix_hit src s z x y pix hz hhit, rfl, rfl, rfl, rfl, rfl, rfl⟩

/-! ## Elevation service: the ring of keys -/

theorem wrapInt64_eq {v : Int} (h0 : 0 ≤ v) (h1 : v < 2 ^ 63) : wrapInt64 v = v := by
  unfold wrapInt64
  have h63 : (2 : Int) ^ 63 = 9223372036854775808 := by norm_num
  have h64 : (2 : Int) ^ 64 = 18446744073709551616 := by norm_num
  rw [h63, h64] at *
  omega

theorem slot_eq (s : ElevationService) (n : Nat) (hlen : s.lru.length = 1024)
    (hn : s.lrui = (n : Int)) : s.slot = .ok (n % 1024) := by
  unfold ElevationService.slot
  rw [hlen, hn]
  have h : Int.tmod (n : Int) ((1024 : Nat) : Int) = ((n % 1024 : Nat) : Int) :=
    (Int.ofNat_tmod n 1024).symm
  have h2 : ¬ (((n % 1024 : Nat) : Int) < 0) := by omega
  rw [if_neg (by norm_num), h, if_neg h2, Int.toNat_ofNat]

theorem newElevationService_inv : RingInv NewElevationService [] where
  len := List.length_replicate _ _
  count := rfl
  ring := by intro i hi; simp at hi
  held := by
    intro k
    constructor
    · intro h; cases h
    · rintro ⟨i, hi, _⟩; simp at hi
  distinct := by intro i j _ hj; simp at hj

theorem getElem?_append_singleton_lt {α : Type} (l : List α) (a : α) (i : Nat)
    (hi : i < l.length) : (l ++ [a])[i]? = l[i]? := by
  rw [List.getElem?_append_left hi]

theorem getElem?_append_singleton_eq {α : Type} (l : List α) (a : α) :
    (l ++ [a])[l.length]? = some a := by
  simp

theorem insert_inv (s : ElevationService) (ins : List cacheKey) (key : cacheKey)
    (pix : List Nat) (hinv : RingInv s ins) (hmiss : s.cache key = none)
    (hn : (ins.length : Int) + 1 < 2 ^ 63) :
    ∃ s2, s.insert key pix = .ok s2 ∧ RingInv s2 (ins ++ [key]) := by
  obtain ⟨hlen, hcount, hring, hheld, hdist⟩ := hinv
  have hslot := slot_eq s ins.length hlen hcount
  have hkey : ∀ i, i < ins.length → ins.length ≤ i + 1024 → ins[i]? ≠ some key := by
    intro i hi1 hi2 hik
    have : (s.cache key).isSome = true := (hheld key).mpr ⟨i, hi1, hi2, hik⟩
    rw [hmiss] at this
    cases this
  have hwrap : wrapInt64 (s.lrui + 1) = ((ins.length + 1 : Nat) : Int) := by
    rw [hcount, wrapInt64_eq (by omega) hn]
    push_cast
    rfl
  have hmodlt : ins.length % 1024 < s.lru.length := by
    rw [hlen]; exact Nat.mod_lt _ (by norm_num)
  by_cases hfull : 1024 ≤ ins.length
  · -- the slot is occupied by the oldest key of the window
    have hge : s.lrui ≥ (s.lru.length : Int) := by rw [hcount, hlen]; omega
    have hold : s.lru[ins.length % 1024]? = ins[ins.length - 1024]? := by
      have := hring (ins.length - 1024) (by omega) (by omega)
      have e : (ins.length - 1024) % 1024 = ins.length % 1024 := by omega
      rw [e] at this
      exact this
    obtain ⟨old, hold2⟩ : ∃ old, ins[ins.length - 1024]? = some old := by
      cases h : ins[ins.length - 1024]? with
      | some old => exact ⟨old, rfl⟩
      | none =>
        have := List.getElem?_eq_none_iff.mp h
        omega
    have hgetD : s.lru.getD (ins.length % 1024) { z := 0, x := 0, y := 0 } = old := by
      rw [List.getD_eq_getElem?_getD, hold, hold2]
      rfl
    refine ⟨{ cache := mapStore (mapDelete s.cache old) key pix
              lru := s.lru.set (ins.length % 1024) key
              lrui := ((ins.length + 1 : Nat) : Int) }, ?_, ?_⟩
    · unfold ElevationService.insert
      rw [if_pos hge, hslot]
      simp only [bind, Except.bind, pure, Except.pure, hgetD, hwrap]
    · refine ⟨?_, ?_, ?_, ?_, ?_⟩
      · show (s.lru.set (ins.length % 1024) key).length = 1024
        rw [List.length_set]; exact hlen
      · show ((ins.length + 1 : Nat) : Int) = ((ins ++ [key]).length : Int)
        rw [List.length_append]; rfl
      · intro i hi1 hi2
        simp only [List.length_append, List.length_singleton] at hi1 hi2
        by_cases hin : i = ins.length
        · subst hin
          rw [getElem?_append_singleton_eq]
          simp only
          rw [List.getElem?_set]
          simp [hmodlt]
        · have hi3 : i < ins.length := by omega
          rw [getElem?_append_singleton_lt ins key i hi3]
          simp only
          rw [List.getElem?_set_ne (by omega)]
          exact hring i hi3 (by omega)
      · intro k
        simp only [List.length_append, List.length_singleton, mapStore, mapDelete]
        by_cases hk : k = key
        · subst hk
          simp only [if_true, Option.isSome_some, true_iff]
          exact ⟨ins.length, by omega, by omega, getElem?_append_singleton_eq ins k⟩
        · rw [if_neg hk]
          by_cases hko : k = old
          · subst hko
            simp only [if_true, Option.isSome_none, Bool.false_eq_true, false_iff]
            rintro ⟨i, hi1, hi2, hik⟩
            by_cases hin : i = ins.length
            · subst hin
              rw [getElem?_append_singleton_eq] at hik
              exact hk (Option.some.inj hik).symm
            · have hi3 : i < ins.length := by omega
              rw [getElem?_append_singleton_lt ins key i hi3] at hik
              have := hdist (ins.length - 1024) i (by omega) hi3 (by omega)
              rw [hold2, hik] at this
              exact this rfl
          · rw [if_neg hko, hheld k]
            constructor
            · rintro ⟨i, hi1, hi2, hik⟩
              have hne : i ≠ ins.length - 1024 := by
                intro h
                rw [h, hold2] at hik
                exact hko (Option.some.inj hik).symm
              exact ⟨i, by omega, by omega,
                by rw [getElem?_append_singleton_lt ins key i hi1]; exact hik⟩
            · rintro ⟨i, hi1, hi2, hik⟩
              by_cases hin : i = ins.length
              · subst hin
                rw [getElem?_append_singleton_eq] at hik
                exact absurd (Option.some.inj hik).symm hk
              · have hi3 : i < ins.length := by omega
                rw [getElem?_append_singleton_lt ins key i hi3] at hik
                exact ⟨i, hi3, by omega, hik⟩
      · intro i j hij hj1 hj2
        simp only [List.length_append, List.length_singleton] at hj1
        by_cases hjn : j = ins.length
        · subst hjn
          rw [getElem?_append_singleton_eq, getElem?_append_singleton_lt ins key i hij]
          exact hkey i hij hj2
        · have hj3 : j < ins.length := by omega
          rw [getElem?_append_singleton_lt ins key i (by omega),
            getElem?_append_singleton_lt ins key j hj3]
          exact hdist i j hij hj3 hj2
  · -- the ring is not full yet: nothing is deleted
    have hlt : ¬ (s.lrui ≥ (s.lru.length : Int)) := by rw [hcount, hlen]; omega
    refine ⟨{ cache := mapStore s.cache key pix
              lru := s.lru.set (ins.length % 1024) key
              lrui := ((ins.length + 1 : Nat) : Int) }, ?_, ?_⟩
    · unfold ElevationService.insert
      rw [if_neg hlt, hslot]
      simp only [bind, Except.bind, pure, Except.pure, hwrap]
    · refine ⟨?_, ?_, ?_, ?_, ?_⟩
      · show (s.lru.set (ins.length % 1024) key).length = 1024
        rw [List.length_set]; exact hlen
      · show ((ins.length + 1 : Nat) : Int) = ((ins ++ [key]).length : Int)
        rw [List.length_append]; rfl
      · intro i hi1 hi2
        simp only [List.length_append, List.length_singleton] at hi1 hi2
        by_cases hin : i = ins.length
        · subst hin
          rw [getElem?_append_singleton_eq]
          simp only
          rw [List.getElem?_set]
          simp [hmodlt]
        · have hi3 : i < ins.length := by omega
          rw [getElem?_append_singleton_lt ins key i hi3]
          simp only
          rw [List.getElem?_set_ne (by omega)]
          exact hring i hi3 (by omega)
      · intro k
        simp only [List.length_append, List.length_singleton, mapStore]
        by_cases hk : k = key
        · subst hk
          simp only [if_true, Option.isSome_some, true_iff]
          exact ⟨ins.length, by omega, by omega, getElem?_append_singleton_eq ins k⟩
        · rw [if_neg hk, hheld k]
          constructor
          · rintro ⟨i, hi1, hi2, hik⟩
            exact ⟨i, by omega, by omega,
              by rw [getElem?_append_singleton_lt ins key i hi1]; exact hik⟩
          · rintro ⟨i, hi1, hi2, hik⟩
            by_cases hin : i = ins.length
            · subst hin
              rw [getElem?_append_singleton_eq] at hik
              exact absurd (Option.some.inj hik).symm hk
            · have hi3 : i < ins.length := by omega
              rw [getElem?_append_singleton_lt ins key i hi3] at hik
              exact ⟨i, hi3, by omega, hik⟩
      · intro i j hij hj1 hj2
        simp only [List.length_append, List.length_singleton] at hj1
        by_cases hjn : j = ins.length
        · subst hjn
          rw [getElem?_append_singleton_eq, getElem?_append_singleton_lt ins key i hij]
          exact hkey i hij hj2
        · have hj3 : j < ins.length := by omega
          rw [getElem?_append_singleton_lt ins key i (by omega),
            getElem?_append_singleton_lt ins key j hj3]
          exact hdist i j hij hj3 hj2

theorem cacheKey_eta (key : cacheKey) : ({ z := key.z, x := key.x, y := key.y } : cacheKey) = key := by
  cases key; rfl

theorem getTilePix_inv (src : TileSource) (s : ElevationService) (ins : List cacheKey)
    (key : cacheKey) (hinv : RingInv s ins) (hn : (ins.length : Int) + 1 < 2 ^ 63) :
    ∃ r, s.getTilePix src key.z key.x key.y = .ok r ∧
      RingInv r.service (ins ++ r.inserted) ∧ r.inserted.length ≤ 1 := by
  by_cases hz : key.z ≤ 14
  · cases hc : s.cache { z := key.z, x := key.x, y := key.y } with
    | some pix =>
      refine ⟨_, getTilePix_hit src s key.z key.x key.y pix hz hc, ?_, ?_⟩
      · show RingInv s (ins ++ [])
        rw [List.append_nil]; exact hinv
      · exact Nat.zero_le _
    | none =>
      cases hw : wgetTerrarium src key.z key.x key.y with
      | error err =>
        refine ⟨_, getTilePix_miss_error src s key.z key.x key.y err hz hc hw, ?_, ?_⟩
        · show RingInv s (ins ++ [])
          rw [List.append_nil]; exact hinv
        · exact Nat.zero_le _
      | ok pix =>
        rw [cacheKey_eta] at hc
        obtain ⟨s2, hs2, hinv2⟩ := insert_inv s ins key pix hinv hc hn
        refine ⟨{ result := .ok pix, service := s2, calls := [key] }, ?_, hinv2, ?_⟩
        · rw [getTilePix_miss_ok src s key.z key.x key.y pix hz
            (by rw [cacheKey_eta]; exact hc) hw, cacheKey_eta, hs2]
          rfl
        · exact Nat.le_refl _
  · refine ⟨_, getTilePix_zoom_error src s key.z key.x key.y (by omega), ?_, ?_⟩
    · show RingInv s (ins ++ [])
      rw [List.append_nil]; exact hinv
    · exact Nat.zero_le _

theorem runLookups_inv (src : Nat → TileSource) (keys : List cacheKey) :
    ∀ (i : Nat) (s : ElevationService) (ins : List cacheKey), RingInv s ins →
      (ins.length : Int) + (keys.length : Int) < 2 ^ 63 →
      ∃ s2 ins2, runLookups src i s keys = .ok (s2, ins2) ∧ RingInv s2 (ins ++ ins2) ∧
        ins2.length ≤ keys.length := by
  induction keys with
  | nil =>
    intro i s ins hinv _
    exact ⟨s, [], rfl, by rw [List.append_nil]; exact hinv, Nat.le_refl _⟩
  | cons key keys ih =>
    intro i s ins hinv hn
    have hlen : ((key :: keys).length : Int) = (keys.length : Int) + 1 := by
      rw [List.length_cons]; push_cast; rfl
    rw [hlen] at hn
    obtain ⟨r, hr, hinv1, hr1⟩ := getTilePix_inv (src i) s ins key hinv (by omega)
    have hn2 : ((ins ++ r.inserted).length : Int) + (keys.length : Int) < 2 ^ 63 := by
      rw [List.length_append]; push_cast; omega
    obtain ⟨s2, ins2, hrun, hinv2, hlen2⟩ := ih (i + 1) r.service (ins ++ r.inserted) hinv1 hn2
    refine ⟨s2, r.inserted ++ ins2, ?_, ?_, ?_⟩
    · rw [runLookups, hr]
      show (runLookups src (i + 1) r.service keys >>= _) = _
      rw [hrun]
      rfl
    · rw [← List.append_assoc]; exact hinv2
    · rw [List.length_append, List.length_cons]; omega

theorem mem_window_iff (ins : List cacheKey) (k : cacheKey) :
    k ∈ ins.drop (ins.length - 1024) ↔
      ∃ i, i < ins.length ∧ ins.length ≤ i + 1024 ∧ ins[i]? = some k := by
  rw [List.mem_iff_getElem?]
  constructor
  · rintro ⟨j, hj⟩
    rw [List.getElem?_drop] at hj
    refine ⟨ins.length - 1024 + j, ?_, by omega, hj⟩
    by_contra hge
    rw [List.getElem?_eq_none (by omega)] at hj
    cases hj
  · rintro ⟨i, hi1, hi2, hik⟩
    refine ⟨i - (ins.length - 1024), ?_⟩
    rw [List.getElem?_drop]
    have e : ins.length - 1024 + (i - (ins.length - 1024)) = i := by omega
    rw [e]; exact hik

/-! ## Claim C12: the edge branches of `Tile.Bounds` -/

/-- C12 (the code does not do this): for every valid tile in the last column
(`x + 1 = 2 ^ z`) or the last row (`y + 1 = 2 ^ z`) of its zoom, `Tile.Bounds` panics
with "invalid tile".  The edge tests compare `x+1` and `y+1` with `MapPixelSize(z)`,
which no valid tile reaches, so the neighbour `MakeZXYTile(z, x+1, y+1)` is always
built. -/
theorem bounds_fails_on_last_column_or_row {K : Type} [LinearOrderedField K] [FloorRing K]
    (math : Math K) (t : Tile) (hz : t.z ≤ 38) (hx : t.x < 2 ^ t.z) (hy : t.y < 2 ^ t.z)
    (hedge : t.x + 1 = 2 ^ t.z ∨ t.y + 1 = 2 ^ t.z) :
    Tile.Bounds math t = .error "invalid tile" :=
  bounds_edge_error math t hz hx hy hedge

/-- C12 at the single tile `(0, 0, 0)` of zoom 0, over the rationals. -/
theorem bounds_fails_on_last_column_or_row_witness :
    ((0 : Nat) ≤ 38 ∧ (0 : Nat) < 2 ^ 0 ∧ ((0 : Nat) + 1 = 2 ^ 0 ∨ (0 : Nat) + 1 = 2 ^ 0)) ∧
      Tile.Bounds Math.rational { z := 0, x := 0, y := 0 } = .error "invalid tile" :=
  ⟨by decide,
    bounds_fails_on_last_column_or_row Math.rational { z := 0, x := 0, y := 0 }
      (by decide) (by decide) (by decide) (by decide)⟩

/-! ## Claim C18: construction of coordinates -/

/-- C18 as stated fails: `MakeLatLonCoord(91, 181)`, with the latitude above 90 and
the longitude above 180, does not fail; it returns the coordinate unchanged. -/
theorem makeLatLonCoord_accepts_out_of_range :
    (90 : ℚ) < 91 ∧ (180 : ℚ) < 181 ∧
      MakeLatLonCoord (91 : ℚ) 181 = .ok { x := 181, y := 91, datum := EPSG4326 } :=
  ⟨by norm_num, by norm_num, makeLatLonCoord_ok 91 181⟩

theorem clip_idem {K : Type} [LinearOrderedField K] [FloorRing K] (n lo hi : K)
    (h : lo ≤ hi) : clip (clip n lo hi) lo hi = clip n lo hi := by
  obtain ⟨h1, h2⟩ := clip_mem n lo hi h
  unfold clip at h1 h2 ⊢
  split_ifs at h1 h2 ⊢ <;> first | rfl | (exfalso; linarith)

theorem minLat_le_maxLat {K : Type} [LinearOrderedField K] [FloorRing K] :
    (minLat : K) ≤ maxLat := by
  unfold minLat maxLat
  norm_num

theorem minLon_le_maxLon {K : Type} [LinearOrderedField K] [FloorRing K] :
    (minLon : K) ≤ maxLon := by
  unfold minLon maxLon
  norm_num

/-- C18 amended: `MakeLatLonCoord(lat, lon)` and `MakeMetersCoord(x, y)` never fail:
for all values, in range or not, they return the coordinate holding the values
unchanged; an out-of-range latitude or longitude is clamped later, by `Coord.Pixel`,
which gives the same pixel as for the coordinate clamped to
`[minLat, maxLat]` and `[minLon, maxLon]`. -/
theorem makeLatLonCoord_never_fails {K : Type} [LinearOrderedField K] [FloorRing K]
    (math : Math K) (lat lon : K) (zoom : Nat) :
    MakeLatLonCoord lat lon = .ok { x := lon, y := lat, datum := EPSG4326 } ∧
      MakeMetersCoord lat lon = .ok { x := lat, y := lon, datum := EPSG3857 } ∧
      Coord.Pixel math { x := lon, y := lat, datum := EPSG4326 } zoom =
        Coord.Pixel math
          { x := clip lon minLon maxLon, y := clip lat minLat maxLat, datum := EPSG4326 }
          zoom := by
  refine ⟨makeLatLonCoord_ok lat lon, ?_, ?_⟩
  · simp [MakeMetersCoord, Coord.Valid, EPSG3857]
  · unfold Coord.Pixel Coord.LatLon
    have h1 : ¬ (EPSG4326 = EPSG3857) := by decide
    simp only [h1, if_false, if_true, clip_idem _ _ _ minLat_le_maxLat,
      clip_idem _ _ _ minLon_le_maxLon]

/-! ## Witnesses for the elevation claims -/

/-- C14 on the service that holds the flat buffer under every key, at the pixel
`(2452, 1707)` of zoom 4: every channel is 128 and the height is `128.5`. -/
theorem atPixel_terrarium_witness :
    ∃ R G B : Nat,
      (List.replicate 262144 128)[1707 % 256 * 1024 + 2452 % 256 * 4]? = some R ∧
      (List.replicate 262144 128)[1707 % 256 * 1024 + 2452 % 256 * 4 + 1]? = some G ∧
      (List.replicate 262144 128)[1707 % 256 * 1024 + 2452 % 256 * 4 + 2]? = some B ∧
      (ElevationService.flat.AtPixel TileSource.flat { x := 2452, y := 1707, zoom := 4 } :
          Except String (Step ℚ)) =
        .ok { result := .ok (((R : ℚ) * 256 + (G : ℚ) + (B : ℚ) / 256) - 32768),
              service := ElevationService.flat, calls := [] } :=
  (atPixel_terrarium (K := ℚ) TileSource.flat ElevationService.flat
    { x := 2452, y := 1707, zoom := 4 } { z := 4, x := 9, y := 6 }
    { result := .ok { Tile := { z := 4, x := 9, y := 6 }, Pix := List.replicate 262144 128 },
      service := ElevationService.flat, calls := [] }
    (List.replicate 262144 128) (by decide) (by decide) rfl rfl
    (List.length_replicate _ _)).1

/-- C16 on the service that holds the flat buffer under every key, at the key
`(4, 9, 6)`. -/
theorem cache_hit_is_pure_read_witness :
    (4 : Nat) ≤ 14 ∧
    ∃ r, ElevationService.flat.getTilePix TileSource.flat 4 9 6 = .ok r ∧
      r.result = .ok (List.replicate 262144 128) ∧ r.calls = [] ∧
      r.service = ElevationService.flat ∧ r.service.cache = ElevationService.flat.cache ∧
      r.service.lru = ElevationService.flat.lru ∧
      r.service.lrui = ElevationService.flat.lrui :=
  ⟨by decide,
    cache_hit_is_pure_read TileSource.flat ElevationService.flat 4 9 6
      (List.replicate 262144 128) (by decide) rfl⟩

/-! ## Real arithmetic: numerical enclosures -/


theorem exp_mul_I_taylor (x : ℝ) (hx : |x| ≤ 1) :
    Complex.abs (Complex.exp (x * Complex.I) -
      (((1 - x ^ 2 / 2 + x ^ 4 / 24 - x ^ 6 / 720 + x ^ 8 / 40320 : ℝ) : ℂ) +
        ((x - x ^ 3 / 6 + x ^ 5 / 120 - x ^ 7 / 5040 + x ^ 9 / 362880 : ℝ) : ℂ) * Complex.I)) ≤
      |x| ^ 10 * (11 / 36288000) := by
  have habs : Complex.abs (x * Complex.I) ≤ 1 := by simpa using hx
  have h := Complex.exp_bound habs (n := 10) (by norm_num)
  have hsum : (∑ m ∈ Finset.range 10, ((x : ℂ) * Complex.I) ^ m / (m.factorial : ℂ)) =
      (((1 - x ^ 2 / 2 + x ^ 4 / 24 - x ^ 6 / 720 + x ^ 8 / 40320 : ℝ) : ℂ) +
        ((x - x ^ 3 / 6 + x ^ 5 / 120 - x ^ 7 / 5040 + x ^ 9 / 362880 : ℝ) : ℂ) * Complex.I) := by
    have h2 : Complex.I ^ 2 = -1 := Complex.I_sq
    have h3 : Complex.I ^ 3 = -Complex.I := by rw [pow_succ, h2]; ring
    have h4 : Complex.I ^ 4 = 1 := by rw [pow_succ, h3]; ring_nf; rw [h2]; ring
    have h5 : Complex.I ^ 5 = Complex.I := by rw [pow_succ, h4]; ring
    have h6 : Complex.I ^ 6 = -1 := by rw [pow_succ, h5]; ring_nf; rw [h2]
    have h7 : Complex.I ^ 7 = -Complex.I := by rw [pow_succ, h6]; ring
    have h8 : Complex.I ^ 8 = 1 := by rw [pow_succ, h7]; ring_nf; rw [h2]; ring
    have h9 : Complex.I ^ 9 = Complex.I := by rw [pow_succ, h8]; ring
    simp only [Finset.sum_range_succ, Finset.sum_range_zero, Nat.factorial, mul_pow,
      h2, h3, h4, h5, h6, h7, h8, h9]
    push_cast
    ring
  rw [hsum] at h
  have habs2 : Complex.abs (x * Complex.I) = |x| := by simp
  rw [habs2] at h
  calc _ ≤ _ := h
    _ = |x| ^ 10 * (11 / 36288000) := by norm_num [Nat.factorial]

theorem cos_taylor (x : ℝ) (hx : |x| ≤ 1) :
    |Real.cos x - (1 - x ^ 2 / 2 + x ^ 4 / 24 - x ^ 6 / 720 + x ^ 8 / 40320)| ≤
      |x| ^ 10 * (11 / 36288000) := by
  have h := exp_mul_I_taylor x hx
  refine le_trans ?_ h
  have hre : (Complex.exp (x * Complex.I) -
      (((1 - x ^ 2 / 2 + x ^ 4 / 24 - x ^ 6 / 720 + x ^ 8 / 40320 : ℝ) : ℂ) +
        ((x - x ^ 3 / 6 + x ^ 5 / 120 - x ^ 7 / 5040 + x ^ 9 / 362880 : ℝ) : ℂ) *
          Complex.I)).re =
      Real.cos x - (1 - x ^ 2 / 2 + x ^ 4 / 24 - x ^ 6 / 720 + x ^ 8 / 40320) := by
    rw [Complex.sub_re, Complex.exp_ofReal_mul_I_re, Complex.add_re, Complex.ofReal_re,
      Complex.re_ofReal_mul, Complex.I_re, mul_zero, add_zero]
  rw [← hre]
  exact Complex.abs_re_le_abs _

theorem sin_taylor (x : ℝ) (hx : |x| ≤ 1) :
    |Real.sin x - (x - x ^ 3 / 6 + x ^ 5 / 120 - x ^ 7 / 5040 + x ^ 9 / 362880)| ≤
      |x| ^ 10 * (11 / 36288000) := by
  have h := exp_mul_I_taylor x hx
  refine le_trans ?_ h
  have him : (Complex.exp (x * Complex.I) -
      (((1 - x ^ 2 / 2 + x ^ 4 / 24 - x ^ 6 / 720 + x ^ 8 / 40320 : ℝ) : ℂ) +
        ((x - x ^ 3 / 6 + x ^ 5 / 120 - x ^ 7 / 5040 + x ^ 9 / 362880 : ℝ) : ℂ) *
          Complex.I)).im =
      Real.sin x - (x - x ^ 3 / 6 + x ^ 5 / 120 - x ^ 7 / 5040 + x ^ 9 / 362880) := by
    rw [Complex.sub_im, Complex.exp_ofReal_mul_I_im, Complex.add_im, Complex.ofReal_im,
      Complex.im_ofReal_mul, Complex.I_im, mul_one, zero_add]
  rw [← him]
  exact Complex.abs_im_le_abs _

theorem exp_upper_x1 : Real.exp (314159265358 / 100000000000) ≤
    ((∑ m ∈ Finset.range 14, ((314159265358 / 400000000000 : ℝ)) ^ m / (m.factorial : ℝ)) +
      (314159265358 / 400000000000 : ℝ) ^ 14 * ((14 : ℕ) + 1) / ((Nat.factorial 14 : ℝ) * (14 : ℕ))) ^ 4 := by
  have h := Real.exp_bound' (x := (314159265358 / 400000000000 : ℝ)) (by norm_num) (by norm_num)
    (n := 14) (by norm_num)
  have h4 : Real.exp (314159265358 / 100000000000) =
      Real.exp (314159265358 / 400000000000) ^ 4 := by
    rw [← Real.exp_nat_mul]
    congr 1
    norm_num
  rw [h4]
  exact pow_le_pow_left₀ (Real.exp_pos _).le h 4

theorem exp_lower_x2 :
    (∑ m ∈ Finset.range 18, ((314159265358983 / 400000000000000 : ℝ)) ^ m / (m.factorial : ℝ)) ^ 4 ≤
      Real.exp (314159265358983 / 100000000000000) := by
  have h := Real.sum_le_exp_of_nonneg (x := (314159265358983 / 400000000000000 : ℝ))
    (by norm_num) 18
  have h4 : Real.exp (314159265358983 / 100000000000000) =
      Real.exp (314159265358983 / 400000000000000) ^ 4 := by
    rw [← Real.exp_nat_mul]
    congr 1
    norm_num
  rw [h4]
  refine pow_le_pow_left₀ ?_ h 4
  exact Finset.sum_nonneg (fun m _ => by positivity)

theorem cot_enclosure :
    0 < Real.sin (Real.pi * (54987458002149 / 4000000000000000)) ∧
      Real.exp (314159265358 / 100000000000) ≤
        Real.cos (Real.pi * (54987458002149 / 4000000000000000)) /
          Real.sin (Real.pi * (54987458002149 / 4000000000000000)) ∧
      Real.cos (Real.pi * (54987458002149 / 4000000000000000)) /
          Real.sin (Real.pi * (54987458002149 / 4000000000000000)) ≤
        Real.exp (314159265358983 / 100000000000000) := by
  have hpi1 := Real.pi_gt_d20
  have hpi2 := Real.pi_lt_d20
  have hpi3 := Real.pi_gt_three
  generalize hb : Real.pi * (54987458002149 / 4000000000000000) = b
  have hlo : (43187048524782146 / 1000000000000000000 : ℝ) ≤ b := by
    rw [← hb]; norm_num at hpi1 ⊢; linarith
  have hhi : b ≤ (43187048524782147 / 1000000000000000000 : ℝ) := by
    rw [← hb]; norm_num at hpi2 ⊢; linarith
  have hb0 : 0 ≤ b := le_trans (by norm_num) hlo
  have hbpi : b ≤ Real.pi / 2 := by linarith
  -- polynomial enclosures at the two rational end points
  have hc1 := abs_le.mp (cos_taylor (43187048524782147 / 1000000000000000000)
    (by rw [abs_le]; constructor <;> norm_num))
  have hs1 := abs_le.mp (sin_taylor (43187048524782147 / 1000000000000000000)
    (by rw [abs_le]; constructor <;> norm_num))
  have hc0 := abs_le.mp (cos_taylor (43187048524782146 / 1000000000000000000)
    (by rw [abs_le]; constructor <;> norm_num))
  have hs0 := abs_le.mp (sin_taylor (43187048524782146 / 1000000000000000000)
    (by rw [abs_le]; constructor <;> norm_num))
  -- monotonicity on the first quadrant
  have hcos_ge : Real.cos (43187048524782147 / 1000000000000000000) ≤ Real.cos b :=
    Real.cos_le_cos_of_nonneg_of_le_pi hb0 (by linarith) hhi
  have hcos_le : Real.cos b ≤ Real.cos (43187048524782146 / 1000000000000000000) :=
    Real.cos_le_cos_of_nonneg_of_le_pi (by norm_num) (by linarith) hlo
  have hsin_le : Real.sin b ≤ Real.sin (43187048524782147 / 1000000000000000000) :=
    Real.sin_le_sin_of_le_of_le_pi_div_two (by linarith) (by linarith) hhi
  have hsin_ge : Real.sin (43187048524782146 / 1000000000000000000) ≤ Real.sin b :=
    Real.sin_le_sin_of_le_of_le_pi_div_two (by linarith) hbpi hlo
  have hsin_pos : 0 < Real.sin b := by
    refine lt_of_lt_of_le ?_ hsin_ge
    refine lt_of_lt_of_le ?_ (by linarith [hs0.1] :
      (43187048524782146 / 1000000000000000000 : ℝ) -
          (43187048524782146 / 1000000000000000000) ^ 3 / 6 +
          (43187048524782146 / 1000000000000000000) ^ 5 / 120 -
          (43187048524782146 / 1000000000000000000) ^ 7 / 5040 +
          (43187048524782146 / 1000000000000000000) ^ 9 / 362880 -
          |(43187048524782146 / 1000000000000000000 : ℝ)| ^ 10 * (11 / 36288000) ≤
        Real.sin (43187048524782146 / 1000000000000000000))
    rw [abs_of_nonneg (by norm_num)]
    norm_num
  refine ⟨hsin_pos, ?_, ?_⟩
  · refine le_trans exp_upper_x1 ?_
    rw [le_div_iff₀ hsin_pos]
    have h1 : (1 - (43187048524782147 / 1000000000000000000 : ℝ) ^ 2 / 2 +
          (43187048524782147 / 1000000000000000000) ^ 4 / 24 -
          (43187048524782147 / 1000000000000000000) ^ 6 / 720 +
          (43187048524782147 / 1000000000000000000) ^ 8 / 40320) -
        (43187048524782147 / 1000000000000000000) ^ 10 * (11 / 36288000) ≤ Real.cos b := by
      have := hc1.1
      rw [abs_of_nonneg (by norm_num)] at this
      linarith
    have h2 : Real.sin b ≤ ((43187048524782147 / 1000000000000000000 : ℝ) -
          (43187048524782147 / 1000000000000000000) ^ 3 / 6 +
          (43187048524782147 / 1000000000000000000) ^ 5 / 120 -
          (43187048524782147 / 1000000000000000000) ^ 7 / 5040 +
          (43187048524782147 / 1000000000000000000) ^ 9 / 362880) +
        (43187048524782147 / 1000000000000000000) ^ 10 * (11 / 36288000) := by
      have := hs1.2
      rw [abs_of_nonneg (by norm_num)] at this
      linarith
    refine le_trans ?_ h1
    refine le_trans (mul_le_mul_of_nonneg_left h2 (by positivity)) ?_
    norm_num [Finset.sum_range_succ, Nat.factorial]
  · rw [div_le_iff₀ hsin_pos]
    refine le_trans ?_ (mul_le_mul_of_nonneg_right exp_lower_x2 hsin_pos.le)
    have h1 : Real.cos b ≤ (1 - (43187048524782146 / 1000000000000000000 : ℝ) ^ 2 / 2 +
          (43187048524782146 / 1000000000000000000) ^ 4 / 24 -
          (43187048524782146 / 1000000000000000000) ^ 6 / 720 +
          (43187048524782146 / 1000000000000000000) ^ 8 / 40320) +
        (43187048524782146 / 1000000000000000000) ^ 10 * (11 / 36288000) := by
      have := hc0.2
      rw [abs_of_nonneg (by norm_num)] at this
      linarith
    have h2 : ((43187048524782146 / 1000000000000000000 : ℝ) -
          (43187048524782146 / 1000000000000000000) ^ 3 / 6 +
          (43187048524782146 / 1000000000000000000) ^ 5 / 120 -
          (43187048524782146 / 1000000000000000000) ^ 7 / 5040 +
          (43187048524782146 / 1000000000000000000) ^ 9 / 362880) -
        (43187048524782146 / 1000000000000000000) ^ 10 * (11 / 36288000) ≤ Real.sin b := by
      have := hs0.1
      rw [abs_of_nonneg (by norm_num)] at this
      linarith
    refine le_trans h1 ?_
    refine le_trans ?_ (mul_le_mul_of_nonneg_left h2 (by positivity))
    norm_num [Finset.sum_range_succ, Nat.factorial]

/-! ## Real arithmetic: the Mercator projection and its inverse -/

theorem mercatorY_real (math : Math ℝ) (h : math.IsReal) (lat : ℝ) :
    mercatorY math lat =
      1 / 2 - Real.log ((1 + Real.sin (lat * Real.pi / 180)) /
        (1 - Real.sin (lat * Real.pi / 180))) / (4 * Real.pi) := by
  obtain ⟨h1, h2, h3, _, _, _⟩ := h
  unfold mercatorY
  rw [h1, h2, h3]
  norm_num

theorem pixelLat_real (math : Math ℝ) (h : math.IsReal) (y : ℝ) :
    pixelLat math y = 90 - 360 * Real.arctan (Real.exp (-y * 2 * Real.pi)) / Real.pi := by
  obtain ⟨h1, _, _, h4, h5, _⟩ := h
  unfold pixelLat
  rw [h1, h4, h5]

theorem sin_pixelLat (y : ℝ) :
    Real.sin ((90 - 360 * Real.arctan (Real.exp (-y * 2 * Real.pi)) / Real.pi) *
      Real.pi / 180) =
      (1 - Real.exp (-y * 2 * Real.pi) ^ 2) / (1 + Real.exp (-y * 2 * Real.pi) ^ 2) := by
  have hpi : Real.pi ≠ 0 := Real.pi_ne_zero
  generalize hu : Real.exp (-y * 2 * Real.pi) = u
  have harg : (90 - 360 * Real.arctan u / Real.pi) * Real.pi / 180 =
      Real.pi / 2 - 2 * Real.arctan u := by
    field_simp
    ring
  rw [harg, Real.sin_pi_div_two_sub, Real.cos_two_mul, Real.cos_sq_arctan]
  have hpos : (0 : ℝ) < 1 + u ^ 2 := by positivity
  field_simp
  ring

theorem mercatorY_pixelLat (math : Math ℝ) (h : math.IsReal) (y : ℝ) :
    mercatorY math (pixelLat math y) = 1 / 2 - y := by
  rw [mercatorY_real math h, pixelLat_real math h, sin_pixelLat]
  have hu : 0 < Real.exp (-y * 2 * Real.pi) := Real.exp_pos _
  generalize hU : Real.exp (-y * 2 * Real.pi) = u at hu
  have hpos : (0 : ℝ) < 1 + u ^ 2 := by positivity
  have hratio : (1 + (1 - u ^ 2) / (1 + u ^ 2)) / (1 - (1 - u ^ 2) / (1 + u ^ 2)) =
      (u ^ 2)⁻¹ := by
    have hu0 : u ≠ 0 := ne_of_gt hu
    field_simp
    ring
  rw [hratio, Real.log_inv, Real.log_pow, ← hU, Real.log_exp]
  have hpi : Real.pi ≠ 0 := Real.pi_ne_zero
  field_simp
  ring

theorem pixelLat_range (math : Math ℝ) (h : math.IsReal) (y : ℝ) :
    -90 < pixelLat math y ∧ pixelLat math y < 90 := by
  rw [pixelLat_real math h]
  have hpi : 0 < Real.pi := Real.pi_pos
  have h1 : 0 < Real.arctan (Real.exp (-y * 2 * Real.pi)) :=
    Real.arctan_zero ▸ Real.arctan_strictMono (Real.exp_pos (-y * 2 * Real.pi))
  have h2 := Real.arctan_lt_pi_div_two (Real.exp (-y * 2 * Real.pi))
  constructor
  · have : 360 * Real.arctan (Real.exp (-y * 2 * Real.pi)) / Real.pi < 180 := by
      rw [div_lt_iff₀ hpi]; linarith
    linarith
  · have : 0 < 360 * Real.arctan (Real.exp (-y * 2 * Real.pi)) / Real.pi := by positivity
    linarith

theorem pixelLat_mono (math : Math ℝ) (h : math.IsReal) (y1 y2 : ℝ) (h12 : y1 ≤ y2) :
    pixelLat math y1 ≤ pixelLat math y2 := by
  rw [pixelLat_real math h, pixelLat_real math h]
  have hpi : 0 < Real.pi := Real.pi_pos
  have he : Real.exp (-y2 * 2 * Real.pi) ≤ Real.exp (-y1 * 2 * Real.pi) := by
    apply Real.exp_le_exp.mpr
    nlinarith
  have ha := Real.arctan_strictMono.monotone he
  have : 360 * Real.arctan (Real.exp (-y2 * 2 * Real.pi)) / Real.pi ≤
      360 * Real.arctan (Real.exp (-y1 * 2 * Real.pi)) / Real.pi := by
    apply div_le_div_of_nonneg_right _ hpi.le
    linarith
  linarith

theorem mercatorY_antitone (math : Math ℝ) (h : math.IsReal) (lat1 lat2 : ℝ)
    (h1 : -90 < lat1) (h12 : lat1 ≤ lat2) (h2 : lat2 < 90) :
    mercatorY math lat2 ≤ mercatorY math lat1 := by
  rw [mercatorY_real math h, mercatorY_real math h]
  have hpi : 0 < Real.pi := Real.pi_pos
  have ha1 : -(Real.pi / 2) < lat1 * Real.pi / 180 := by nlinarith
  have ha2 : lat2 * Real.pi / 180 < Real.pi / 2 := by nlinarith
  have ha12 : lat1 * Real.pi / 180 ≤ lat2 * Real.pi / 180 := by nlinarith
  have hs12 : Real.sin (lat1 * Real.pi / 180) ≤ Real.sin (lat2 * Real.pi / 180) :=
    Real.sin_le_sin_of_le_of_le_pi_div_two ha1.le ha2.le ha12
  have hs1 : -1 < Real.sin (lat1 * Real.pi / 180) := by
    have := Real.sin_lt_sin_of_lt_of_le_pi_div_two (le_refl (-(Real.pi / 2)))
      (by linarith : lat1 * Real.pi / 180 ≤ Real.pi / 2) ha1
    rwa [Real.sin_neg, Real.sin_pi_div_two] at this
  have hs2 : Real.sin (lat2 * Real.pi / 180) < 1 := by
    have := Real.sin_lt_sin_of_lt_of_le_pi_div_two
      (by linarith : -(Real.pi / 2) ≤ lat2 * Real.pi / 180) (le_refl (Real.pi / 2)) ha2
    rwa [Real.sin_pi_div_two] at this
  generalize Real.sin (lat1 * Real.pi / 180) = s1 at hs12 hs1
  generalize Real.sin (lat2 * Real.pi / 180) = s2 at hs12 hs2
  have hr : (1 + s1) / (1 - s1) ≤ (1 + s2) / (1 - s2) := by
    rw [div_le_div_iff₀ (by linarith) (by linarith)]
    nlinarith
  have hpos : 0 < (1 + s1) / (1 - s1) := div_pos (by linarith) (by linarith)
  have hlog := Real.log_le_log hpos hr
  have : Real.log ((1 + s1) / (1 - s1)) / (4 * Real.pi) ≤
      Real.log ((1 + s2) / (1 - s2)) / (4 * Real.pi) :=
    div_le_div_of_nonneg_right hlog (by positivity)
  linarith

theorem mercatorY_maxLat (math : Math ℝ) (h : math.IsReal) :
    -(1 / 2 ^ 47) ≤ mercatorY math maxLat ∧ mercatorY math maxLat ≤ 1 / 2 ^ 39 := by
  rw [mercatorY_real math h]
  obtain ⟨hsin, hlo, hhi⟩ := cot_enclosure
  have hpi : 0 < Real.pi := Real.pi_pos
  have hpi1 := Real.pi_gt_d20
  have hpi2 := Real.pi_lt_d20
  have harg : (maxLat : ℝ) * Real.pi / 180 =
      Real.pi / 2 - 2 * (Real.pi * (54987458002149 / 4000000000000000)) := by
    unfold maxLat
    norm_num
    ring
  rw [harg, Real.sin_pi_div_two_sub, Real.cos_two_mul]
  generalize hb : Real.pi * (54987458002149 / 4000000000000000) = b at hsin hlo hhi
  have hsq : Real.cos b ^ 2 = 1 - Real.sin b ^ 2 := by
    have := Real.sin_sq_add_cos_sq b
    linarith
  have hratio : (1 + (2 * Real.cos b ^ 2 - 1)) / (1 - (2 * Real.cos b ^ 2 - 1)) =
      (Real.cos b / Real.sin b) ^ 2 := by
    have hs0 : Real.sin b ≠ 0 := ne_of_gt hsin
    rw [div_pow]
    have e1 : 1 + (2 * Real.cos b ^ 2 - 1) = 2 * Real.cos b ^ 2 := by ring
    have e2 : 1 - (2 * Real.cos b ^ 2 - 1) = 2 * Real.sin b ^ 2 := by rw [hsq]; ring
    rw [e1, e2]
    field_simp
    ring
  rw [hratio, Real.log_pow]
  have hcot : 0 < Real.cos b / Real.sin b := lt_of_lt_of_le (Real.exp_pos _) hlo
  have hl1 : (314159265358 / 100000000000 : ℝ) ≤ Real.log (Real.cos b / Real.sin b) := by
    rw [Real.le_log_iff_exp_le hcot]; exact hlo
  have hl2 : Real.log (Real.cos b / Real.sin b) ≤ (314159265358983 / 100000000000000 : ℝ) := by
    rw [Real.log_le_iff_le_exp hcot]; exact hhi
  generalize Real.log (Real.cos b / Real.sin b) = l at hl1 hl2
  have e : ((2 : ℕ) : ℝ) * l / (4 * Real.pi) = l / (2 * Real.pi) := by
    push_cast
    field_simp
    ring
  rw [e]
  constructor
  · have : l / (2 * Real.pi) ≤ 1 / 2 + 1 / 2 ^ 47 := by
      rw [div_le_iff₀ (by positivity)]
      norm_num at hpi1 ⊢
      nlinarith
    linarith
  · have : 1 / 2 - 1 / 2 ^ 39 ≤ l / (2 * Real.pi) := by
      rw [le_div_iff₀ (by positivity)]
      norm_num at hpi2 ⊢
      nlinarith
    linarith

theorem mercatorY_neg (math : Math ℝ) (h : math.IsReal) (lat : ℝ) (h1 : -90 < lat)
    (h2 : lat < 90) : mercatorY math (-lat) = 1 - mercatorY math lat := by
  rw [mercatorY_real math h, mercatorY_real math h]
  have hpi : 0 < Real.pi := Real.pi_pos
  have ha1 : -(Real.pi / 2) < lat * Real.pi / 180 := by nlinarith
  have ha2 : lat * Real.pi / 180 < Real.pi / 2 := by nlinarith
  have hs1 : -1 < Real.sin (lat * Real.pi / 180) := by
    have := Real.sin_lt_sin_of_lt_of_le_pi_div_two (le_refl (-(Real.pi / 2)))
      (by linarith : lat * Real.pi / 180 ≤ Real.pi / 2) ha1
    rwa [Real.sin_neg, Real.sin_pi_div_two] at this
  have hs2 : Real.sin (lat * Real.pi / 180) < 1 := by
    have := Real.sin_lt_sin_of_lt_of_le_pi_div_two
      (by linarith : -(Real.pi / 2) ≤ lat * Real.pi / 180) (le_refl (Real.pi / 2)) ha2
    rwa [Real.sin_pi_div_two] at this
  have harg : -lat * Real.pi / 180 = -(lat * Real.pi / 180) := by ring
  rw [harg, Real.sin_neg]
  generalize Real.sin (lat * Real.pi / 180) = s at hs1 hs2
  have hinv : (1 + -s) / (1 - -s) = ((1 + s) / (1 - s))⁻¹ := by
    rw [inv_div]
    ring_nf
  rw [hinv, Real.log_inv]
  ring

theorem mercatorY_minLat (math : Math ℝ) (h : math.IsReal) :
    1 - 1 / 2 ^ 39 ≤ mercatorY math minLat ∧ mercatorY math minLat ≤ 1 + 1 / 2 ^ 47 := by
  have hneg : (minLat : ℝ) = -maxLat := by unfold minLat maxLat; norm_num
  have hr : (-90 : ℝ) < maxLat ∧ (maxLat : ℝ) < 90 := by unfold maxLat; norm_num
  rw [hneg, mercatorY_neg math h maxLat hr.1 hr.2]
  obtain ⟨h1, h2⟩ := mercatorY_maxLat math h
  constructor <;> linarith

/-! ## Coordinates of pixels and pixels of coordinates, unfolded -/

theorem clip_eq_self {K : Type} [LinearOrderedField K] [FloorRing K] (n lo hi : K)
    (h1 : lo ≤ n) (h2 : n ≤ hi) : clip n lo hi = n := by
  unfold clip
  rw [if_neg (not_lt.mpr h1), if_neg (not_lt.mpr h2)]

theorem pixel_coord_eq {K : Type} [LinearOrderedField K] [FloorRing K]
    (math : Math K) (p : Pixel) (hv : p.Valid = true) :
    Pixel.Coord math p =
      .ok { x := 360 * ((p.x : K) / ((256 * 2 ^ p.zoom : ℕ) : K) - 0.5)
            y := pixelLat math (0.5 - (p.y : K) / ((256 * 2 ^ p.zoom : ℕ) : K))
            datum := EPSG4326 } := by
  obtain ⟨hz, hx, hy⟩ := (pixel_valid_iff p).mp hv
  have hx2 : (p.x : K) ≤ ((256 * 2 ^ p.zoom : ℕ) : K) - 1 := by
    have : p.x + 1 ≤ 256 * 2 ^ p.zoom := hx
    have h2 : ((p.x + 1 : ℕ) : K) ≤ ((256 * 2 ^ p.zoom : ℕ) : K) := Nat.cast_le.mpr this
    push_cast at h2 ⊢
    linarith
  have hy2 : (p.y : K) ≤ ((256 * 2 ^ p.zoom : ℕ) : K) - 1 := by
    have : p.y + 1 ≤ 256 * 2 ^ p.zoom := hy
    have h2 : ((p.y + 1 : ℕ) : K) ≤ ((256 * 2 ^ p.zoom : ℕ) : K) := Nat.cast_le.mpr this
    push_cast at h2 ⊢
    linarith
  unfold Pixel.Coord
  simp only [hv, Bool.not_true, Bool.false_eq_true, if_false]
  rw [mapPixelSize_ok hz]
  show MakeLatLonCoord _ _ = _
  rw [makeLatLonCoord_ok, clip_eq_self _ _ _ (Nat.cast_nonneg _) hx2,
    clip_eq_self _ _ _ (Nat.cast_nonneg _) hy2]
  rfl

theorem tile_coord_eq {K : Type} [LinearOrderedField K] [FloorRing K]
    (math : Math K) (t : Tile) (hv : t.Valid = true) :
    Tile.Coord math t =
      .ok { x := 360 * (((t.x * 256 : ℕ) : K) / ((256 * 2 ^ t.z : ℕ) : K) - 0.5)
            y := pixelLat math (0.5 - ((t.y * 256 : ℕ) : K) / ((256 * 2 ^ t.z : ℕ) : K))
            datum := EPSG4326 } := by
  unfold Tile.Coord
  rw [tile_pixel_ok t hv]
  exact pixel_coord_eq math _ (tile_pixel_valid t hv)

theorem coord_pixel_eq {K : Type} [LinearOrderedField K] [FloorRing K]
    (math : Math K) (lat lon : K) (zoom : Nat) (hz : zoom ≤ 38) :
    Coord.Pixel math { x := lon, y := lat, datum := EPSG4326 } zoom =
      MakePixel
        (toUint64 (clip ((clip lon minLon maxLon + 180) / 360 *
          ((256 * 2 ^ zoom : ℕ) : K) + 0.5) 0 (((256 * 2 ^ zoom : ℕ) : K) - 1)))
        (toUint64 (clip (mercatorY math (clip lat minLat maxLat) *
          ((256 * 2 ^ zoom : ℕ) : K) + 0.5) 0 (((256 * 2 ^ zoom : ℕ) : K) - 1)))
        zoom := by
  unfold Coord.Pixel Coord.LatLon
  have h1 : ¬ (EPSG4326 = EPSG3857) := by decide
  rw [if_neg (by unfold MaxZoom; omega), mapPixelSize_ok hz]
  simp only [h1, if_false, if_true]
  rfl

theorem bounds_inner_eq {K : Type} [LinearOrderedField K] [FloorRing K]
    (math : Math K) (t : Tile) (hz : t.z ≤ 38) (hx : t.x + 1 < 2 ^ t.z)
    (hy : t.y + 1 < 2 ^ t.z) :
    Tile.Bounds math t =
      .ok ({ x := 360 * (((t.x * 256 : ℕ) : K) / ((256 * 2 ^ t.z : ℕ) : K) - 0.5)
             y := pixelLat math
               (0.5 - (((t.y + 1) * 256 : ℕ) : K) / ((256 * 2 ^ t.z : ℕ) : K))
             datum := EPSG4326 },
           { x := 360 * ((((t.x + 1) * 256 : ℕ) : K) / ((256 * 2 ^ t.z : ℕ) : K) - 0.5)
             y := pixelLat math (0.5 - ((t.y * 256 : ℕ) : K) / ((256 * 2 ^ t.z : ℕ) : K))
             datum := EPSG4326 }) := by
  have hv : t.Valid = true := (tile_valid_iff t).mpr ⟨hz, by omega, by omega⟩
  have hv2 : Tile.Valid { z := t.z, x := t.x + 1, y := t.y + 1 } = true :=
    (tile_valid_iff _).mpr ⟨hz, hx, hy⟩
  have hpow : (2 : Nat) ^ t.z ≤ 2 ^ 38 := Nat.pow_le_pow_right (by norm_num) hz
  have h38 : (2 : Nat) ^ 38 = 274877906944 := by norm_num
  have hx1 : (t.x + 1) % 2 ^ 64 = t.x + 1 := Nat.mod_eq_of_lt (by omega)
  have hy1 : (t.y + 1) % 2 ^ 64 = t.y + 1 := Nat.mod_eq_of_lt (by omega)
  have hnx : ¬ (t.x + 1 = 256 * 2 ^ t.z) := by omega
  have hny : ¬ (t.y + 1 = 256 * 2 ^ t.z) := by omega
  have h1 : ¬ (EPSG4326 = EPSG3857) := by decide
  unfold Tile.Bounds
  simp only [Tile.ZXY, mapPixelSize_ok hz, tile_coord_eq math t hv, hx1, hy1, bind,
    Except.bind, hnx, hny, if_false, makeZXYTile_ok hv2, tile_coord_eq math _ hv2,
    makeLatLonCoord_ok, Coord.LatLon, h1, if_true, pure, Except.pure]

/-! ## Real arithmetic: the corner of a tile maps back into the tile -/

theorem toUint64_in_tile (w : ℝ) (ty M : ℕ) (h1 : ((ty * 256 : ℕ) : ℝ) ≤ w)
    (h2 : w < (((ty + 1) * 256 : ℕ) : ℝ)) (hM : (ty + 1) * 256 ≤ M) (hM2 : M ≤ 2 ^ 46) :
    toUint64 w / 256 = ty ∧ toUint64 w < M := by
  have hw0 : 0 ≤ w := le_trans (Nat.cast_nonneg _) h1
  have hf1 : ty * 256 ≤ ⌊w⌋₊ := Nat.le_floor h1
  have hf2 : ⌊w⌋₊ < (ty + 1) * 256 := (Nat.floor_lt hw0).mpr h2
  have h46 : (2 : ℕ) ^ 46 = 70368744177664 := by norm_num
  have hmod : ⌊w⌋₊ % 2 ^ 64 = ⌊w⌋₊ := Nat.mod_eq_of_lt (by omega)
  unfold toUint64
  rw [hmod]
  constructor <;> omega

theorem mapSize_cast_bounds (z : ℕ) (hz : z ≤ 38) :
    (256 : ℝ) ≤ ((256 * 2 ^ z : ℕ) : ℝ) ∧ ((256 * 2 ^ z : ℕ) : ℝ) ≤ 2 ^ 46 ∧
      256 * 2 ^ z ≤ 2 ^ 46 := by
  have h1 : 1 ≤ 2 ^ z := Nat.one_le_two_pow
  have h2 : (2 : ℕ) ^ z ≤ 2 ^ 38 := Nat.pow_le_pow_right (by norm_num) hz
  have h3 : 256 * 2 ^ z ≤ 2 ^ 46 := by
    have : (2 : ℕ) ^ 46 = 256 * 2 ^ 38 := by norm_num
    omega
  refine ⟨?_, ?_, h3⟩
  · have : (256 : ℕ) ≤ 256 * 2 ^ z := by omega
    exact_mod_cast this
  · exact_mod_cast h3

theorem corner_column (z tx : ℕ) (hz : z ≤ 38) (htx : tx < 2 ^ z) :
    toUint64 (clip ((clip (360 * (((tx * 256 : ℕ) : ℝ) / ((256 * 2 ^ z : ℕ) : ℝ) - 0.5))
        minLon maxLon + 180) / 360 * ((256 * 2 ^ z : ℕ) : ℝ) + 0.5) 0
        (((256 * 2 ^ z : ℕ) : ℝ) - 1)) / 256 = tx ∧
      toUint64 (clip ((clip (360 * (((tx * 256 : ℕ) : ℝ) / ((256 * 2 ^ z : ℕ) : ℝ) - 0.5))
        minLon maxLon + 180) / 360 * ((256 * 2 ^ z : ℕ) : ℝ) + 0.5) 0
        (((256 * 2 ^ z : ℕ) : ℝ) - 1)) < 256 * 2 ^ z := by
  obtain ⟨hM1, hM2, hM3⟩ := mapSize_cast_bounds z hz
  have hnat : (tx + 1) * 256 ≤ 256 * 2 ^ z := by
    have : tx + 1 ≤ 2 ^ z := htx
    omega
  have hcast : (((tx + 1) * 256 : ℕ) : ℝ) ≤ ((256 * 2 ^ z : ℕ) : ℝ) := Nat.cast_le.mpr hnat
  generalize hM : ((256 * 2 ^ z : ℕ) : ℝ) = M at hM1 hM2 hcast
  have hMpos : 0 < M := by linarith
  have hp0 : (0 : ℝ) ≤ ((tx * 256 : ℕ) : ℝ) := Nat.cast_nonneg _
  have hp1 : ((tx * 256 : ℕ) : ℝ) + 256 ≤ M := by
    have e : (((tx + 1) * 256 : ℕ) : ℝ) = ((tx * 256 : ℕ) : ℝ) + 256 := by push_cast; ring
    linarith
  have hq0 : 0 ≤ ((tx * 256 : ℕ) : ℝ) / M := div_nonneg hp0 hMpos.le
  have hq1 : ((tx * 256 : ℕ) : ℝ) / M ≤ 1 := by
    rw [div_le_one hMpos]; linarith
  have hlon : clip (360 * (((tx * 256 : ℕ) : ℝ) / M - 0.5)) minLon maxLon =
      360 * (((tx * 256 : ℕ) : ℝ) / M - 0.5) := by
    apply clip_eq_self
    · unfold minLon; linarith
    · unfold maxLon; linarith
  have hv : (360 * (((tx * 256 : ℕ) : ℝ) / M - 0.5) + 180) / 360 * M + 0.5 =
      ((tx * 256 : ℕ) : ℝ) + 0.5 := by
    field_simp
    ring
  rw [hlon, hv, clip_eq_self _ _ _ (by linarith) (by linarith)]
  refine toUint64_in_tile _ tx _ (by norm_num) ?_ hnat hM3
  have e : (((tx + 1) * 256 : ℕ) : ℝ) = ((tx * 256 : ℕ) : ℝ) + 256 := by push_cast; ring
  rw [e]
  norm_num

theorem clip_le_of_le (v hi c : ℝ) (h0 : 0 ≤ c) (hv : v ≤ c) : clip v 0 hi ≤ c := by
  unfold clip
  split_ifs with h1 h2
  · exact h0
  · linarith
  · exact hv

theorem corner_row (math : Math ℝ) (h : math.IsReal) (z ty : ℕ) (hz : z ≤ 38)
    (hty : ty < 2 ^ z) :
    toUint64 (clip (mercatorY math (clip (pixelLat math
        (0.5 - ((ty * 256 : ℕ) : ℝ) / ((256 * 2 ^ z : ℕ) : ℝ))) minLat maxLat) *
        ((256 * 2 ^ z : ℕ) : ℝ) + 0.5) 0 (((256 * 2 ^ z : ℕ) : ℝ) - 1)) / 256 = ty ∧
      toUint64 (clip (mercatorY math (clip (pixelLat math
        (0.5 - ((ty * 256 : ℕ) : ℝ) / ((256 * 2 ^ z : ℕ) : ℝ))) minLat maxLat) *
        ((256 * 2 ^ z : ℕ) : ℝ) + 0.5) 0 (((256 * 2 ^ z : ℕ) : ℝ) - 1)) < 256 * 2 ^ z := by
  obtain ⟨hM1, hM2, hM3⟩ := mapSize_cast_bounds z hz
  have hnat : (ty + 1) * 256 ≤ 256 * 2 ^ z := by
    have : ty + 1 ≤ 2 ^ z := hty
    omega
  have hcast : (((ty + 1) * 256 : ℕ) : ℝ) ≤ ((256 * 2 ^ z : ℕ) : ℝ) := Nat.cast_le.mpr hnat
  have e1 : (((ty + 1) * 256 : ℕ) : ℝ) = ((ty * 256 : ℕ) : ℝ) + 256 := by push_cast; ring
  generalize hM : ((256 * 2 ^ z : ℕ) : ℝ) = M at hM1 hM2 hcast
  have hMpos : 0 < M := by linarith
  have hp0 : (0 : ℝ) ≤ ((ty * 256 : ℕ) : ℝ) := Nat.cast_nonneg _
  have hp1 : ((ty * 256 : ℕ) : ℝ) + 256 ≤ M := by linarith
  have h46 : (2 : ℝ) ^ 46 = 70368744177664 := by norm_num
  -- the latitude of the corner and its projection
  have hid : mercatorY math (pixelLat math (0.5 - ((ty * 256 : ℕ) : ℝ) / M)) =
      ((ty * 256 : ℕ) : ℝ) / M := by
    rw [mercatorY_pixelLat math h]; norm_num
  obtain ⟨hr1, hr2⟩ := pixelLat_range math h (0.5 - ((ty * 256 : ℕ) : ℝ) / M)
  obtain ⟨hmax1, hmax2⟩ := mercatorY_maxLat math h
  obtain ⟨hmin1, _⟩ := mercatorY_minLat math h
  have hmaxr : (-90 : ℝ) < maxLat ∧ (maxLat : ℝ) < 90 := by unfold maxLat; norm_num
  have hminr : (-90 : ℝ) < minLat ∧ (minLat : ℝ) < 90 := by unfold minLat; norm_num
  generalize hlat : pixelLat math (0.5 - ((ty * 256 : ℕ) : ℝ) / M) = lat at hid hr1 hr2
  have hYM : ((ty * 256 : ℕ) : ℝ) / M * M = ((ty * 256 : ℕ) : ℝ) :=
    div_mul_cancel₀ _ (ne_of_gt hMpos)
  rcases lt_or_le maxLat lat with hgt | hle
  · -- clipped from above: only possible in the top row
    have hclip : clip lat minLat maxLat = maxLat := by
      unfold clip
      rw [if_neg (not_lt.mpr (le_trans minLat_le_maxLat hgt.le)), if_pos hgt]
    have hanti := mercatorY_antitone math h maxLat lat hmaxr.1 hgt.le hr2
    rw [hid] at hanti
    have hsmall : ((ty * 256 : ℕ) : ℝ) ≤ 128 := by
      have h3 : ((ty * 256 : ℕ) : ℝ) / M * M ≤ 1 / 2 ^ 39 * M :=
        mul_le_mul_of_nonneg_right (le_trans hanti hmax2) hMpos.le
      rw [hYM] at h3
      have h4 : (1 : ℝ) / 2 ^ 39 * M ≤ 128 := by
        have : (1 : ℝ) / 2 ^ 39 * M ≤ 1 / 2 ^ 39 * 2 ^ 46 :=
          mul_le_mul_of_nonneg_left hM2 (by positivity)
        norm_num at this ⊢
        linarith
      linarith
    have hty0 : ty = 0 := by
      have : ty * 256 ≤ 128 := by exact_mod_cast hsmall
      omega
    subst hty0
    rw [hclip]
    have hv1 : mercatorY math maxLat * M + 0.5 ≤ 129 := by
      have : mercatorY math maxLat * M ≤ 1 / 2 ^ 39 * M :=
        mul_le_mul_of_nonneg_right hmax2 hMpos.le
      have h4 : (1 : ℝ) / 2 ^ 39 * M ≤ 128 := by
        have : (1 : ℝ) / 2 ^ 39 * M ≤ 1 / 2 ^ 39 * 2 ^ 46 :=
          mul_le_mul_of_nonneg_left hM2 (by positivity)
        norm_num at this ⊢
        linarith
      norm_num
      linarith
    have hc0 := (clip_mem (mercatorY math maxLat * M + 0.5) 0 (M - 1) (by linarith)).1
    have hc1 := clip_le_of_le (mercatorY math maxLat * M + 0.5) (M - 1) 129 (by norm_num) hv1
    exact toUint64_in_tile _ 0 _ (by simpa using hc0)
      (by norm_num; linarith) hnat hM3
  · rcases lt_or_le lat minLat with hlt | hge
    · -- clipped from below: impossible for the corner of a tile
      exfalso
      have hanti := mercatorY_antitone math h lat minLat hr1 hlt.le hminr.2
      rw [hid] at hanti
      have h3 : (1 - 1 / 2 ^ 39) * M ≤ ((ty * 256 : ℕ) : ℝ) / M * M :=
        mul_le_mul_of_nonneg_right (le_trans hmin1 hanti) hMpos.le
      rw [hYM] at h3
      have h4 : (1 : ℝ) / 2 ^ 39 * M ≤ 128 := by
        have : (1 : ℝ) / 2 ^ 39 * M ≤ 1 / 2 ^ 39 * 2 ^ 46 :=
          mul_le_mul_of_nonneg_left hM2 (by positivity)
        norm_num at this ⊢
        linarith
      linarith
    · -- not clipped: the projection is exact
      rw [clip_eq_self _ _ _ hge hle, hid, hYM,
        clip_eq_self _ _ _ (by linarith) (by linarith)]
      refine toUint64_in_tile _ ty _ (by norm_num) ?_ hnat hM3
      rw [e1]
      norm_num

theorem corner_tile (math : Math ℝ) (h : math.IsReal) (t : Tile) (hv : t.Valid = true) :
    ∃ c : Coord ℝ, Tile.Coord math t = .ok c ∧ Coord.Tile math c t.z = .ok t := by
  obtain ⟨hz, hx, hy⟩ := (tile_valid_iff t).mp hv
  refine ⟨_, tile_coord_eq math t hv, ?_⟩
  obtain ⟨hx1, hx2⟩ := corner_column t.z t.x hz hx
  obtain ⟨hy1, hy2⟩ := corner_row math h t.z t.y hz hy
  unfold Coord.Tile
  rw [coord_pixel_eq math _ _ t.z hz]
  have hpv : Pixel.Valid
      { x := toUint64 (clip ((clip (360 * (((t.x * 256 : ℕ) : ℝ) /
            ((256 * 2 ^ t.z : ℕ) : ℝ) - 0.5)) minLon maxLon + 180) / 360 *
            ((256 * 2 ^ t.z : ℕ) : ℝ) + 0.5) 0 (((256 * 2 ^ t.z : ℕ) : ℝ) - 1))
        y := toUint64 (clip (mercatorY math (clip (pixelLat math
            (0.5 - ((t.y * 256 : ℕ) : ℝ) / ((256 * 2 ^ t.z : ℕ) : ℝ))) minLat maxLat) *
            ((256 * 2 ^ t.z : ℕ) : ℝ) + 0.5) 0 (((256 * 2 ^ t.z : ℕ) : ℝ) - 1))
        zoom := t.z } = true :=
    (pixel_valid_iff _).mpr ⟨hz, hx2, hy2⟩
  rw [makePixel_ok hpv]
  show Pixel.Tile _ = _
  rw [pixel_tile_ok _ hpv]
  simp only [hx1, hy1]

/-! ## Claim C11 -/

/-- C11: reading `float64` arithmetic as exact real arithmetic, for every valid tile
`t` at zoom `z` the coordinate of its top-left corner maps back to the same tile:
`t.QuadKey().Coord()` succeeds and `.Tile(z)` of it is `t`; the same holds for
`t.Coord()`, which is that coordinate. -/
theorem corner_coord_maps_back (math : Math ℝ) (hmath : math.IsReal) (t : Tile)
    (hz : t.z ≤ 38) (hx : t.x < 2 ^ t.z) (hy : t.y < 2 ^ t.z) :
    ∃ c : Coord ℝ, QuadKey.Coord math (Tile.QuadKey t) = .ok c ∧
      Tile.Coord math t = .ok c ∧ Coord.Tile math c t.z = .ok t ∧
      (QuadKey.Coord math (Tile.QuadKey t) >>= fun c2 => Coord.Tile math c2 t.z) = .ok t := by
  have hv : t.Valid = true := (tile_valid_iff t).mpr ⟨hz, hx, hy⟩
  obtain ⟨c, hc, hct⟩ := corner_tile math hmath t hv
  have hq : QuadKey.Coord math (Tile.QuadKey t) = .ok c := by
    unfold QuadKey.Coord QuadKey.Pixel
    rw [roundtrip_tile t hv]
    exact hc
  refine ⟨c, hq, hc, hct, ?_⟩
  rw [hq]
  exact hct

/-- C11 at the tile `(3, 5, 2)`, with the real functions. -/
theorem corner_coord_maps_back_witness :
    ((3 : ℕ) ≤ 38 ∧ (5 : ℕ) < 2 ^ 3 ∧ (2 : ℕ) < 2 ^ 3) ∧
    ∃ c : Coord ℝ,
      QuadKey.Coord
          { Pi := Real.pi, Sin := Real.sin, Log := Real.log, Exp := Real.exp,
            Atan := Real.arctan, Tan := Real.tan }
          (Tile.QuadKey { z := 3, x := 5, y := 2 }) = .ok c ∧
      Tile.Coord
          { Pi := Real.pi, Sin := Real.sin, Log := Real.log, Exp := Real.exp,
            Atan := Real.arctan, Tan := Real.tan }
          { z := 3, x := 5, y := 2 } = .ok c ∧
      Coord.Tile
          { Pi := Real.pi, Sin := Real.sin, Log := Real.log, Exp := Real.exp,
            Atan := Real.arctan, Tan := Real.tan }
          c 3 = .ok { z := 3, x := 5, y := 2 } ∧
      (QuadKey.Coord
          { Pi := Real.pi, Sin := Real.sin, Log := Real.log, Exp := Real.exp,
            Atan := Real.arctan, Tan := Real.tan }
          (Tile.QuadKey { z := 3, x := 5, y := 2 }) >>= fun c2 =>
        Coord.Tile
          { Pi := Real.pi, Sin := Real.sin, Log := Real.log, Exp := Real.exp,
            Atan := Real.arctan, Tan := Real.tan }
          c2 3) = .ok { z := 3, x := 5, y := 2 } :=
  ⟨by decide,
    corner_coord_maps_back
      { Pi := Real.pi, Sin := Real.sin, Log := Real.log, Exp := Real.exp,
        Atan := Real.arctan, Tan := Real.tan }
      ⟨rfl, rfl, rfl, rfl, rfl, rfl⟩ { z := 3, x := 5, y := 2 }
      (by decide) (by decide) (by decide)⟩

/-! ## Real arithmetic: a point and the bounds of its tile -/

theorem coord_tile_eq {K : Type} [LinearOrderedField K] [FloorRing K]
    (math : Math K) (lat lon : K) (zoom X Y : ℕ) (hz : zoom ≤ 38)
    (hX : toUint64 (clip ((clip lon minLon maxLon + 180) / 360 *
      ((256 * 2 ^ zoom : ℕ) : K) + 0.5) 0 (((256 * 2 ^ zoom : ℕ) : K) - 1)) = X)
    (hY : toUint64 (clip (mercatorY math (clip lat minLat maxLat) *
      ((256 * 2 ^ zoom : ℕ) : K) + 0.5) 0 (((256 * 2 ^ zoom : ℕ) : K) - 1)) = Y)
    (hXv : X < 256 * 2 ^ zoom) (hYv : Y < 256 * 2 ^ zoom) :
    Coord.Tile math { x := lon, y := lat, datum := EPSG4326 } zoom =
      .ok { z := zoom, x := X / 256, y := Y / 256 } := by
  have hpv : Pixel.Valid { x := X, y := Y, zoom := zoom } = true :=
    (pixel_valid_iff _).mpr ⟨hz, hXv, hYv⟩
  unfold Coord.Tile
  rw [coord_pixel_eq math lat lon zoom hz, hX, hY, makePixel_ok hpv]
  exact pixel_tile_ok _ hpv

theorem toUint64_clip_floor (v : ℝ) (M : ℕ) (hM1 : 1 ≤ M) (hM2 : M ≤ 2 ^ 46)
    (hv : 0 ≤ v) :
    toUint64 (clip v 0 ((M : ℝ) - 1)) < M ∧
      ((toUint64 (clip v 0 ((M : ℝ) - 1)) : ℕ) : ℝ) ≤ v ∧
      (toUint64 (clip v 0 ((M : ℝ) - 1)) + 1 < M →
        v < ((toUint64 (clip v 0 ((M : ℝ) - 1)) : ℕ) : ℝ) + 1) := by
  have hlt := toUint64_clip_lt v M hM1
  have h1 : (1 : ℝ) ≤ (M : ℝ) := by exact_mod_cast hM1
  obtain ⟨hc0, hc1⟩ := clip_mem v 0 ((M : ℝ) - 1) (by linarith)
  have h46 : (2 : ℕ) ^ 46 = 70368744177664 := by norm_num
  have hfl : ⌊clip v 0 ((M : ℝ) - 1)⌋₊ < M :=
    (Nat.floor_lt hc0).mpr (by linarith)
  have hmod : toUint64 (clip v 0 ((M : ℝ) - 1)) = ⌊clip v 0 ((M : ℝ) - 1)⌋₊ := by
    unfold toUint64
    exact Nat.mod_eq_of_lt (by omega)
  have hcv : clip v 0 ((M : ℝ) - 1) ≤ v := by
    unfold clip
    split_ifs with h2 h3
    · exact hv
    · exact h3.le
    · exact le_refl _
  refine ⟨hlt, ?_, ?_⟩
  · rw [hmod]
    exact le_trans (Nat.floor_le hc0) hcv
  · rw [hmod]
    intro hnext
    by_cases hbig : v ≤ (M : ℝ) - 1
    · rw [clip_eq_self v 0 _ hv hbig]
      exact Nat.lt_floor_add_one v
    · exfalso
      have hclip : clip v 0 ((M : ℝ) - 1) = (M : ℝ) - 1 := by
        unfold clip
        rw [if_neg (not_lt.mpr hv), if_pos (not_le.mp hbig)]
      rw [hclip] at hnext
      have hM' : ((M - 1 : ℕ) : ℝ) = (M : ℝ) - 1 := by
        rw [Nat.cast_sub hM1]; simp
      rw [← hM', Nat.floor_natCast] at hnext
      omega

theorem mercatorY_nonneg_shift (math : Math ℝ) (h : math.IsReal) (lat : ℝ) (zoom : ℕ)
    (hz : zoom ≤ 38) (h1 : minLat ≤ lat) (h2 : lat ≤ maxLat) :
    0 ≤ mercatorY math lat * ((256 * 2 ^ zoom : ℕ) : ℝ) + 0.5 := by
  obtain ⟨hM1, hM2, _⟩ := mapSize_cast_bounds zoom hz
  obtain ⟨hmax1, _⟩ := mercatorY_maxLat math h
  have hmaxr : (maxLat : ℝ) < 90 := by unfold maxLat; norm_num
  have hminr : (-90 : ℝ) < minLat := by unfold minLat; norm_num
  have hanti := mercatorY_antitone math h lat maxLat (by linarith) h2 hmaxr
  generalize ((256 * 2 ^ zoom : ℕ) : ℝ) = M at hM1 hM2
  have hY : -(1 / 2 ^ 47) ≤ mercatorY math lat := le_trans hmax1 hanti
  have hMpos : 0 ≤ M := by linarith
  have h3 : -(1 / 2 ^ 47) * M ≤ mercatorY math lat * M :=
    mul_le_mul_of_nonneg_right hY hMpos
  have h4 : (1 : ℝ) / 2 ^ 47 * M ≤ 1 / 2 := by
    have : (1 : ℝ) / 2 ^ 47 * M ≤ 1 / 2 ^ 47 * 2 ^ 46 :=
      mul_le_mul_of_nonneg_left hM2 (by positivity)
    norm_num at this ⊢
    linarith
  have h05 : (0.5 : ℝ) = 1 / 2 := by norm_num
  rw [h05]
  linarith

theorem div_256_bounds (p t2 : ℕ) (h : p / 256 = t2) : t2 * 256 ≤ p ∧ p < (t2 + 1) * 256 := by
  omega

theorem mercatorY_zero (math : Math ℝ) (h : math.IsReal) : mercatorY math 0 = 1 / 2 := by
  rw [mercatorY_real math h]
  simp

theorem rounded_point_tile (R : Math ℝ) (hmath : R.IsReal) :
    ∃ (c : Coord ℝ) (mn mx : Coord ℝ),
      MakeLatLonCoord (0 : ℝ) (-90.1) = .ok c ∧
      Coord.Tile R c 2 = .ok { z := 2, x := 1, y := 2 } ∧
      Tile.Bounds R { z := 2, x := 1, y := 2 } = .ok (mn, mx) ∧
      mn.x = -90 ∧ ¬ (mn.x ≤ -90.1) := by
  have hM : ((256 * 2 ^ 2 : ℕ) : ℝ) = 1024 := by norm_num
  have h64 : (2 : ℕ) ^ 64 = 18446744073709551616 := by norm_num
  have hX : toUint64 (clip ((clip (-90.1 : ℝ) minLon maxLon + 180) / 360 *
      ((256 * 2 ^ 2 : ℕ) : ℝ) + 0.5) 0 (((256 * 2 ^ 2 : ℕ) : ℝ) - 1)) = 256 := by
    have hc : clip (-90.1 : ℝ) minLon maxLon = -90.1 :=
      clip_eq_self (-90.1 : ℝ) minLon maxLon (by unfold minLon; norm_num)
        (by unfold maxLon; norm_num)
    rw [hM, hc, clip_eq_self (((-90.1 : ℝ) + 180) / 360 * 1024 + 0.5) 0 (1024 - 1)
      (by norm_num) (by norm_num)]
    have hf : ⌊((-90.1 : ℝ) + 180) / 360 * 1024 + 0.5⌋₊ = 256 := by
      rw [Nat.floor_eq_iff (by norm_num)]
      constructor <;> norm_num
    unfold toUint64
    rw [hf]
    norm_num
  have hY : toUint64 (clip (mercatorY R (clip (0 : ℝ) minLat maxLat) *
      ((256 * 2 ^ 2 : ℕ) : ℝ) + 0.5) 0 (((256 * 2 ^ 2 : ℕ) : ℝ) - 1)) = 512 := by
    have hc : clip (0 : ℝ) minLat maxLat = 0 :=
      clip_eq_self (0 : ℝ) minLat maxLat (by unfold minLat; norm_num)
        (by unfold maxLat; norm_num)
    rw [hM, hc, mercatorY_zero R hmath,
      clip_eq_self ((1 : ℝ) / 2 * 1024 + 0.5) 0 (1024 - 1) (by norm_num) (by norm_num)]
    have hf : ⌊(1 : ℝ) / 2 * 1024 + 0.5⌋₊ = 512 := by
      rw [Nat.floor_eq_iff (by norm_num)]
      constructor <;> norm_num
    unfold toUint64
    rw [hf]
    norm_num
  have htile := coord_tile_eq R 0 (-90.1) 2 256 512 (by decide) hX hY (by decide) (by decide)
  have hb := bounds_inner_eq R { z := 2, x := 1, y := 2 } (by decide) (by decide) (by decide)
  refine ⟨_, _, _, makeLatLonCoord_ok _ _, htile, hb, ?_, ?_⟩
  · norm_num
  · norm_num

/-! ## Claim C13: a point whose pixel is rounded into the next tile -/

/-- C13 as stated fails: with the real functions, the point of latitude 0 and
longitude -90.1 at zoom 2 has the pixel `(256, 512)`, because `Coord.Pixel` rounds
`255.7155...` up, so its tile is `(2, 1, 2)`, whose bounds start at longitude -90:
`min.lon ≤ lon` does not hold. -/
theorem bounds_exclude_rounded_point :
    ((-85.05112877980659 : ℝ) ≤ 0 ∧ (0 : ℝ) ≤ 85.05112877980659) ∧
    ((-180 : ℝ) ≤ -90.1 ∧ (-90.1 : ℝ) ≤ 180) ∧ (2 : ℕ) ≤ 38 ∧
    ∃ (c : Coord ℝ) (mn mx : Coord ℝ),
      MakeLatLonCoord (0 : ℝ) (-90.1) = .ok c ∧
      Coord.Tile
          { Pi := Real.pi, Sin := Real.sin, Log := Real.log, Exp := Real.exp,
            Atan := Real.arctan, Tan := Real.tan }
          c 2 = .ok { z := 2, x := 1, y := 2 } ∧
      Tile.Bounds
          { Pi := Real.pi, Sin := Real.sin, Log := Real.log, Exp := Real.exp,
            Atan := Real.arctan, Tan := Real.tan }
          { z := 2, x := 1, y := 2 } = .ok (mn, mx) ∧
      mn.x = -90 ∧ ¬ (mn.x ≤ -90.1) :=
  ⟨by norm_num, by norm_num, by decide,
    rounded_point_tile
      { Pi := Real.pi, Sin := Real.sin, Log := Real.log, Exp := Real.exp,
        Atan := Real.arctan, Tan := Real.tan }
      ⟨rfl, rfl, rfl, rfl, rfl, rfl⟩⟩

/-! ## Elevation service: the zoom guard through `AtCoordZoom` -/

theorem makePixel_result {x y zoom : Nat} {q : Pixel} (h : MakePixel x y zoom = .ok q) :
    q.Valid = true ∧ q.zoom = zoom := by
  unfold MakePixel at h
  cases hv : Pixel.Valid { x := x, y := y, zoom := zoom } with
  | false => simp [hv] at h
  | true =>
    simp only [hv, Bool.not_true, Bool.false_eq_true, if_false] at h
    cases h
    exact ⟨hv, rfl⟩

theorem coord_pixel_result {K : Type} [LinearOrderedField K] [FloorRing K]
    (math : Math K) (c : Coord K) (zoom : Nat) (q : Pixel)
    (h : Coord.Pixel math c zoom = .ok q) : q.Valid = true ∧ q.zoom = zoom := by
  unfold Coord.Pixel at h
  by_cases hz : zoom > MaxZoom
  · rw [if_pos hz] at h
    cases h
  · rw [if_neg hz, mapPixelSize_ok (by unfold MaxZoom at hz; omega)] at h
    exact makePixel_result h

theorem atCoordZoom_zoom_error {K : Type} [LinearOrderedField K] [FloorRing K]
    (math : Math K) (src : TileSource) (s : ElevationService) (c : Coord K) (zoom : Nat)
    (hz : 14 < zoom) :
    s.AtCoordZoom math src c zoom =
      Coord.Pixel math c zoom >>= fun _ =>
        .ok { result := .error "zoom level cannot be greater than 14", service := s,
              calls := [] } := by
  unfold ElevationService.AtCoordZoom
  cases h : Coord.Pixel math c zoom with
  | error e => rfl
  | ok q =>
    obtain ⟨hqv, hqz⟩ := coord_pixel_result math c zoom q h
    show s.AtPixel src q = _
    rw [atPixel_zoom_error src s q hqv (by rw [hqz]; exact hz)]
    rfl

theorem coord_pixel_origin :
    Coord.Pixel Math.rational { x := 0, y := 0, datum := EPSG4326 } 15 =
      .ok { x := 4194304, y := 4194304, zoom := 15 } := by
  rw [coord_pixel_eq Math.rational 0 0 15 (by decide)]
  have hlon : clip (0 : ℚ) minLon maxLon = 0 :=
    clip_eq_self (0 : ℚ) minLon maxLon (by unfold minLon; norm_num) (by unfold maxLon; norm_num)
  have hlat : clip (0 : ℚ) minLat maxLat = 0 :=
    clip_eq_self (0 : ℚ) minLat maxLat (by unfold minLat; norm_num) (by unfold maxLat; norm_num)
  have hm : mercatorY Math.rational 0 = 1 / 2 := by
    unfold mercatorY Math.rational
    norm_num
  have hM : ((256 * 2 ^ 15 : ℕ) : ℚ) = 8388608 := by norm_num
  have hf : ⌊(4194304 : ℚ) + 1 / 2⌋₊ = 4194304 := by
    rw [Nat.floor_eq_iff (by norm_num)]
    constructor <;> norm_num
  have hx : toUint64 (clip (((0 : ℚ) + 180) / 360 * 8388608 + 0.5) 0 (8388608 - 1)) =
      4194304 := by
    rw [clip_eq_self _ _ _ (by norm_num) (by norm_num)]
    unfold toUint64
    have e : ((0 : ℚ) + 180) / 360 * 8388608 + 0.5 = 4194304 + 1 / 2 := by norm_num
    rw [e, hf]
    norm_num
  have hy : toUint64 (clip ((1 : ℚ) / 2 * 8388608 + 0.5) 0 (8388608 - 1)) = 4194304 := by
    rw [clip_eq_self _ _ _ (by norm_num) (by norm_num)]
    unfold toUint64
    have e : (1 : ℚ) / 2 * 8388608 + 0.5 = 4194304 + 1 / 2 := by norm_num
    rw [e, hf]
    norm_num
  rw [hlon, hlat, hm, hM, hx, hy]
  exact makePixel_ok (by decide)


/-! ## Claim C17 -/

/-- C17: for every key with `z > 14`, `getTilePix`, and so `PixelTile` and `AtPixel`
on a valid pixel, return the zoom error, request nothing from the tile source and
leave the service unchanged, whatever the cache holds; so does `AtCoordZoom` with
`14 < zoom ≤ 38` for every coordinate that `Coord.Pixel` converts to a pixel.
`AtCoordZoom` converts the coordinate first: when `Coord.Pixel` panics, `AtCoordZoom`
panics with it before any lookup.  For `z ≤ 14` the zoom guard never fires: a
returned error is the tile source's error. -/
theorem elevation_zoom_guard {K : Type} [LinearOrderedField K] [FloorRing K]
    (math : Math K) (src : TileSource) (s : ElevationService) (z x y : Nat) (t : Tile)
    (p : Pixel) (c : Coord K) (zoom : Nat) (q : Pixel) (hz : 14 < z) (ht : 14 < t.z)
    (hp : (14 < p.zoom ∧ p.zoom ≤ 38) ∧ p.x < 256 * 2 ^ p.zoom ∧ p.y < 256 * 2 ^ p.zoom)
    (hzoom : 14 < zoom ∧ zoom ≤ 38) (hq : Coord.Pixel math c zoom = .ok q) :
    s.getTilePix src z x y =
        .ok { result := .error "zoom level cannot be greater than 14", service := s,
              calls := [] } ∧
      s.PixelTile src t =
        .ok { result := .error "zoom level cannot be greater than 14", service := s,
              calls := [] } ∧
      (s.AtPixel src p : Except String (Step K)) =
        .ok { result := .error "zoom level cannot be greater than 14", service := s,
              calls := [] } ∧
      s.AtCoordZoom math src c zoom =
        .ok { result := .error "zoom level cannot be greater than 14", service := s,
              calls := [] } ∧
      s.AtCoordZoom math src c zoom =
        (Coord.Pixel math c zoom >>= fun _ =>
          .ok { result := .error "zoom level cannot be greater than 14", service := s,
                calls := [] }) ∧
      ∀ (z2 x2 y2 : Nat) (r : Step (List Nat)), z2 ≤ 14 →
        s.getTilePix src z2 x2 y2 = .ok r →
        (∃ pix, r.result = .ok pix) ∨
          (∃ err, r.result = .error err ∧ wgetTerrarium src z2 x2 y2 = .error err) := by
  have hpv : p.Valid = true := (pixel_valid_iff p).mpr ⟨hp.1.2, hp.2⟩
  have hco := atCoordZoom_zoom_error math src s c zoom hzoom.1
  refine ⟨getTilePix_zoom_error src s z x y hz, pixelTile_zoom_error src s t ht,
    atPixel_zoom_error src s p hpv hp.1.1, ?_, hco, ?_⟩
  · rw [hco, hq]
    rfl
  intro z2 x2 y2 r hz2 hr
  exact getTilePix_result src s z2 x2 y2 r hz2 hr

/-- C17 at zoom 15 on a new service, over the rationals: the coordinate of latitude 0
and longitude 0 has the pixel `(4194304, 4194304)`. -/
theorem elevation_zoom_guard_witness :
    (((14 : Nat) < 15 ∧ (15 : Nat) ≤ 38) ∧
      Coord.Pixel Math.rational { x := 0, y := 0, datum := EPSG4326 } 15 =
        .ok { x := 4194304, y := 4194304, zoom := 15 }) ∧
    NewElevationService.getTilePix TileSource.flat 15 0 0 =
        .ok { result := .error "zoom level cannot be greater than 14",
              service := NewElevationService, calls := [] } ∧
      NewElevationService.PixelTile TileSource.flat { z := 15, x := 0, y := 0 } =
        .ok { result := .error "zoom level cannot be greater than 14",
              service := NewElevationService, calls := [] } ∧
      (NewElevationService.AtPixel TileSource.flat { x := 0, y := 0, zoom := 15 } :
          Except String (Step ℚ)) =
        .ok { result := .error "zoom level cannot be greater than 14",
              service := NewElevationService, calls := [] } ∧
      NewElevationService.AtCoordZoom Math.rational TileSource.flat
          { x := 0, y := 0, datum := EPSG4326 } 15 =
        .ok { result := .error "zoom level cannot be greater than 14",
              service := NewElevationService, calls := [] } ∧
      NewElevationService.AtCoordZoom Math.rational TileSource.flat
          { x := 0, y := 0, datum := EPSG4326 } 15 =
        (Coord.Pixel Math.rational { x := 0, y := 0, datum := EPSG4326 } 15 >>= fun _ =>
          .ok { result := .error "zoom level cannot be greater than 14",
                service := NewElevationService, calls := [] }) ∧
      ∀ (z2 x2 y2 : Nat) (r : Step (List Nat)), z2 ≤ 14 →
        NewElevationService.getTilePix TileSource.flat z2 x2 y2 = .ok r →
        (∃ pix, r.result = .ok pix) ∨
          (∃ err, r.result = .error err ∧
            wgetTerrarium TileSource.flat z2 x2 y2 = .error err) :=
  ⟨⟨by decide, coord_pixel_origin⟩,
    elevation_zoom_guard Math.rational TileSource.flat NewElevationService 15 0 0
      { z := 15, x := 0, y := 0 } { x := 0, y := 0, zoom := 15 }
      { x := 0, y := 0, datum := EPSG4326 } 15 { x := 4194304, y := 4194304, zoom := 15 }
      (by decide) (by decide) (by decide) (by decide) coord_pixel_origin⟩

/-! ## Elevation service: the size of the buffers -/

theorem insert_sized (s s2 : ElevationService) (key : cacheKey) (pix : List Nat)
    (hs : ∀ k b, s.cache k = some b → b.length = 262144) (hpix : pix.length = 262144)
    (h : s.insert key pix = .ok s2) :
    ∀ k b, s2.cache k = some b → b.length = 262144 := by
  unfold ElevationService.insert at h
  cases hslot : s.slot with
  | error e =>
    rw [hslot] at h
    by_cases hge : s.lrui ≥ (s.lru.length : Int)
    · rw [if_pos hge] at h; cases h
    · rw [if_neg hge] at h; cases h
  | ok i =>
    rw [hslot] at h
    by_cases hge : s.lrui ≥ (s.lru.length : Int)
    · rw [if_pos hge] at h
      cases h
      intro k b hk
      simp only [mapStore, mapDelete] at hk
      split_ifs at hk with h1 h2
      · cases hk; exact hpix
      · exact hs k b hk
    · rw [if_neg hge] at h
      cases h
      intro k b hk
      simp only [mapStore] at hk
      split_ifs at hk with h1
      · cases hk; exact hpix
      · exact hs k b hk

theorem getTilePix_sized (src : TileSource) (s : ElevationService) (z x y : Nat)
    (r : Step (List Nat))
    (hwf : ∀ data img, src.decode data = .ok img → img.WellFormed)
    (hs : ∀ k b, s.cache k = some b → b.length = 262144)
    (hr : s.getTilePix src z x y = .ok r) :
    (∀ pix, r.result = .ok pix → pix.length = 262144) ∧
      ∀ k b, r.service.cache k = some b → b.length = 262144 := by
  by_cases hz : z ≤ 14
  · cases hc : s.cache { z := z, x := x, y := y } with
    | some pix =>
      rw [getTilePix_hit src s z x y pix hz hc] at hr
      cases hr
      refine ⟨?_, hs⟩
      intro pix2 h2
      cases h2
      exact hs _ _ hc
    | none =>
      cases hw : wgetTerrarium src z x y with
      | error err =>
        rw [getTilePix_miss_error src s z x y err hz hc hw] at hr
        cases hr
        refine ⟨?_, hs⟩
        intro pix2 h2
        cases h2
      | ok pix =>
        have hlen := wgetTerrarium_length src z x y pix hwf hw
        rw [getTilePix_miss_ok src s z x y pix hz hc hw] at hr
        cases hi : s.insert { z := z, x := x, y := y } pix with
        | error e => rw [hi] at hr; cases hr
        | ok s2 =>
          rw [hi] at hr
          cases hr
          refine ⟨?_, insert_sized s s2 _ pix hs hlen hi⟩
          intro pix2 h2
          cases h2
          exact hlen
  · rw [getTilePix_zoom_error src s z x y (by omega)] at hr
    cases hr
    refine ⟨?_, hs⟩
    intro pix2 h2
    cases h2

theorem pixelTile_sized (src : TileSource) (s : ElevationService) (t : Tile)
    (r : Step PixelTile) (ptile : PixelTile)
    (hwf : ∀ data img, src.decode data = .ok img → img.WellFormed)
    (hs : ∀ k b, s.cache k = some b → b.length = 262144)
    (hr : s.PixelTile src t = .ok r) (hpix : r.result = .ok ptile) :
    ptile.Pix.length = 262144 ∧ ptile.Tile = t ∧
      ∀ k b, r.service.cache k = some b → b.length = 262144 := by
  unfold ElevationService.PixelTile at hr
  cases hg : s.getTilePix src t.ZXY.1 t.ZXY.2.1 t.ZXY.2.2 with
  | error e => rw [hg] at hr; cases hr
  | ok g =>
    obtain ⟨h1, h2⟩ := getTilePix_sized src s _ _ _ g hwf hs hg
    rw [hg] at hr
    cases hres : g.result with
    | error err =>
      simp only [bind, Except.bind, hres, pure, Except.pure] at hr
      cases hr
      cases hpix
    | ok pix =>
      simp only [bind, Except.bind, hres, pure, Except.pure] at hr
      cases hr
      cases hpix
      exact ⟨h1 pix hres, rfl, h2⟩

theorem atPixel_reads {K : Type} [LinearOrderedField K] [FloorRing K]
    (src : TileSource) (s : ElevationService) (p : Pixel) (t : Tile)
    (r : Step PixelTile) (ptile : PixelTile)
    (ht : Pixel.Tile p = .ok t) (hr : s.PixelTile src t = .ok r)
    (hpix : r.result = .ok ptile) (hlen : ptile.Pix.length = 262144) :
    ∃ R G B : Nat, byteAt ptile.Pix (pixIndex p) = .ok R ∧
      byteAt ptile.Pix (pixIndex p + 1) = .ok G ∧
      byteAt ptile.Pix (pixIndex p + 2) = .ok B ∧
      (s.AtPixel src p : Except String (Step K)) =
        .ok { result := .ok (terrariumMeters (R : K) (G : K) (B : K)),
              service := r.service, calls := r.calls } := by
  have hlt := pixIndex_lt p
  have e0 : (pixIndex p + 0) % 2 ^ 64 = pixIndex p := Nat.mod_eq_of_lt (by omega)
  have e1 : (pixIndex p + 1) % 2 ^ 64 = pixIndex p + 1 := Nat.mod_eq_of_lt (by omega)
  have e2 : (pixIndex p + 2) % 2 ^ 64 = pixIndex p + 2 := Nat.mod_eq_of_lt (by omega)
  obtain ⟨R, _, hR2⟩ := byteAt_ok ptile.Pix (pixIndex p) (by omega)
  obtain ⟨G, _, hG2⟩ := byteAt_ok ptile.Pix (pixIndex p + 1) (by omega)
  obtain ⟨B, _, hB2⟩ := byteAt_ok ptile.Pix (pixIndex p + 2) (by omega)
  refine ⟨R, G, B, hR2, hG2, hB2, ?_⟩
  unfold ElevationService.AtPixel
  rw [ht]
  show (s.PixelTile src t >>= _) = _
  rw [hr]
  show (match r.result with
    | .error err => _
    | .ok ptile => _) = _
  rw [hpix]
  simp only [e0, e1, e2, hR2, hG2, hB2, bind, Except.bind, pure, Except.pure]

theorem flat_wellFormed :
    ∀ data img, TileSource.flat.decode data = .ok img → img.WellFormed := by
  intro data img h
  cases h
  refine ⟨by decide, ?_⟩
  show (((List.replicate 262144 128 : List Nat).length : Nat) : Int) = 1024 * 256
  rw [List.length_replicate]
  rfl

theorem flat_sized :
    ∀ k b, ElevationService.flat.cache k = some b → b.length = 262144 := by
  intro k b h
  cases h
  exact List.length_replicate _ _

/-! ## Claim C20 -/

/-- C20: for every pixel the offset `idx = (p.y mod 256) * 1024 + (p.x mod 256) * 4`
satisfies `idx + 2 < 262144`.  On a service whose cache holds buffers of 262144
bytes, as the new service does and as every call keeps, and with a decoder that lays
images out as `image.NewNRGBA` does, every buffer that `wgetTerrarium` accepts has
262144 bytes; so whenever `AtPixel` obtains the buffer of `p.Tile()`, the buffer has
262144 bytes, the three reads at `idx`, `idx + 1`, `idx + 2` are inside it and
`AtPixel` returns a height computed from these three bytes; and the offset is that of
the pixel `(p.x - 256 * t.x, p.y - 256 * t.y)` inside the tile `t = p.Tile()`. -/
theorem atPixel_reads_in_bounds {K : Type} [LinearOrderedField K] [FloorRing K]
    (src : TileSource) (s : ElevationService) (p : Pixel) (t : Tile)
    (r : Step PixelTile) (ptile : PixelTile)
    (hwf : ∀ data img, src.decode data = .ok img → img.WellFormed)
    (hs : ∀ k b, s.cache k = some b → b.length = 262144)
    (ht : Pixel.Tile p = .ok t) (hr : s.PixelTile src t = .ok r)
    (hpix : r.result = .ok ptile) :
    (∀ p2 : Pixel, pixIndex p2 = p2.y % 256 * 1024 + p2.x % 256 * 4 ∧
        pixIndex p2 + 2 < 262144) ∧
      (∀ (z x y : Nat) (pix : List Nat),
        wgetTerrarium src z x y = .ok pix → pix.length = 262144) ∧
      ptile.Tile = t ∧ ptile.Pix.length = 262144 ∧ pixIndex p + 2 < ptile.Pix.length ∧
      (∃ R G B : Nat, byteAt ptile.Pix (pixIndex p) = .ok R ∧
        byteAt ptile.Pix (pixIndex p + 1) = .ok G ∧
        byteAt ptile.Pix (pixIndex p + 2) = .ok B ∧
        (s.AtPixel src p : Except String (Step K)) =
          .ok { result := .ok (terrariumMeters (R : K) (G : K) (B : K)),
                service := r.service, calls := r.calls }) ∧
      (∀ k b, r.service.cache k = some b → b.length = 262144) ∧
      (∀ k b, NewElevationService.cache k = some b → b.length = 262144) ∧
      256 * t.x ≤ p.x ∧ 256 * t.y ≤ p.y ∧
      p.x - 256 * t.x < 256 ∧ p.y - 256 * t.y < 256 ∧
      pixIndex p = (p.y - 256 * t.y) * 1024 + (p.x - 256 * t.x) * 4 := by
  obtain ⟨hlen, htile, hs2⟩ := pixelTile_sized src s t r ptile hwf hs hr hpix
  have hlt := pixIndex_lt p
  have hidx := pixIndex_eq p
  refine ⟨fun p2 => ⟨pixIndex_eq p2, pixIndex_lt p2⟩,
    fun z x y pix h => wgetTerrarium_length src z x y pix hwf h,
    htile, hlen, by rw [hlen]; exact hlt,
    atPixel_reads src s p t r ptile ht hr hpix hlen, hs2, ?_, ?_⟩
  · intro k b h
    cases h
  · cases hv : p.Valid with
    | false => simp [Pixel.Tile, hv] at ht
    | true =>
      rw [pixel_tile_ok p hv] at ht
      cases ht
      simp only
      rw [hidx]
      omega

/-- C20 on the service that holds the flat buffer under every key, at the pixel
`(2452, 1707)` of zoom 4, whose tile is `(4, 9, 6)`. -/
theorem atPixel_reads_in_bounds_witness :
    ((∀ data img, TileSource.flat.decode data = .ok img → img.WellFormed) ∧
      (∀ k b, ElevationService.flat.cache k = some b → b.length = 262144) ∧
      Pixel.Tile { x := 2452, y := 1707, zoom := 4 } = .ok { z := 4, x := 9, y := 6 } ∧
      ElevationService.flat.PixelTile TileSource.flat { z := 4, x := 9, y := 6 } =
        .ok { result := .ok { Tile := { z := 4, x := 9, y := 6 },
                              Pix := List.replicate 262144 128 },
              service := ElevationService.flat, calls := [] }) ∧
    (∀ p2 : Pixel, pixIndex p2 = p2.y % 256 * 1024 + p2.x % 256 * 4 ∧
        pixIndex p2 + 2 < 262144) ∧
      (∀ (z x y : Nat) (pix : List Nat),
        wgetTerrarium TileSource.flat z x y = .ok pix → pix.length = 262144) ∧
      ({ z := 4, x := 9, y := 6 } : Tile) = { z := 4, x := 9, y := 6 } ∧
      (List.replicate 262144 128 : List Nat).length = 262144 ∧
      pixIndex { x := 2452, y := 1707, zoom := 4 } + 2 <
        (List.replicate 262144 128 : List Nat).length ∧
      (∃ R G B : Nat,
        byteAt (List.replicate 262144 128)
          (pixIndex { x := 2452, y := 1707, zoom := 4 }) = .ok R ∧
        byteAt (List.replicate 262144 128)
          (pixIndex { x := 2452, y := 1707, zoom := 4 } + 1) = .ok G ∧
        byteAt (List.replicate 262144 128)
          (pixIndex { x := 2452, y := 1707, zoom := 4 } + 2) = .ok B ∧
        (ElevationService.flat.AtPixel TileSource.flat
            { x := 2452, y := 1707, zoom := 4 } : Except String (Step ℚ)) =
          .ok { result := .ok (terrariumMeters (R : ℚ) (G : ℚ) (B : ℚ)),
                service := ElevationService.flat, calls := [] }) ∧
      (∀ k b, ElevationService.flat.cache k = some b → b.length = 262144) ∧
      (∀ k b, NewElevationService.cache k = some b → b.length = 262144) ∧
      256 * 9 ≤ 2452 ∧ 256 * 6 ≤ 1707 ∧
      2452 - 256 * 9 < 256 ∧ 1707 - 256 * 6 < 256 ∧
      pixIndex { x := 2452, y := 1707, zoom := 4 } =
        (1707 - 256 * 6) * 1024 + (2452 - 256 * 9) * 4 :=
  ⟨⟨flat_wellFormed, flat_sized, by decide, rfl⟩,
    atPixel_reads_in_bounds (K := ℚ) TileSource.flat ElevationService.flat
      { x := 2452, y := 1707, zoom := 4 } { z := 4, x := 9, y := 6 }
      { result := .ok { Tile := { z := 4, x := 9, y := 6 },
                        Pix := List.replicate 262144 128 },
        service := ElevationService.flat, calls := [] }
      { Tile := { z := 4, x := 9, y := 6 }, Pix := List.replicate 262144 128 }
      flat_wellFormed flat_sized (by decide) rfl rfl⟩

/-! ## The first-in-first-out reference cache -/

theorem fifoInserted_nil (ins : List cacheKey) : fifoInserted ins [] = ins := by
  rw [fifoInserted]

theorem fifoInserted_cons_mem (ins : List cacheKey) (key : cacheKey) (keys : List cacheKey)
    (h : key ∈ ins.drop (ins.length - 1024)) :
    fifoInserted ins (key :: keys) = fifoInserted ins keys := by
  rw [fifoInserted, if_pos h]

theorem fifoInserted_cons_not_mem (ins : List cacheKey) (key : cacheKey)
    (keys : List cacheKey) (h : key ∉ ins.drop (ins.length - 1024)) :
    fifoInserted ins (key :: keys) = fifoInserted (ins ++ [key]) keys := by
  rw [fifoInserted, if_neg h]

theorem fifoInserted_cons (ins : List cacheKey) (key : cacheKey) (keys : List cacheKey) :
    fifoInserted ins (key :: keys) = fifoInserted (fifoInserted ins [key]) keys := by
  by_cases h : key ∈ ins.drop (ins.length - 1024)
  · rw [fifoInserted_cons_mem ins key keys h, fifoInserted_cons_mem ins key [] h,
      fifoInserted_nil]
  · rw [fifoInserted_cons_not_mem ins key keys h, fifoInserted_cons_not_mem ins key [] h,
      fifoInserted_nil]

theorem fifoInserted_append (a b : List cacheKey) :
    ∀ ins : List cacheKey,
      fifoInserted ins (a ++ b) = fifoInserted (fifoInserted ins a) b := by
  induction a with
  | nil =>
    intro ins
    rw [List.nil_append, fifoInserted_nil]
  | cons key a ih =>
    intro ins
    rw [List.cons_append, fifoInserted_cons ins key (a ++ b), ih,
      ← fifoInserted_cons ins key a]

theorem fifoInserted_subset (ks : List cacheKey) :
    ∀ (ins : List cacheKey) (k : cacheKey), k ∈ fifoInserted ins ks → k ∈ ins ∨ k ∈ ks := by
  induction ks with
  | nil =>
    intro ins k hk
    rw [fifoInserted_nil] at hk
    exact Or.inl hk
  | cons key ks ih =>
    intro ins k hk
    by_cases h : key ∈ ins.drop (ins.length - 1024)
    · rw [fifoInserted_cons_mem ins key ks h] at hk
      rcases ih ins k hk with h1 | h1
      · exact Or.inl h1
      · exact Or.inr (List.mem_cons_of_mem _ h1)
    · rw [fifoInserted_cons_not_mem ins key ks h] at hk
      rcases ih (ins ++ [key]) k hk with h1 | h1
      · rcases List.mem_append.mp h1 with h2 | h2
        · exact Or.inl h2
        · rw [List.mem_singleton] at h2
          rw [h2]
          exact Or.inr (List.mem_cons_self _ _)
      · exact Or.inr (List.mem_cons_of_mem _ h1)

theorem fifoInserted_few (ks : List cacheKey) :
    ∀ ins : List cacheKey, ins.Nodup → (ins ++ ks).toFinset.card ≤ 1024 →
      (fifoInserted ins ks).Nodup ∧
        (∀ k, k ∈ fifoInserted ins ks ↔ k ∈ ins ∨ k ∈ ks) ∧
        ins <+: fifoInserted ins ks := by
  induction ks with
  | nil =>
    intro ins hnd _
    rw [fifoInserted_nil]
    refine ⟨hnd, fun k => ?_, List.prefix_refl _⟩
    constructor
    · exact Or.inl
    · rintro (h | h)
      · exact h
      · cases h
  | cons key ks ih =>
    intro ins hnd hcard
    have hlen : ins.length ≤ 1024 := by
      have h1 : ins.toFinset.card = ins.length := List.toFinset_card_of_nodup hnd
      have h2 : ins.toFinset.card ≤ (ins ++ key :: ks).toFinset.card := by
        apply Finset.card_le_card
        intro a ha
        rw [List.mem_toFinset] at ha ⊢
        exact List.mem_append_left _ ha
      omega
    have hdrop : ins.drop (ins.length - 1024) = ins := by
      have h0 : ins.length - 1024 = 0 := by omega
      rw [h0, List.drop_zero]
    by_cases hmem : key ∈ ins
    · rw [fifoInserted_cons_mem ins key ks (by rw [hdrop]; exact hmem)]
      have hc2 : (ins ++ ks).toFinset.card ≤ 1024 := by
        refine le_trans (Finset.card_le_card ?_) hcard
        intro a ha
        rw [List.mem_toFinset] at ha ⊢
        rcases List.mem_append.mp ha with h | h
        · exact List.mem_append_left _ h
        · exact List.mem_append_right _ (List.mem_cons_of_mem _ h)
      obtain ⟨h1, h2, h3⟩ := ih ins hnd hc2
      refine ⟨h1, fun k => ?_, h3⟩
      rw [h2 k]
      constructor
      · rintro (h | h)
        · exact Or.inl h
        · exact Or.inr (List.mem_cons_of_mem _ h)
      · rintro (h | h)
        · exact Or.inl h
        · rcases List.mem_cons.mp h with h4 | h4
          · rw [h4]; exact Or.inl hmem
          · exact Or.inr h4
    · rw [fifoInserted_cons_not_mem ins key ks (by rw [hdrop]; exact hmem)]
      have hnd2 : (ins ++ [key]).Nodup := by
        rw [List.nodup_append]
        refine ⟨hnd, List.nodup_singleton _, ?_⟩
        intro a ha hb
        rw [List.mem_singleton] at hb
        rw [hb] at ha
        exact hmem ha
      have hc2 : (ins ++ [key] ++ ks).toFinset.card ≤ 1024 := by
        rw [List.append_assoc]
        exact hcard
      obtain ⟨h1, h2, h3⟩ := ih (ins ++ [key]) hnd2 hc2
      refine ⟨h1, fun k => ?_, (List.prefix_append ins [key]).trans h3⟩
      rw [h2 k, List.mem_append, List.mem_singleton, List.mem_cons, or_assoc]

theorem fifoInserted_fill (pre : List cacheKey) (last : cacheKey)
    (hpre : pre.toFinset.card = 1024) (hlast : last ∉ pre) :
    ∃ first rest, pre.head? = some first ∧
      fifoInserted [] (pre ++ [last]) = first :: rest ∧
      (first :: rest).length = 1025 ∧ (first :: rest).Nodup ∧
      (∀ k, k ∈ first :: rest ↔ k ∈ pre ++ [last]) ∧
      (first :: rest).drop ((first :: rest).length - 1024) = rest := by
  obtain ⟨hnd, hmem, _⟩ := fifoInserted_few pre [] List.nodup_nil
    (by rw [List.nil_append, hpre])
  have hset : (fifoInserted [] pre).toFinset = pre.toFinset := by
    ext a
    rw [List.mem_toFinset, List.mem_toFinset, hmem a]
    constructor
    · rintro (h | h)
      · cases h
      · exact h
    · exact Or.inr
  have hlen : (fifoInserted [] pre).length = 1024 := by
    rw [← List.toFinset_card_of_nodup hnd, hset, hpre]
  cases hp : pre with
  | nil =>
    rw [hp] at hpre
    simp at hpre
  | cons first tl =>
    have hstart : fifoInserted [] pre = fifoInserted [first] tl := by
      rw [hp, fifoInserted_cons_not_mem [] first tl (by simp)]
      rfl
    have hcard2 : ([first] ++ tl).toFinset.card ≤ 1024 := by
      have : [first] ++ tl = pre := by rw [hp]; rfl
      rw [this, hpre]
    obtain ⟨_, _, hprefix⟩ := fifoInserted_few tl [first] (List.nodup_singleton _) hcard2
    rw [← hstart] at hprefix
    obtain ⟨rest0, hrest0⟩ := hprefix
    have hR : fifoInserted [] pre = first :: rest0 := by
      rw [← hrest0]; rfl
    have hlenR : rest0.length = 1023 := by
      rw [hR, List.length_cons] at hlen
      omega
    have hlast2 : last ∉ (fifoInserted [] pre).drop ((fifoInserted [] pre).length - 1024) := by
      intro h
      have h2 := List.mem_of_mem_drop h
      rcases (hmem last).mp h2 with h3 | h3
      · cases h3
      · exact hlast h3
    have hall : fifoInserted [] (pre ++ [last]) = first :: (rest0 ++ [last]) := by
      rw [fifoInserted_append, fifoInserted_cons_not_mem _ last [] hlast2, fifoInserted_nil,
        hR]
      rfl
    have hnd1 : (first :: rest0).Nodup := by rw [← hR]; exact hnd
    refine ⟨first, rest0 ++ [last], rfl, ?_, ?_, ?_, ?_, ?_⟩
    · rw [← hp]; exact hall
    · rw [List.length_cons, List.length_append, List.length_singleton, hlenR]
    · have e : first :: (rest0 ++ [last]) = (first :: rest0) ++ [last] := rfl
      rw [e, List.nodup_append]
      refine ⟨hnd1, List.nodup_singleton _, ?_⟩
      intro a ha hb
      rw [List.mem_singleton] at hb
      rw [hb, ← hR] at ha
      rcases (hmem last).mp ha with h3 | h3
      · cases h3
      · exact hlast h3
    · intro k
      have e : first :: (rest0 ++ [last]) = (first :: rest0) ++ [last] := rfl
      rw [e, List.mem_append, List.mem_append, ← hR, hmem k, ← hp]
      constructor
      · rintro ((h | h) | h)
        · cases h
        · exact Or.inl h
        · exact Or.inr h
      · rintro (h | h)
        · exact Or.inl (Or.inr h)
        · exact Or.inr h
    · have e : (first :: (rest0 ++ [last])).length - 1024 = 1 := by
        rw [List.length_cons, List.length_append, List.length_singleton, hlenR]
      rw [e]
      rfl

/-! ## Elevation service: lookups with successful fetches -/

theorem getTilePix_fifo (src : TileSource) (s : ElevationService) (ins : List cacheKey)
    (key : cacheKey) (hinv : RingInv s ins) (hn : (ins.length : Int) + 1 < 2 ^ 63)
    (hz : key.z ≤ 14) (hsrc : ∃ pix, wgetTerrarium src key.z key.x key.y = .ok pix) :
    ∃ r, s.getTilePix src key.z key.x key.y = .ok r ∧
      RingInv r.service (ins ++ r.inserted) ∧
      ins ++ r.inserted = fifoInserted ins [key] := by
  have hwin : (s.cache key).isSome = true ↔ key ∈ ins.drop (ins.length - 1024) := by
    rw [hinv.held key, mem_window_iff]
  cases hc : s.cache { z := key.z, x := key.x, y := key.y } with
  | some pix =>
    have hc2 : s.cache key = some pix := by
      rw [cacheKey_eta] at hc
      exact hc
    have hmem : key ∈ ins.drop (ins.length - 1024) := hwin.mp (by rw [hc2]; rfl)
    refine ⟨_, getTilePix_hit src s key.z key.x key.y pix hz hc, ?_, ?_⟩
    · show RingInv s (ins ++ [])
      rw [List.append_nil]; exact hinv
    · show ins ++ [] = fifoInserted ins [key]
      rw [List.append_nil, fifoInserted_cons_mem ins key [] hmem, fifoInserted_nil]
  | none =>
    obtain ⟨pix, hw⟩ := hsrc
    have hc2 : s.cache key = none := by
      rw [cacheKey_eta] at hc
      exact hc
    have hnmem : key ∉ ins.drop (ins.length - 1024) := by
      intro h
      have := hwin.mpr h
      rw [hc2] at this
      cases this
    obtain ⟨s2, hs2, hinv2⟩ := insert_inv s ins key pix hinv hc2 hn
    refine ⟨{ result := .ok pix, service := s2, calls := [key] }, ?_, hinv2, ?_⟩
    · rw [getTilePix_miss_ok src s key.z key.x key.y pix hz hc hw, cacheKey_eta, hs2]
      rfl
    · show ins ++ [key] = fifoInserted ins [key]
      rw [fifoInserted_cons_not_mem ins key [] hnmem, fifoInserted_nil]

theorem runLookups_fifo (src : Nat → TileSource)
    (hsrc : ∀ i z x y, ∃ pix, wgetTerrarium (src i) z x y = .ok pix)
    (keys : List cacheKey) :
    ∀ (i : Nat) (s : ElevationService) (ins : List cacheKey), RingInv s ins →
      (ins.length : Int) + (keys.length : Int) < 2 ^ 63 → (∀ k ∈ keys, k.z ≤ 14) →
      ∃ s2 ins2, runLookups src i s keys = .ok (s2, ins2) ∧ RingInv s2 (ins ++ ins2) ∧
        ins ++ ins2 = fifoInserted ins keys := by
  induction keys with
  | nil =>
    intro i s ins hinv _ _
    refine ⟨s, [], rfl, by rw [List.append_nil]; exact hinv, ?_⟩
    rw [List.append_nil, fifoInserted_nil]
  | cons key keys ih =>
    intro i s ins hinv hn hz
    have hlen : ((key :: keys).length : Int) = (keys.length : Int) + 1 := by
      rw [List.length_cons]; push_cast; rfl
    rw [hlen] at hn
    obtain ⟨r, hr, hinv1, hfifo1⟩ := getTilePix_fifo (src i) s ins key hinv (by omega)
      (hz key (List.mem_cons_self _ _)) (hsrc i key.z key.x key.y)
    have hr1 : (ins ++ r.inserted).length ≤ ins.length + 1 := by
      rw [hfifo1]
      by_cases h : key ∈ ins.drop (ins.length - 1024)
      · rw [fifoInserted_cons_mem ins key [] h, fifoInserted_nil]
        omega
      · rw [fifoInserted_cons_not_mem ins key [] h, fifoInserted_nil, List.length_append,
          List.length_singleton]
    have hn2 : ((ins ++ r.inserted).length : Int) + (keys.length : Int) < 2 ^ 63 := by
      have : ((ins ++ r.inserted).length : Int) ≤ (ins.length : Int) + 1 := by
        exact_mod_cast hr1
      omega
    obtain ⟨s2, ins2, hrun, hinv2, hfifo2⟩ :=
      ih (i + 1) r.service (ins ++ r.inserted) hinv1 hn2
        (fun k hk => hz k (List.mem_cons_of_mem _ hk))
    refine ⟨s2, r.inserted ++ ins2, ?_, ?_, ?_⟩
    · rw [runLookups, hr]
      show (runLookups src (i + 1) r.service keys >>= _) = _
      rw [hrun]
      rfl
    · rw [← List.append_assoc]; exact hinv2
    · rw [← List.append_assoc, hfifo2, hfifo1, ← fifoInserted_cons]

theorem runLookups_new (src : Nat → TileSource)
    (hsrc : ∀ i z x y, ∃ pix, wgetTerrarium (src i) z x y = .ok pix)
    (keys : List cacheKey) (hlen : keys.length < 2 ^ 63) (hz : ∀ k ∈ keys, k.z ≤ 14) :
    ∃ s, runLookups src 0 NewElevationService keys = .ok (s, fifoInserted [] keys) ∧
      RingInv s (fifoInserted [] keys) := by
  have hn : (([] : List cacheKey).length : Int) + (keys.length : Int) < 2 ^ 63 := by
    have : (keys.length : Int) < 2 ^ 63 := by exact_mod_cast hlen
    simpa using this
  obtain ⟨s, ins, hrun, hinv, hfifo⟩ :=
    runLookups_fifo src hsrc keys 0 NewElevationService [] newElevationService_inv hn hz
  rw [List.nil_append] at hinv hfifo
  rw [hfifo] at hrun hinv
  exact ⟨s, hrun, hinv⟩

theorem ringInv_window (s : ElevationService) (ins : List cacheKey) (hinv : RingInv s ins) :
    (∀ k, (s.cache k).isSome = true ↔ k ∈ ins.drop (ins.length - 1024)) ∧
      (ins.drop (ins.length - 1024)).Nodup ∧
      (ins.drop (ins.length - 1024)).length = min ins.length 1024 := by
  obtain ⟨_, _, _, hheld, hdist⟩ := hinv
  refine ⟨fun k => by rw [hheld k, mem_window_iff], ?_, ?_⟩
  · rw [List.nodup_iff_getElem?_ne_getElem?]
    intro i j hij hj
    rw [List.length_drop] at hj
    rw [List.getElem?_drop, List.getElem?_drop]
    exact hdist _ _ (by omega) (by omega) (by omega)
  · rw [List.length_drop]; omega

/-! ## Concrete lookups -/

theorem flat_fetch (z x y : Nat) :
    ∃ pix, wgetTerrarium TileSource.flat z x y = .ok pix :=
  ⟨List.replicate 262144 128, rfl⟩

theorem mem_rowKeys (n : Nat) (k : cacheKey) :
    k ∈ rowKeys n ↔ k.z = 14 ∧ k.x < n ∧ k.y = 0 := by
  unfold rowKeys rowKey
  rw [List.mem_map]
  constructor
  · rintro ⟨i, hi, rfl⟩
    exact ⟨rfl, List.mem_range.mp hi, rfl⟩
  · rintro ⟨h1, h2, h3⟩
    refine ⟨k.x, List.mem_range.mpr h2, ?_⟩
    cases k
    simp only at h1 h3
    rw [h1, h3]

theorem rowKeys_nodup (n : Nat) : (rowKeys n).Nodup := by
  unfold rowKeys
  refine List.Nodup.map ?_ (List.nodup_range n)
  intro a b h
  exact congrArg cacheKey.x h

theorem rowKeys_length (n : Nat) : (rowKeys n).length = n := by
  unfold rowKeys
  rw [List.length_map, List.length_range]

theorem rowKeys_card :
    (rowKeys 1024 ++ [rowKey 0]).toFinset.card = 1024 := by
  have hsub : (rowKeys 1024 ++ [rowKey 0]).toFinset =
      (rowKeys 1024).toFinset := by
    ext a
    rw [List.mem_toFinset, List.mem_toFinset, List.mem_append, List.mem_singleton]
    constructor
    · rintro (h | h)
      · exact h
      · rw [h, mem_rowKeys]
        exact ⟨rfl, by show 0 < 1024; norm_num, rfl⟩
    · exact Or.inl
  rw [hsub, List.toFinset_card_of_nodup (rowKeys_nodup 1024), rowKeys_length]

theorem rowKeys_last_not_mem :
    rowKey 1024 ∉
      rowKeys 1024 ++ [rowKey 0] := by
  intro h
  rcases List.mem_append.mp h with h1 | h1
  · have h2 : (rowKey 1024).x < 1024 := ((mem_rowKeys 1024 _).mp h1).2.1
    exact absurd h2 (by show ¬ (1024 < 1024); omega)
  · rw [List.mem_singleton] at h1
    have h2 : (1024 : Nat) = 0 := congrArg cacheKey.x h1
    omega

theorem rowKeys_zoom :
    ∀ k ∈ rowKeys 1024 ++ [rowKey 0] ++ [rowKey 1024],
      k.z ≤ 14 := by
  intro k hk
  rcases List.mem_append.mp hk with h1 | h1
  · rcases List.mem_append.mp h1 with h2 | h2
    · rw [((mem_rowKeys 1024 k).mp h2).1]
    · rw [List.mem_singleton] at h2
      rw [h2]
      exact Nat.le_refl 14
  · rw [List.mem_singleton] at h1
    rw [h1]
    exact Nat.le_refl 14

theorem rowKeys_count :
    (rowKeys 1024 ++ [rowKey 0]).length + 1 < 2 ^ 63 := by
  rw [List.length_append, rowKeys_length, List.length_singleton]
  norm_num

/-! ## Claim C15 -/

/-- C15: starting from a new `ElevationService`, with every fetch successful and
every key at zoom 14 or below, the lookups `keys`, run one after the other, insert
exactly the keys that a first-in-first-out cache of 1024 entries inserts, in the same
order: each lookup of a key that is not held inserts it, each lookup of a held key
inserts nothing.  The cache then holds exactly the keys of the last `min(n, 1024)`
insertions, which are pairwise different, so it never holds more than 1024 entries.
When the lookups `pre` name exactly 1024 different keys, in any order and with any
repetitions, and `last` is a further key, then after the lookups `pre ++ [last]` there
were 1025 insertions of pairwise different keys, the first of them the first key of
`pre`, and the cache holds all of them except that first key, however recently it was
looked up again.  The numbers of lookups are below `2 ^ 63`, the range of the Go
`int` counter. -/
theorem cache_evicts_in_insertion_order (src : Nat → TileSource)
    (keys pre : List cacheKey) (last : cacheKey)
    (hsrc : ∀ i z x y, ∃ pix, wgetTerrarium (src i) z x y = .ok pix)
    (hlen : keys.length < 2 ^ 63) (hz : ∀ k ∈ keys, k.z ≤ 14)
    (hpre : pre.toFinset.card = 1024) (hlast : last ∉ pre)
    (hzp : ∀ k ∈ pre ++ [last], k.z ≤ 14) (hlenp : pre.length + 1 < 2 ^ 63) :
    (∃ s : ElevationService,
      runLookups src 0 NewElevationService keys = .ok (s, fifoInserted [] keys) ∧
      (∀ k, (s.cache k).isSome = true ↔
        k ∈ (fifoInserted [] keys).drop ((fifoInserted [] keys).length - 1024)) ∧
      ((fifoInserted [] keys).drop ((fifoInserted [] keys).length - 1024)).Nodup ∧
      ((fifoInserted [] keys).drop ((fifoInserted [] keys).length - 1024)).length =
        min (fifoInserted [] keys).length 1024 ∧
      s.lrui = ((fifoInserted [] keys).length : Int) ∧
      ∀ k, k ∈ fifoInserted [] keys → k ∈ keys) ∧
    ∃ (s : ElevationService) (first : cacheKey) (rest : List cacheKey),
      pre.head? = some first ∧
      runLookups src 0 NewElevationService (pre ++ [last]) = .ok (s, first :: rest) ∧
      (first :: rest).length = 1025 ∧ (first :: rest).Nodup ∧
      (∀ k, k ∈ first :: rest ↔ k ∈ pre ++ [last]) ∧
      s.cache first = none ∧
      (∀ k, (s.cache k).isSome = true ↔ k ∈ rest) ∧
      ∀ k, (s.cache k).isSome = true ↔ k ∈ pre ++ [last] ∧ k ≠ first := by
  constructor
  · obtain ⟨s, hrun, hinv⟩ := runLookups_new src hsrc keys hlen hz
    obtain ⟨h1, h2, h3⟩ := ringInv_window s _ hinv
    refine ⟨s, hrun, h1, h2, h3, hinv.count, ?_⟩
    intro k hk
    rcases fifoInserted_subset keys [] k hk with h | h
    · cases h
    · exact h
  · have hlen2 : (pre ++ [last]).length < 2 ^ 63 := by
      rw [List.length_append, List.length_singleton]
      exact hlenp
    obtain ⟨s, hrun, hinv⟩ := runLookups_new src hsrc (pre ++ [last]) hlen2 hzp
    obtain ⟨first, rest, hhead, hall, hcount, hnd, hmem, hdrop⟩ :=
      fifoInserted_fill pre last hpre hlast
    rw [hall] at hrun hinv
    obtain ⟨h1, _, _⟩ := ringInv_window s _ hinv
    rw [hdrop] at h1
    have hfirst : first ∉ rest := (List.nodup_cons.mp hnd).1
    have hheld : ∀ k, (s.cache k).isSome = true ↔ k ∈ pre ++ [last] ∧ k ≠ first := by
      intro k
      rw [h1 k, ← hmem k, List.mem_cons]
      constructor
      · intro h
        refine ⟨Or.inr h, ?_⟩
        intro hk
        rw [hk] at h
        exact hfirst h
      · rintro ⟨h | h, hne⟩
        · exact absurd h hne
        · exact h
    refine ⟨s, first, rest, hhead, hrun, hcount, hnd, hmem, ?_, h1, hheld⟩
    cases hc : s.cache first with
    | none => rfl
    | some pix =>
      have : (s.cache first).isSome = true := by rw [hc]; rfl
      exact absurd ((h1 first).mp this) hfirst

/-- C15 against the flat tile source: the lookups `(1,0,0)`, `(1,1,0)`, `(1,0,0)`;
and the lookups of the 1024 keys `(14, 0, 0)`, ..., `(14, 1023, 0)`, then `(14, 0, 0)`
once more, then `(14, 1024, 0)`, after which `(14, 0, 0)` is the one key evicted. -/
theorem cache_evicts_in_insertion_order_witness :
    ((∀ z x y : Nat, ∃ pix, wgetTerrarium TileSource.flat z x y = .ok pix) ∧
      ([{ z := 1, x := 0, y := 0 }, { z := 1, x := 1, y := 0 }, { z := 1, x := 0, y := 0 }] :
        List cacheKey).length < 2 ^ 63 ∧
      (∀ k ∈ ([{ z := 1, x := 0, y := 0 }, { z := 1, x := 1, y := 0 }, { z := 1, x := 0, y := 0 }] :
        List cacheKey), k.z ≤ 14) ∧
      (rowKeys 1024 ++ [rowKey 0]).toFinset.card = 1024 ∧
      rowKey 1024 ∉ rowKeys 1024 ++ [rowKey 0] ∧
      (∀ k ∈ rowKeys 1024 ++ [rowKey 0] ++ [rowKey 1024], k.z ≤ 14) ∧
      (rowKeys 1024 ++ [rowKey 0]).length + 1 < 2 ^ 63) ∧
    (∃ s : ElevationService,
      runLookups (fun _ => TileSource.flat) 0 NewElevationService ([{ z := 1, x := 0, y := 0 }, { z := 1, x := 1, y := 0 }, { z := 1, x := 0, y := 0 }] :
        List cacheKey) =
        .ok (s, fifoInserted [] ([{ z := 1, x := 0, y := 0 }, { z := 1, x := 1, y := 0 }, { z := 1, x := 0, y := 0 }] :
        List cacheKey)) ∧
      (∀ k, (s.cache k).isSome = true ↔
        k ∈ (fifoInserted [] ([{ z := 1, x := 0, y := 0 }, { z := 1, x := 1, y := 0 }, { z := 1, x := 0, y := 0 }] :
        List cacheKey)).drop ((fifoInserted [] ([{ z := 1, x := 0, y := 0 }, { z := 1, x := 1, y := 0 }, { z := 1, x := 0, y := 0 }] :
        List cacheKey)).length - 1024)) ∧
      ((fifoInserted [] ([{ z := 1, x := 0, y := 0 }, { z := 1, x := 1, y := 0 }, { z := 1, x := 0, y := 0 }] :
        List cacheKey)).drop ((fifoInserted [] ([{ z := 1, x := 0, y := 0 }, { z := 1, x := 1, y := 0 }, { z := 1, x := 0, y := 0 }] :
        List cacheKey)).length - 1024)).Nodup ∧
      ((fifoInserted [] ([{ z := 1, x := 0, y := 0 }, { z := 1, x := 1, y := 0 }, { z := 1, x := 0, y := 0 }] :
        List cacheKey)).drop ((fifoInserted [] ([{ z := 1, x := 0, y := 0 }, { z := 1, x := 1, y := 0 }, { z := 1, x := 0, y := 0 }] :
        List cacheKey)).length - 1024)).length =
        min (fifoInserted [] ([{ z := 1, x := 0, y := 0 }, { z := 1, x := 1, y := 0 }, { z := 1, x := 0, y := 0 }] :
        List cacheKey)).length 1024 ∧
      s.lrui = ((fifoInserted [] ([{ z := 1, x := 0, y := 0 }, { z := 1, x := 1, y := 0 }, { z := 1, x := 0, y := 0 }] :
        List cacheKey)).length : Int) ∧
      ∀ k, k ∈ fifoInserted [] ([{ z := 1, x := 0, y := 0 }, { z := 1, x := 1, y := 0 }, { z := 1, x := 0, y := 0 }] :
        List cacheKey) → k ∈ ([{ z := 1, x := 0, y := 0 }, { z := 1, x := 1, y := 0 }, { z := 1, x := 0, y := 0 }] :
        List cacheKey)) ∧
    ∃ (s : ElevationService) (first : cacheKey) (rest : List cacheKey),
      (rowKeys 1024 ++ [rowKey 0]).head? = some first ∧
      runLookups (fun _ => TileSource.flat) 0 NewElevationService
          (rowKeys 1024 ++ [rowKey 0] ++ [rowKey 1024]) =
        .ok (s, first :: rest) ∧
      (first :: rest).length = 1025 ∧ (first :: rest).Nodup ∧
      (∀ k, k ∈ first :: rest ↔ k ∈ rowKeys 1024 ++ [rowKey 0] ++ [rowKey 1024]) ∧
      s.cache first = none ∧
      (∀ k, (s.cache k).isSome = true ↔ k ∈ rest) ∧
      ∀ k, (s.cache k).isSome = true ↔
        k ∈ rowKeys 1024 ++ [rowKey 0] ++ [rowKey 1024] ∧ k ≠ first :=
  ⟨⟨flat_fetch, by decide, by decide, rowKeys_card, rowKeys_last_not_mem,
      rowKeys_zoom, rowKeys_count⟩,
    cache_evicts_in_insertion_order (fun _ => TileSource.flat)
      [{ z := 1, x := 0, y := 0 }, { z := 1, x := 1, y := 0 }, { z := 1, x := 0, y := 0 }]
      (rowKeys 1024 ++ [rowKey 0]) (rowKey 1024)
      (fun _ => flat_fetch) (by decide) (by decide) rowKeys_card rowKeys_last_not_mem
      rowKeys_zoom rowKeys_count⟩

/-! ## Real arithmetic: the point of latitude 31.5590 and longitude 35.4732 -/

theorem mercatorY_scenario (math : Math ℝ) (h : math.IsReal) :
    (19 / 50 : ℝ) ≤ mercatorY math 31.5590 ∧ mercatorY math 31.5590 ≤ 421 / 1000 := by
  rw [mercatorY_real math h]
  have hpi1 := Real.pi_gt_d2
  have hpi2 := Real.pi_lt_d2
  have hpi : 0 < Real.pi := Real.pi_pos
  have hx1 : (5505 / 10000 : ℝ) ≤ 31.5590 * Real.pi / 180 := by
    norm_num at hpi1 ⊢
    linarith
  have hx2 : (31.5590 : ℝ) * Real.pi / 180 ≤ 5523 / 10000 := by
    norm_num at hpi2 ⊢
    linarith
  generalize (31.5590 : ℝ) * Real.pi / 180 = x at hx1 hx2
  have hx0 : 0 < x := by linarith
  have hs2 : Real.sin x ≤ 5523 / 10000 := le_trans (Real.sin_le hx0.le) hx2
  have hcube : x ^ 3 ≤ (5523 / 10000 : ℝ) ^ 3 := pow_le_pow_left₀ hx0.le hx2 3
  have hs1 : (508 / 1000 : ℝ) ≤ Real.sin x := by
    have := Real.sin_gt_sub_cube hx0 (by linarith)
    norm_num at hcube
    linarith
  generalize Real.sin x = s at hs1 hs2
  have hden : 0 < 1 - s := by linarith
  have hr1 : (272 / 100 : ℝ) ≤ (1 + s) / (1 - s) := by
    rw [le_div_iff₀ hden]
    linarith
  have hr2 : (1 + s) / (1 - s) ≤ 36 / 10 := by
    rw [div_le_iff₀ hden]
    linarith
  generalize (1 + s) / (1 - s) = r at hr1 hr2
  have hr0 : 0 < r := by linarith
  have hl1 : (1 : ℝ) ≤ Real.log r := by
    rw [Real.le_log_iff_exp_le hr0]
    have := Real.exp_one_lt_d9
    norm_num at this
    linarith
  have hl2 : Real.log r ≤ 3 / 2 := by
    rw [Real.log_le_iff_le_exp hr0]
    have := Real.quadratic_le_exp_of_nonneg (by norm_num : (0 : ℝ) ≤ 3 / 2)
    norm_num at this
    linarith
  generalize Real.log r = l at hl1 hl2
  have h4 : (0 : ℝ) < 4 * Real.pi := by positivity
  constructor
  · have : l / (4 * Real.pi) ≤ 12 / 100 := by
      rw [div_le_iff₀ h4]
      norm_num at hpi1
      linarith
    linarith
  · have : (79 / 1000 : ℝ) ≤ l / (4 * Real.pi) := by
      rw [le_div_iff₀ h4]
      norm_num at hpi2
      linarith
    linarith

theorem scenario_tile (math : Math ℝ) (h : math.IsReal) :
    Coord.Tile math { x := 35.4732, y := 31.5590, datum := EPSG4326 } 4 =
      .ok { z := 4, x := 9, y := 6 } := by
  obtain ⟨hm1, hm2⟩ := mercatorY_scenario math h
  have hM : ((256 * 2 ^ 4 : ℕ) : ℝ) = 4096 := by norm_num
  have hclon : clip (35.4732 : ℝ) minLon maxLon = 35.4732 :=
    clip_eq_self (35.4732 : ℝ) minLon maxLon (by unfold minLon; norm_num)
      (by unfold maxLon; norm_num)
  have hclat : clip (31.5590 : ℝ) minLat maxLat = 31.5590 :=
    clip_eq_self (31.5590 : ℝ) minLat maxLat (by unfold minLat; norm_num)
      (by unfold maxLat; norm_num)
  have hX := toUint64_in_tile (((35.4732 : ℝ) + 180) / 360 * 4096 + 0.5) 9 (256 * 2 ^ 4)
    (by norm_num) (by norm_num) (by norm_num) (by norm_num)
  have hY := toUint64_in_tile (mercatorY math 31.5590 * 4096 + 0.5) 6 (256 * 2 ^ 4)
    (by norm_num; linarith) (by norm_num; linarith) (by norm_num) (by norm_num)
  have hcx : clip (((35.4732 : ℝ) + 180) / 360 * 4096 + 0.5) 0 (4096 - 1) =
      ((35.4732 : ℝ) + 180) / 360 * 4096 + 0.5 :=
    clip_eq_self _ _ _ (by norm_num) (by norm_num)
  have hcy : clip (mercatorY math 31.5590 * 4096 + 0.5) 0 (4096 - 1) =
      mercatorY math 31.5590 * 4096 + 0.5 :=
    clip_eq_self _ _ _ (by norm_num; linarith) (by norm_num; linarith)
  have htile := coord_tile_eq math 31.5590 35.4732 4
    (toUint64 (((35.4732 : ℝ) + 180) / 360 * 4096 + 0.5))
    (toUint64 (mercatorY math 31.5590 * 4096 + 0.5)) (by decide)
    (by rw [hclon, hM, hcx]) (by rw [hclat, hM, hcy]) hX.2 hY.2
  rw [htile, hX.1, hY.1]

theorem scenario_bounds (math : Math ℝ) (h : math.IsReal) :
    ∃ mn mx : Coord ℝ, Tile.Bounds math { z := 4, x := 9, y := 6 } = .ok (mn, mx) ∧
      mn.x = 22.5 ∧ mx.x = 45 ∧ mn.x ≤ 35.4732 ∧ 35.4732 ≤ mx.x ∧
      mn.y ≤ 31.5590 ∧ 31.5590 ≤ mx.y := by
  obtain ⟨hm1, hm2⟩ := mercatorY_scenario math h
  have hb := bounds_inner_eq math { z := 4, x := 9, y := 6 } (by decide) (by decide)
    (by decide)
  refine ⟨_, _, hb, ?_, ?_, ?_, ?_, ?_, ?_⟩
  · norm_num
  · norm_num
  · norm_num
  · norm_num
  · show pixelLat math (0.5 - (((6 + 1) * 256 : ℕ) : ℝ) / ((256 * 2 ^ 4 : ℕ) : ℝ)) ≤ 31.5590
    by_contra hnot
    have hlt := not_le.mp hnot
    obtain ⟨_, hr2⟩ := pixelLat_range math h
      (0.5 - (((6 + 1) * 256 : ℕ) : ℝ) / ((256 * 2 ^ 4 : ℕ) : ℝ))
    have hanti := mercatorY_antitone math h 31.5590
      (pixelLat math (0.5 - (((6 + 1) * 256 : ℕ) : ℝ) / ((256 * 2 ^ 4 : ℕ) : ℝ)))
      (by norm_num) hlt.le hr2
    rw [mercatorY_pixelLat math h] at hanti
    norm_num at hanti
    linarith
  · show 31.5590 ≤ pixelLat math (0.5 - ((6 * 256 : ℕ) : ℝ) / ((256 * 2 ^ 4 : ℕ) : ℝ))
    by_contra hnot
    have hlt := not_le.mp hnot
    obtain ⟨hr1, _⟩ := pixelLat_range math h
      (0.5 - ((6 * 256 : ℕ) : ℝ) / ((256 * 2 ^ 4 : ℕ) : ℝ))
    have hanti := mercatorY_antitone math h
      (pixelLat math (0.5 - ((6 * 256 : ℕ) : ℝ) / ((256 * 2 ^ 4 : ℕ) : ℝ))) 31.5590
      hr1 hlt.le (by norm_num)
    rw [mercatorY_pixelLat math h] at hanti
    norm_num at hanti
    linarith

/-! ## Claim C13 (amended) -/

/-- C13 amended: reading `float64` arithmetic as exact real arithmetic, for every
latitude in `[-85.05112877980659, 85.05112877980659]`, longitude in `[-180, 180]` and
zoom up to 38 such that the tile `t = MakeLatLonCoord(lat, lon).Tile(zoom)` is not in
the last column or the last row of its zoom, `t.Bounds()` returns `(min, max)` and the
box moved by half a pixel to the north-west contains the point:
`min.lon - 180/mapSize ≤ lon < max.lon - 180/mapSize` and, for the fraction `yy` that
`Coord.Pixel` computes from a latitude,
`yy(max.lat) - 1/(2*mapSize) ≤ yy(lat) < yy(min.lat) - 1/(2*mapSize)`, with
`mapSize = MapPixelSize(zoom)`; hence `lon < max.lon` and `min.lat < lat`.  At the
specification's point, latitude 31.5590 and longitude 35.4732 at zoom 4, the tile is
`(4, 9, 6)` and its bounds contain the point: `min.lon ≤ lon ≤ max.lon` and
`min.lat ≤ lat ≤ max.lat`. -/
theorem point_in_shifted_bounds (math : Math ℝ) (hmath : math.IsReal) (lat lon : ℝ)
    (zoom : ℕ) (hzoom : zoom ≤ 38)
    (hlat : -85.05112877980659 ≤ lat ∧ lat ≤ 85.05112877980659)
    (hlon : -180 ≤ lon ∧ lon ≤ 180)
    (hedge : ∀ t, Coord.Tile math { x := lon, y := lat, datum := EPSG4326 } zoom = .ok t →
      t.x + 1 < 2 ^ zoom ∧ t.y + 1 < 2 ^ zoom) :
    (∃ (c : Coord ℝ) (t : Tile) (mn mx : Coord ℝ), MakeLatLonCoord lat lon = .ok c ∧
      Coord.Tile math c zoom = .ok t ∧ t.z = zoom ∧
      t.x + 1 < 2 ^ zoom ∧ t.y + 1 < 2 ^ zoom ∧
      Tile.Bounds math t = .ok (mn, mx) ∧
      mn.x - 180 / ((256 * 2 ^ zoom : ℕ) : ℝ) ≤ lon ∧
      lon < mx.x - 180 / ((256 * 2 ^ zoom : ℕ) : ℝ) ∧
      mercatorY math mx.y - 1 / (2 * ((256 * 2 ^ zoom : ℕ) : ℝ)) ≤ mercatorY math lat ∧
      mercatorY math lat <
        mercatorY math mn.y - 1 / (2 * ((256 * 2 ^ zoom : ℕ) : ℝ)) ∧
      lon < mx.x ∧ mn.y < lat) ∧
    ∃ (c : Coord ℝ) (mn mx : Coord ℝ), MakeLatLonCoord (31.5590 : ℝ) 35.4732 = .ok c ∧
      Coord.Tile math c 4 = .ok { z := 4, x := 9, y := 6 } ∧
      Tile.Bounds math { z := 4, x := 9, y := 6 } = .ok (mn, mx) ∧
      mn.x ≤ 35.4732 ∧ 35.4732 ≤ mx.x ∧ mn.y ≤ 31.5590 ∧ 31.5590 ≤ mx.y := by
  refine ⟨?_, ?_⟩
  swap
  · obtain ⟨mn, mx, hb, _, _, h1, h2, h3, h4⟩ := scenario_bounds math hmath
    exact ⟨_, mn, mx, makeLatLonCoord_ok _ _, scenario_tile math hmath, hb, h1, h2, h3, h4⟩
  have hlat1 : (minLat : ℝ) ≤ lat := by unfold minLat; exact hlat.1
  have hlat2 : lat ≤ (maxLat : ℝ) := by unfold maxLat; exact hlat.2
  have hlon1 : (minLon : ℝ) ≤ lon := by unfold minLon; exact hlon.1
  have hlon2 : lon ≤ (maxLon : ℝ) := by unfold maxLon; exact hlon.2
  obtain ⟨hM1, hM2, hM3⟩ := mapSize_cast_bounds zoom hzoom
  have hMnat : 1 ≤ 256 * 2 ^ zoom := by
    have : 1 ≤ 2 ^ zoom := Nat.one_le_two_pow
    omega
  have h05 : (0.5 : ℝ) = 1 / 2 := by norm_num
  -- the two pixel coordinates
  have hvx : 0 ≤ (lon + 180) / 360 * ((256 * 2 ^ zoom : ℕ) : ℝ) + 0.5 := by
    have : 0 ≤ (lon + 180) / 360 * ((256 * 2 ^ zoom : ℕ) : ℝ) :=
      mul_nonneg (div_nonneg (by linarith [hlon.1]) (by norm_num)) (by linarith)
    rw [h05]; linarith
  have hvy := mercatorY_nonneg_shift math hmath lat zoom hzoom hlat1 hlat2
  obtain ⟨hX1, hX2, hX3⟩ := toUint64_clip_floor _ (256 * 2 ^ zoom) hMnat hM3 hvx
  obtain ⟨hY1, hY2, hY3⟩ := toUint64_clip_floor _ (256 * 2 ^ zoom) hMnat hM3 hvy
  generalize hX : toUint64 (clip ((lon + 180) / 360 * ((256 * 2 ^ zoom : ℕ) : ℝ) + 0.5) 0
    (((256 * 2 ^ zoom : ℕ) : ℝ) - 1)) = X at hX1 hX2 hX3
  generalize hY : toUint64 (clip (mercatorY math lat * ((256 * 2 ^ zoom : ℕ) : ℝ) + 0.5) 0
    (((256 * 2 ^ zoom : ℕ) : ℝ) - 1)) = Y at hY1 hY2 hY3
  have htile := coord_tile_eq math lat lon zoom X Y hzoom
    (by rw [clip_eq_self lon _ _ hlon1 hlon2]; exact hX)
    (by rw [clip_eq_self lat _ _ hlat1 hlat2]; exact hY) hX1 hY1
  obtain ⟨hxa, hxb⟩ := div_256_bounds X (X / 256) rfl
  obtain ⟨hya, hyb⟩ := div_256_bounds Y (Y / 256) rfl
  obtain ⟨hxe, hye⟩ := hedge _ htile
  refine ⟨_, _, _, _, makeLatLonCoord_ok lat lon, htile, rfl, hxe, hye,
    bounds_inner_eq math _ hzoom hxe hye, ?_⟩
  · have hxe2 : X / 256 + 1 < 2 ^ zoom := hxe
    have hye2 : Y / 256 + 1 < 2 ^ zoom := hye
    simp only
    have hX4 := hX3 (by omega)
    have hY4 := hY3 (by omega)
    -- casts of the tile corners
    have cxa : (((X / 256 * 256 : ℕ)) : ℝ) ≤ (X : ℝ) := Nat.cast_le.mpr hxa
    have cxb : (X : ℝ) + 1 ≤ ((((X / 256 + 1) * 256 : ℕ)) : ℝ) := by
      have : X + 1 ≤ (X / 256 + 1) * 256 := hxb
      exact_mod_cast this
    have cya : (((Y / 256 * 256 : ℕ)) : ℝ) ≤ (Y : ℝ) := Nat.cast_le.mpr hya
    have cyb : (Y : ℝ) + 1 ≤ ((((Y / 256 + 1) * 256 : ℕ)) : ℝ) := by
      have : Y + 1 ≤ (Y / 256 + 1) * 256 := hyb
      exact_mod_cast this
    rw [mercatorY_pixelLat math hmath, mercatorY_pixelLat math hmath]
    generalize ((X / 256 * 256 : ℕ) : ℝ) = A at cxa
    generalize (((X / 256 + 1) * 256 : ℕ) : ℝ) = B at cxb
    generalize ((Y / 256 * 256 : ℕ) : ℝ) = C at cya
    generalize (((Y / 256 + 1) * 256 : ℕ) : ℝ) = D at cyb
    generalize ((256 * 2 ^ zoom : ℕ) : ℝ) = M at hM1 hM2 hvx hvy hX2 hY2 hX4 hY4
    have hMpos : 0 < M := by linarith
    rw [h05] at hX2 hY2 hX4 hY4
    have e1 : (lon + 180) / 360 * M = (lon + 180) * M / 360 := by ring
    rw [e1] at hX2 hX4
    have k1 : 360 * (A / M - 0.5) - 180 / M ≤ lon := by
      have : 360 * (A / M - 0.5) - 180 / M = (360 * A - 180 * M - 180) / M := by
        rw [h05]; field_simp; ring
      rw [this, div_le_iff₀ hMpos]
      linarith
    have k2 : lon < 360 * (B / M - 0.5) - 180 / M := by
      have : 360 * (B / M - 0.5) - 180 / M = (360 * B - 180 * M - 180) / M := by
        rw [h05]; field_simp; ring
      rw [this, lt_div_iff₀ hMpos]
      linarith
    have k3 : 1 / 2 - (0.5 - C / M) - 1 / (2 * M) ≤ mercatorY math lat := by
      have : (1 : ℝ) / 2 - (0.5 - C / M) - 1 / (2 * M) = (2 * C - 1) / (2 * M) := by
        rw [h05]; field_simp
      rw [this, div_le_iff₀ (by linarith)]
      linarith
    have k4 : mercatorY math lat < 1 / 2 - (0.5 - D / M) - 1 / (2 * M) := by
      have : (1 : ℝ) / 2 - (0.5 - D / M) - 1 / (2 * M) = (2 * D - 1) / (2 * M) := by
        rw [h05]; field_simp
      rw [this, lt_div_iff₀ (by linarith)]
      linarith
    have k5 : lon < 360 * (B / M - 0.5) := by
      have : 0 < 180 / M := by positivity
      linarith
    refine ⟨k1, k2, k3, k4, k5, ?_⟩
    by_contra hnot
    have hle : lat ≤ pixelLat math (0.5 - D / M) := not_lt.mp hnot
    have hminr : (-90 : ℝ) < minLat := by unfold minLat; norm_num
    obtain ⟨_, hr2⟩ := pixelLat_range math hmath (0.5 - D / M)
    have hlat3 : (-90 : ℝ) < lat := lt_of_lt_of_le hminr hlat1
    have hanti := mercatorY_antitone math hmath lat (pixelLat math (0.5 - D / M)) hlat3 hle hr2
    rw [mercatorY_pixelLat math hmath] at hanti
    have : 0 < 1 / (2 * M) := by positivity
    linarith

/-- C13 amended, at the specification's point of latitude 31.5590 and longitude
35.4732 at zoom 4, with the real functions: the tile is `(4, 9, 6)`, which is not in
the last column or row. -/
theorem point_in_shifted_bounds_witness :
    ((4 : ℕ) ≤ 38 ∧
      ((-85.05112877980659 : ℝ) ≤ 31.5590 ∧ (31.5590 : ℝ) ≤ 85.05112877980659) ∧
      ((-180 : ℝ) ≤ 35.4732 ∧ (35.4732 : ℝ) ≤ 180) ∧
      Coord.Tile
          { Pi := Real.pi, Sin := Real.sin, Log := Real.log, Exp := Real.exp,
            Atan := Real.arctan, Tan := Real.tan }
          { x := 35.4732, y := 31.5590, datum := EPSG4326 } 4 =
        .ok { z := 4, x := 9, y := 6 } ∧
      (9 : ℕ) + 1 < 2 ^ 4 ∧ (6 : ℕ) + 1 < 2 ^ 4) ∧
    (∃ (c : Coord ℝ) (t : Tile) (mn mx : Coord ℝ),
      MakeLatLonCoord (31.5590 : ℝ) 35.4732 = .ok c ∧
      Coord.Tile
          { Pi := Real.pi, Sin := Real.sin, Log := Real.log, Exp := Real.exp,
            Atan := Real.arctan, Tan := Real.tan }
          c 4 = .ok t ∧
      t.z = 4 ∧ t.x + 1 < 2 ^ 4 ∧ t.y + 1 < 2 ^ 4 ∧
      Tile.Bounds
          { Pi := Real.pi, Sin := Real.sin, Log := Real.log, Exp := Real.exp,
            Atan := Real.arctan, Tan := Real.tan }
          t = .ok (mn, mx) ∧
      mn.x - 180 / ((256 * 2 ^ 4 : ℕ) : ℝ) ≤ 35.4732 ∧
      35.4732 < mx.x - 180 / ((256 * 2 ^ 4 : ℕ) : ℝ) ∧
      mercatorY
          { Pi := Real.pi, Sin := Real.sin, Log := Real.log, Exp := Real.exp,
            Atan := Real.arctan, Tan := Real.tan }
          mx.y - 1 / (2 * ((256 * 2 ^ 4 : ℕ) : ℝ)) ≤
        mercatorY
          { Pi := Real.pi, Sin := Real.sin, Log := Real.log, Exp := Real.exp,
            Atan := Real.arctan, Tan := Real.tan }
          31.5590 ∧
      mercatorY
          { Pi := Real.pi, Sin := Real.sin, Log := Real.log, Exp := Real.exp,
            Atan := Real.arctan, Tan := Real.tan }
          31.5590 <
        mercatorY
          { Pi := Real.pi, Sin := Real.sin, Log := Real.log, Exp := Real.exp,
            Atan := Real.arctan, Tan := Real.tan }
          mn.y - 1 / (2 * ((256 * 2 ^ 4 : ℕ) : ℝ)) ∧
      35.4732 < mx.x ∧ mn.y < 31.5590) ∧
    ∃ (c : Coord ℝ) (mn mx : Coord ℝ), MakeLatLonCoord (31.5590 : ℝ) 35.4732 = .ok c ∧
      Coord.Tile
          { Pi := Real.pi, Sin := Real.sin, Log := Real.log, Exp := Real.exp,
            Atan := Real.arctan, Tan := Real.tan }
          c 4 = .ok { z := 4, x := 9, y := 6 } ∧
      Tile.Bounds
          { Pi := Real.pi, Sin := Real.sin, Log := Real.log, Exp := Real.exp,
            Atan := Real.arctan, Tan := Real.tan }
          { z := 4, x := 9, y := 6 } = .ok (mn, mx) ∧
      mn.x ≤ 35.4732 ∧ 35.4732 ≤ mx.x ∧ mn.y ≤ 31.5590 ∧ 31.5590 ≤ mx.y :=
  ⟨⟨by decide, by norm_num, by norm_num,
      scenario_tile
        { Pi := Real.pi, Sin := Real.sin, Log := Real.log, Exp := Real.exp,
          Atan := Real.arctan, Tan := Real.tan }
        ⟨rfl, rfl, rfl, rfl, rfl, rfl⟩,
      by decide, by decide⟩,
    point_in_shifted_bounds
      { Pi := Real.pi, Sin := Real.sin, Log := Real.log, Exp := Real.exp,
        Atan := Real.arctan, Tan := Real.tan }
      ⟨rfl, rfl, rfl, rfl, rfl, rfl⟩ 31.5590 35.4732 4 (by decide) (by norm_num)
      (by norm_num)
      (fun t ht =>
        Except.ok.inj
          ((scenario_tile
            { Pi := Real.pi, Sin := Real.sin, Log := Real.log, Exp := Real.exp,
              Atan := Real.arctan, Tan := Real.tan }
            ⟨rfl, rfl, rfl, rfl, rfl, rfl⟩).symm.trans ht) ▸
          ⟨by decide, by decide⟩)⟩

end Terrain
